import Mathlib

/-
Verification of the ATS CV-tailoring toolset: keyword extraction and scoring
engine (keyword-extractor.js), the two tailoring engines (tailor-universal.js
and cv-tailor.js), the keyword-chip matcher (ui-keyword-chips.js) and the
orchestrator (auto-tailor-95.js).

Modelling conventions:
  - JavaScript strings are modelled as List Char.  All string data handled by
    the repository is ASCII, and on ASCII the models of toLowerCase and of the
    case-insensitive regex flag agree with JavaScript.
  - JavaScript numbers are modelled as Nat / Int / Rat with exact arithmetic.
    Math.round(x) for x >= 0 is floor(x + 1/2), which matches Mathlib round.
  - A case-insensitive regex test of an escaped literal k wrapped in word
    boundary anchors is modelled by wbMatch: an occurrence of the (lowercased)
    literal whose two ends both sit on a word/non-word boundary.
  - async functions whose awaits only yield to the event loop are modelled as
    pure functions; the yields have no effect on the computed values.
-/

set_option maxRecDepth 20000

namespace ATS

/-- Shorthand turning a string literal into the List Char representation. -/
def str (s : String) : List Char := s.toList

/-- JavaScript whitespace for the \s class, String.trim and String.split:
the ASCII whitespace characters (space, tab, newline, carriage return,
vertical tab, form feed).  All inputs handled here are ASCII. -/
def jsWsChar (c : Char) : Bool :=
  c = ' ' || c = '\t' || c = '\n' || c = '\r' || c = Char.ofNat 11 || c = Char.ofNat 12

/-- JavaScript regex word character \w = [A-Za-z0-9_] (ASCII), stated on
code points: digits 48-57, uppercase 65-90, underscore 95, lowercase 97-122. -/
def wordChar (c : Char) : Bool :=
  (48 ≤ c.toNat && c.toNat ≤ 57) || (65 ≤ c.toNat && c.toNat ≤ 90) ||
    (97 ≤ c.toNat && c.toNat ≤ 122) || c.toNat = 95

/-- String.prototype.toLowerCase on one character, ASCII fragment:
map A-Z (65-90) to a-z (97-122), leave everything else unchanged. -/
def jsToLower (c : Char) : Char :=
  if 65 ≤ c.toNat ∧ c.toNat ≤ 90 then Char.ofNat (c.toNat + 32) else c

/-- String.prototype.toLowerCase, ASCII fragment. -/
def lowerL (l : List Char) : List Char := l.map jsToLower

/-- isPre p l: p is a prefix of l (used to model literal regex/substring
matching at a fixed position). -/
def isPre : List Char → List Char → Bool
  | [], _ => true
  | _ :: _, [] => false
  | p :: ps, c :: cs => p = c && isPre ps cs

/-- endsWithL p l: p is a suffix of l. -/
def endsWithL (p l : List Char) : Bool := isPre p.reverse l.reverse

/-- String.prototype.includes: sub occurs as a contiguous substring of l. -/
def containsL (l sub : List Char) : Bool :=
  (List.range (l.length + 1)).any (fun i => isPre sub (l.drop i))

/-- The character of text at index i, if any, is a word character. -/
def wordAt (text : List Char) (i : Nat) : Bool :=
  match text[i]? with
  | some c => wordChar c
  | none => false

/-- The regex word-boundary anchor at position i of text: exactly one of the
character before position i and the character at position i is a word
character (out of range counts as non-word). -/
def boundaryAt (text : List Char) (i : Nat) : Bool :=
  (if i = 0 then false else wordAt text (i - 1)) != wordAt text i

/-- The literal kw occurs in text starting at index i. -/
def occursAt (text kw : List Char) (i : Nat) : Bool := isPre kw (text.drop i)

/-- One candidate match of the regex built from a keyword by wrapping the
escaped literal in word-boundary anchors: the literal occurs at i and both
anchors hold. -/
def wbMatchAt (text kw : List Char) (i : Nat) : Bool :=
  occursAt text kw i && boundaryAt text i && boundaryAt text (i + kw.length)

/-- Regex test of word-boundary-wrapped escaped literal kw against text
(both already lowercased by the callers modelled below, which renders the
case-insensitive flag a no-op). -/
def wbMatch (text kw : List Char) : Bool :=
  (List.range (text.length + 1)).any (wbMatchAt text kw)

/-- Math.round(num/den) for natural num, den: floor(num/den + 1/2) computed
with natural division.  (den = 0 never reaches this in the modelled code.) -/
def jsRoundNat (num den : Nat) : Nat := (2 * num + den) / (2 * den)

/-- String.prototype.trim and friends. -/
def trimStart (l : List Char) : List Char := l.dropWhile jsWsChar

def trimEnd (l : List Char) : List Char := (l.reverse.dropWhile jsWsChar).reverse

def trimL (l : List Char) : List Char := trimEnd (trimStart l)

/-- String.prototype.split on a single separator character (keeps empty
pieces, exactly like the JavaScript split on a one-character string). -/
def splitOnChar (sep : Char) : List Char → List (List Char)
  | [] => [[]]
  | c :: cs =>
      let r := splitOnChar sep cs
      if c = sep then [] :: r
      else
        match r with
        | [] => [[c]]
        | h :: tl => (c :: h) :: tl

/-- text.split(newline). -/
def splitLines (l : List Char) : List (List Char) := splitOnChar '\n' l

/-- lines.join(newline). -/
def joinLines : List (List Char) → List Char
  | [] => []
  | [l] => l
  | l :: ls => l ++ '\n' :: joinLines ls

/-- Array.prototype.join with an arbitrary separator string. -/
def joinSep (sep : List Char) : List (List Char) → List Char
  | [] => []
  | [l] => l
  | l :: ls => l ++ sep ++ joinSep sep ls

/-- An exact rational value num/den with positive denominator, the model of
the IEEE doubles the ranker computes with (kept as a raw pair so that kernel
evaluation never needs the irreducible field operations of the library
rationals; every denominator constructed below is positive). -/
structure Frac where
  num : ℤ
  den : ℤ
deriving Repr, DecidableEq

def fracOfInt (n : ℤ) : Frac := ⟨n, 1⟩

def fracMul (a b : Frac) : Frac := ⟨a.num * b.num, a.den * b.den⟩

/-- a is at most b, by cross multiplication (valid since denominators are
positive). -/
def fracLe (a b : Frac) : Bool := a.num * b.den ≤ b.num * a.den

/-- The mathematical value of a Frac. -/
def fracToQ (a : Frac) : ℚ := (a.num : ℚ) / (a.den : ℚ)

/-- Math.round of a nonnegative Frac: floor(num/den + 1/2), by integer floor
division. -/
def jsRoundF (a : Frac) : ℤ := (2 * a.num + a.den).fdiv (2 * a.den)

/-- Math.ceil of a Frac. -/
def fracCeil (a : Frac) : ℤ := -((-a.num).fdiv a.den)

/-- Insert x into a list sorted by the total preorder le, before the first
element y with le x y; for ties the incoming (originally earlier) element
lands first, giving stability. -/
def insertSorted {α : Type} (le : α → α → Bool) (x : α) : List α → List α
  | [] => [x]
  | y :: ys => if le x y then x :: y :: ys else y :: insertSorted le x ys

/-- Stable sort by a total preorder, modelling Array.prototype.sort with a
consistent comparator (stable per the ECMAScript specification; the stable
sort of a list is unique, so insertion sort is a faithful model). -/
def stableSortBy {α : Type} (le : α → α → Bool) : List α → List α
  | [] => []
  | x :: xs => insertSorted le x (stableSortBy le xs)

end ATS

namespace KeywordExtractor

open ATS

/-- Result shape of matchKeywords in keyword-extractor.js.  The early-return
branch of the source leaves totalKeywords undefined; it is modelled as 0
(no claim depends on that field in the early branch). -/
structure MatchResult where
  matched : List (List Char)
  missing : List (List Char)
  matchScore : Nat
  matchCount : Nat
  totalKeywords : Nat
deriving Repr, DecidableEq

/-- The per-keyword presence decision inside matchKeywords: build the regex
from the lowercased, escaped keyword wrapped in word-boundary anchors and
test it against the lowercased CV text. -/
def kwDecision (cvLower kw : List Char) : Bool := wbMatch cvLower (lowerL kw)

/-- matchKeywords from keyword-extractor.js.  The forEach loop pushing each
keyword to matched or missing according to the regex test is the pair of
filters below (the decision is a pure function of the keyword). -/
def matchKeywords (cvText : List Char) (keywords : List (List Char)) : MatchResult :=
  if cvText = [] || keywords = [] then ⟨[], [], 0, 0, 0⟩
  else
    let cvLower := lowerL cvText
    let matched := keywords.filter (fun k => kwDecision cvLower k)
    let missing := keywords.filter (fun k => !kwDecision cvLower k)
    let matchScore :=
      if keywords.length > 0 then jsRoundNat (matched.length * 100) keywords.length else 0
    ⟨matched, missing, matchScore, matched.length, keywords.length⟩

end KeywordExtractor

namespace CVTailor

open ATS

/-- hasKeyword from cv-tailor.js: empty guard, then the same escaped
word-boundary regex with the case-insensitive flag (modelled by lowering
both sides, equivalent on ASCII). -/
def hasKeyword (text keyword : List Char) : Bool :=
  if text = [] || keyword = [] then false
  else wbMatch (lowerL text) (lowerL keyword)

end CVTailor

namespace KeywordChips

open ATS

/-- checkKeywordMatch from ui-keyword-chips.js: first the word-boundary regex
test (case-insensitive, modelled by lowering both sides), and if that fails a
plain substring fallback cvLower.includes(keywordLower).  The first argument
is the CV text as passed by the caller (renderKeywordChips passes it already
lowercased). -/
def checkKeywordMatch (cvLower keyword : List Char) : Bool :=
  let keywordLower := lowerL keyword
  wbMatch (lowerL cvLower) keywordLower || containsL cvLower keywordLower

end KeywordChips

namespace KeywordExtractor

open ATS

/-- STOP_WORDS from keyword-extractor.js (set membership modelled by list
membership; the duplicated entries of the source literal are harmless). -/
def STOP_WORDS : List (List Char) :=
  (["a", "an", "the", "and", "or", "but", "in", "on", "at", "to", "for", "of", "with",
    "by", "from", "as", "is", "was", "are", "were", "been", "be", "have", "has", "had",
    "do", "does", "did", "will", "would", "could", "should", "may", "might", "must",
    "shall", "can", "need", "this", "that", "these", "those", "it", "its", "we", "you",
    "your", "our", "their", "my", "his", "her", "they", "them", "he", "she", "i", "me",
    "who", "what", "where", "when", "why", "how", "which", "all", "each", "every",
    "both", "few", "more", "most", "other", "some", "such", "no", "not", "only", "own",
    "same", "so", "than", "too", "very", "just", "also", "now", "here", "there", "then",
    "about", "after", "before", "above", "below", "between", "under", "over", "through",
    "during", "into", "out", "up", "down", "off", "again", "further", "once", "any",
    "work", "working", "job", "position", "role", "team", "company", "opportunity",
    "looking", "seeking", "required", "requirements", "preferred", "ability", "able",
    "experience", "years", "year", "etc", "including", "include", "includes", "new",
    "well", "based", "using", "within", "across", "strong", "excellent", "good",
    "ensure", "ensuring", "provide", "providing", "support", "supporting", "help",
    "helping", "develop", "developing", "build", "building", "create", "creating",
    "understand", "understanding", "knowledge", "skills", "skill", "candidate",
    "candidates", "applicant", "applicants", "must", "shall", "will", "ideally",
    "highly", "plus", "bonus", "nice", "have", "having", "get", "getting", "make",
    "making", "take", "taking", "use", "used", "uses", "per", "via", "like", "want",
    "wants", "wanted", "join", "joining", "joined", "lead", "leading", "leverage"] :
    List String).map str

/-- HIGH_VALUE_KEYWORDS from keyword-extractor.js. -/
def HIGH_VALUE_KEYWORDS : List (List Char) :=
  (["python", "java", "javascript", "typescript", "c++", "c#", "ruby", "go", "rust",
    "swift", "kotlin", "scala", "php", "perl", "r", "matlab", "julia",
    "react", "angular", "vue", "node", "express", "django", "flask", "spring",
    "tensorflow", "pytorch", "keras", "pandas", "numpy", "scikit-learn", "spark",
    "sql", "mysql", "postgresql", "mongodb", "redis", "elasticsearch", "cassandra",
    "oracle", "snowflake", "bigquery", "redshift", "dynamodb", "firebase",
    "aws", "azure", "gcp", "kubernetes", "docker", "terraform", "jenkins", "ci/cd",
    "circleci", "github", "gitlab", "ansible", "puppet", "chef", "cloudformation",
    "tableau", "powerbi", "looker", "excel", "analytics", "visualization", "etl",
    "data warehouse", "machine learning", "deep learning", "nlp", "ai", "ml",
    "statistics", "regression", "classification", "forecasting", "modeling",
    "agile", "scrum", "kanban", "jira", "confluence", "stakeholder", "communication",
    "presentation", "leadership", "cross-functional", "strategic", "analytical",
    "saas", "b2b", "b2c", "fintech", "healthcare", "e-commerce", "api", "rest",
    "graphql", "microservices", "architecture", "scalability", "optimization"] :
    List String).map str

/-- COMMON_PHRASES from keyword-extractor.js. -/
def COMMON_PHRASES : List (List Char) :=
  (["data visualization", "machine learning", "deep learning", "natural language processing",
    "computer vision", "data science", "data analysis", "data engineering", "data pipeline",
    "business intelligence", "business analyst", "product management", "project management",
    "software development", "software engineering", "full stack", "front end", "back end",
    "cloud computing", "cloud infrastructure", "continuous integration", "continuous deployment",
    "version control", "unit testing", "integration testing", "test automation",
    "agile methodology", "scrum master", "product owner", "user experience", "user interface",
    "customer success", "account management", "sales operations", "marketing automation",
    "financial analysis", "financial modeling", "risk management", "supply chain",
    "cross functional", "stakeholder management", "problem solving", "critical thinking",
    "attention to detail", "time management", "team collaboration", "remote work"] :
    List String).map str

/-- First replacement of cleanText: each HTML tag (an opening angle bracket,
any run of characters other than a closing angle bracket, then the closing
bracket) becomes one space; an opening bracket with no later closing bracket
stays, and scanning resumes at the following character.  The fuel argument
(initialised to the text length, which every step strictly decreases) keeps
the recursion structural. -/
def stripTagsF : Nat → List Char → List Char
  | 0, l => l
  | _ + 1, [] => []
  | fuel + 1, c :: cs =>
      if c = '<' then
        match cs.dropWhile (fun d => d ≠ '>') with
        | [] => c :: stripTagsF fuel cs
        | _ :: rest => ' ' :: stripTagsF fuel rest
      else c :: stripTagsF fuel cs

def stripTags (l : List Char) : List Char := stripTagsF l.length l

/-- Separator characters of the second replacement of cleanText. -/
def sepChar (c : Char) : Bool :=
  c = '•' || c = '-' || c = '–' || c = '—' || c = '|' || c = '/' || c = '\\' ||
    c = ':' || c = ';' || c = ','

/-- Characters kept by the third replacement of cleanText: ASCII letters,
digits, whitespace, plus, hash, dot. -/
def keepChar (c : Char) : Bool :=
  (48 ≤ c.toNat && c.toNat ≤ 57) || (65 ≤ c.toNat && c.toNat ≤ 90) ||
    (97 ≤ c.toNat && c.toNat ≤ 122) || jsWsChar c || c = '+' || c = '#' || c = '.'

/-- Fourth replacement of cleanText: each whitespace run becomes one space
(the flag records whether the previous character was whitespace, so later
characters of a run are dropped). -/
def collapseWsAux : Bool → List Char → List Char
  | _, [] => []
  | prevWs, c :: cs =>
      if jsWsChar c then
        if prevWs then collapseWsAux true cs
        else ' ' :: collapseWsAux true cs
      else c :: collapseWsAux false cs

def collapseWs (l : List Char) : List Char := collapseWsAux false l

/-- cleanText from keyword-extractor.js: strip HTML tags, separators to
spaces, remove special characters, collapse whitespace, trim, lowercase. -/
def cleanText (text : List Char) : List Char :=
  if text = [] then []
  else
    lowerL (trimL (collapseWs
      (((stripTags text).map (fun c => if sepChar c then ' ' else c)).map
        (fun c => if keepChar c then c else ' '))))

/-- String.split on a whitespace regex, modelled as the maximal non-whitespace
runs.  (JavaScript yields one extra empty token when the string starts with
whitespace; the length filter of tokenize removes it, so it is omitted.) -/
def wsSplitAux : List Char → List Char → List (List Char)
  | [], acc => if acc = [] then [] else [acc.reverse]
  | c :: cs, acc =>
      if jsWsChar c then
        (if acc = [] then wsSplitAux cs [] else acc.reverse :: wsSplitAux cs [])
      else wsSplitAux cs (c :: acc)

def wsSplit (l : List Char) : List (List Char) := wsSplitAux l []

/-- The pure-number test of tokenize. -/
def isNumericToken (w : List Char) : Bool :=
  !w.isEmpty && w.all (fun c => 48 ≤ c.toNat && c.toNat ≤ 57)

/-- The filter of tokenize: length at least 2, not a stop word, not a number. -/
def keepToken (w : List Char) : Bool :=
  w.length ≥ 2 && !STOP_WORDS.contains w && !isNumericToken w

/-- tokenize from keyword-extractor.js. -/
def tokenize (text : List Char) : List (List Char) := (wsSplit text).filter keepToken

/-- Count of the non-overlapping leftmost occurrences of pat, as returned by
a global regex match on a literal pattern.  The fuel argument (initialised to
the text length, which every step strictly decreases) keeps the recursion
structural. -/
def countOccF (pat : List Char) : Nat → List Char → Nat
  | 0, _ => 0
  | _ + 1, [] => 0
  | fuel + 1, c :: cs =>
      if isPre pat (c :: cs) && !pat.isEmpty then
        1 + countOccF pat fuel ((c :: cs).drop pat.length)
      else countOccF pat fuel cs

/-- Count of the non-overlapping leftmost occurrences of pat in text. -/
def countOcc (text pat : List Char) : Nat := countOccF pat text.length text

/-- extractPhrases from keyword-extractor.js: the configured phrases found by
substring search, with their global-match occurrence counts. -/
def extractPhrases (text : List Char) : List (List Char × Nat) :=
  COMMON_PHRASES.filterMap (fun p =>
    if containsL (lowerL text) p then some (p, countOcc (lowerL text) p) else none)

/-- One scored candidate term of the ranking (exact rational score). -/
structure ScoredItem where
  term : List Char
  score : Frac
  frequency : ℤ
  isPhrase : Bool
deriving Repr, DecidableEq

/-- calculateIDF from keyword-extractor.js: 1.0 boosted by 1.5 (length at
least 8) or 1.2 (length at least 6), by 2.0 for high-value vocabulary and by
1.3 for terms containing a digit, plus or hash. -/
def hasSpecial (t : List Char) : Bool :=
  t.any (fun c => (48 ≤ c.toNat && c.toNat ≤ 57) || c = '+' || c = '#')

def calculateIDF (term : List Char) : Frac :=
  let s1 : Frac := if term.length ≥ 8 then ⟨3, 2⟩ else if term.length ≥ 6 then ⟨6, 5⟩ else ⟨1, 1⟩
  let s2 : Frac := if HIGH_VALUE_KEYWORDS.contains term then fracMul s1 ⟨2, 1⟩ else s1
  if hasSpecial term then fracMul s2 ⟨13, 10⟩ else s2

/-- Object.keys insertion order for the term-frequency table: the distinct
tokens in order of first occurrence (no token is an integer-like key, the
numeric filter removed those). -/
def nubAux : List (List Char) → List (List Char) → List (List Char)
  | [], _ => []
  | x :: xs, seen => if seen.contains x then nubAux xs seen else x :: nubAux xs (x :: seen)

def nubKeepFirst (l : List (List Char)) : List (List Char) := nubAux l []

/-- The seen-set key of the deduplication step: lowercase, whitespace
removed. -/
def normalizeTerm (t : List Char) : List Char := (lowerL t).filter (fun c => !jsWsChar c)

/-- Splitting a term at single spaces, marking the constituent words of a
kept phrase. -/
def splitWords (t : List Char) : List (List Char) := splitOnChar ' ' t

/-- The deduplication loop of extractKeywords: keep an item when its
normalized term is unseen; mark it seen, and for a phrase also mark each of
its constituent words seen. -/
def dedupScores : List ScoredItem → List (List Char) → List ScoredItem
  | [], _ => []
  | item :: rest, seen =>
      let normalized := normalizeTerm item.term
      if seen.contains normalized then dedupScores rest seen
      else
        let seen2 :=
          if item.isPhrase then (normalized :: seen) ++ splitWords item.term
          else normalized :: seen
        item :: dedupScores rest seen2

/-- Array.prototype.slice index clamping: negative indices count from the
end, and both are clamped into the range 0..length. -/
def jsSliceIdx (n i : ℤ) : ℤ := if i < 0 then max (n + i) 0 else min i n

/-- Array.prototype.slice with the JavaScript index conventions. -/
def jsSlice {α : Type} (xs : List α) (start finish : ℤ) : List α :=
  (xs.drop (jsSliceIdx xs.length start).toNat).take
    (jsSliceIdx xs.length finish - jsSliceIdx xs.length start).toNat

/-- Result shape of extractKeywords. -/
structure KeywordSet where
  all : List (List Char)
  highPriority : List (List Char)
  mediumPriority : List (List Char)
  lowPriority : List (List Char)
  total : Nat
  details : List ScoredItem
deriving Repr, DecidableEq

/-- The priority-bucket sizes.  Exact arithmetic: the source computes
Math.ceil(n * 0.4) and Math.ceil(n * 0.35) in binary floating point, which
can differ from the exact ceiling for a few lengths (e.g. 35 * 0.4 rounds up
to 14.000000000000002); no claim below depends on the bucket sizes. -/
def highCountOf (n : Nat) : Nat := min 15 (fracCeil ⟨(n : ℤ) * 2, 5⟩).toNat

def mediumCountOf (n : Nat) : Nat := min 10 (fracCeil ⟨(n : ℤ) * 7, 20⟩).toNat

/-- The scored single-word candidates of extractKeywords: for each distinct
token, term frequency (count over total tokens) times the IDF weight. -/
def wordItems (cleaned : List Char) : List ScoredItem :=
  let tokens := tokenize cleaned
  (nubKeepFirst tokens).map (fun t =>
    let tf : Frac := ⟨tokens.count t, tokens.length⟩
    ⟨t, fracMul tf (calculateIDF t), jsRoundF (fracMul tf ⟨tokens.length, 1⟩), false⟩)

/-- The scored phrase candidates of extractKeywords: occurrence count times
the 3.0 phrase boost. -/
def phraseItems (cleaned : List Char) : List ScoredItem :=
  (extractPhrases cleaned).map (fun pf => ⟨pf.1, ⟨(pf.2 : ℤ) * 3, 1⟩, (pf.2 : ℤ), true⟩)

/-- The candidate list of extractKeywords sorted by descending score (the
source pushes word items first, then phrase items, then runs the stable
Array sort with comparator b.score - a.score). -/
def rankedItems (cleaned : List Char) : List ScoredItem :=
  stableSortBy (fun a b => fracLe b.score a.score) (wordItems cleaned ++ phraseItems cleaned)

/-- The deduplicated ranking of extractKeywords. -/
def uniqueItems (cleaned : List Char) : List ScoredItem :=
  dedupScores (rankedItems cleaned) []

/-- extractKeywords from keyword-extractor.js, with rational scores in place
of IEEE doubles (the sort comparator subtracts scores; it is modelled as the
stable descending mergeSort on the exact scores). -/
def extractKeywords (jobDescription : List Char) (maxKeywords : ℤ) : KeywordSet :=
  if jobDescription = [] then ⟨[], [], [], [], 0, []⟩
  else
    let cleaned := cleanText jobDescription
    let topKeywords := jsSlice (uniqueItems cleaned) 0 maxKeywords
    let highCount := highCountOf topKeywords.length
    let mediumCount := mediumCountOf topKeywords.length
    { all := topKeywords.map (·.term)
      highPriority := (topKeywords.take highCount).map (·.term)
      mediumPriority := ((topKeywords.drop highCount).take mediumCount).map (·.term)
      lowPriority := (topKeywords.drop (highCount + mediumCount)).map (·.term)
      total := topKeywords.length
      details := topKeywords.map (fun k =>
        ⟨k.term, ⟨jsRoundF (fracMul k.score ⟨100, 1⟩), 100⟩, k.frequency, k.isPhrase⟩) }

end KeywordExtractor

namespace TailorUniversal

open ATS

/-- CONFIG from tailor-universal.js. -/
def TARGET_SCORE : Nat := 95

def MAX_KEYWORDS_SUMMARY : Nat := 8

def MAX_KEYWORDS_EXPERIENCE : Nat := 20

def MAX_KEYWORDS_SKILLS : Nat := 15

/-- The section names of SECTION_PATTERNS, in the object-literal order the
parser iterates them. -/
inductive SecName
  | summary
  | experience
  | education
  | skills
  | certifications
  | projects
deriving DecidableEq, Repr

/-- The regex of a section as its list of alternatives, each alternative a
list of words joined by one-or-more whitespace in the pattern.  A trailing
optional s (degrees?, certifications?, licenses?, projects?) is dropped: the
patterns are unanchored at the right (the final character class is starred),
so they test exactly a start-of-line prefix, and a prefix test for the
singular form is equivalent. -/
def sectionAlts : SecName → List (List (List Char))
  | .summary => [["professional", "summary"], ["summary"], ["profile"], ["objective"],
      ["about", "me"]].map (List.map str)
  | .experience => [["experience"], ["work", "experience"], ["employment"],
      ["work", "history"], ["career", "history"]].map (List.map str)
  | .education => [["education"], ["academic"], ["qualifications"], ["degree"]].map (List.map str)
  | .skills => [["skills"], ["technical", "skills"], ["core", "competencies"],
      ["key", "skills"], ["technologies"]].map (List.map str)
  | .certifications => [["certification"], ["license"], ["credentials"]].map (List.map str)
  | .projects => [["project"], ["portfolio"], ["key", "projects"]].map (List.map str)

def patternOrder : List SecName :=
  [.summary, .experience, .education, .skills, .certifications, .projects]

/-- Match one alternative against the start of a (lowercased) line: the first
word is a prefix, each following word is preceded by at least one whitespace
character.  (Pattern words contain no whitespace, so consuming the maximal
whitespace run is equivalent to the regex one-or-more.) -/
def altTest : List (List Char) → List Char → Bool
  | [], _ => true
  | [w], l => isPre w l
  | w :: ws, l =>
      if isPre w l then
        let rest := (l.drop w.length)
        decide ((rest.takeWhile jsWsChar).length ≥ 1) && altTest ws (rest.dropWhile jsWsChar)
      else false

/-- The section selected for a line: the first pattern in object order whose
regex matches (the regexes are case-insensitive and anchored at the start of
the line, since a single line contains no newline). -/
def lineMatch (line : List Char) : Option SecName :=
  patternOrder.find? (fun s => (sectionAlts s).any (fun alt => altTest alt (lowerL line)))

/-- A parsed CV: the header text, the section map (the none key is the
header), and the first-open order of the named sections. -/
structure Parsed where
  header : List Char
  sections : List (Option SecName × List Char)
  sectionOrder : List SecName
deriving Repr, DecidableEq

def setSec (m : List (Option SecName × List Char)) (k : Option SecName) (v : List Char) :
    List (Option SecName × List Char) :=
  if m.any (fun p => p.1 = k) then m.map (fun p => if p.1 = k then (k, v) else p)
  else m ++ [(k, v)]

def getSec (m : List (Option SecName × List Char)) (k : Option SecName) : Option (List Char) :=
  (m.find? (fun p => p.1 = k)).map (fun p => p.2)

/-- The mutable state of the parseCV loop. -/
structure PState where
  sections : List (Option SecName × List Char)
  order : List SecName
  cur : Option SecName
  content : List (List Char)
deriving Repr

/-- Save the current section: join and trim its accumulated lines, and record
a named section in sectionOrder the first time it is seen. -/
def saveSection (st : PState) : PState :=
  { st with
    sections := setSec st.sections st.cur (trimL (joinLines st.content))
    order :=
      match st.cur with
      | none => st.order
      | some s => if st.order.contains s then st.order else st.order ++ [s] }

/-- One line of the parseCV loop. -/
def parseStep (st : PState) (line : List Char) : PState :=
  match lineMatch line with
  | some s =>
      let st2 := if st.content.length > 0 ∨ st.cur ≠ none then saveSection st else st
      { st2 with cur := some s, content := [line] }
  | none => { st with content := st.content ++ [line] }

/-- parseCV from tailor-universal.js. -/
def parseCV (cvText : List Char) : Parsed :=
  if cvText = [] then ⟨[], [], []⟩
  else
    let st := (splitLines cvText).foldl parseStep ⟨[], [], none, []⟩
    let st2 := if st.content.length > 0 then saveSection st else st
    ⟨(getSec st2.sections none).getD [], st2.sections, st2.order⟩

/-- The keyword-presence test used by all three injection strategies: the
escaped word-boundary regex of the keyword, case-insensitive, against the
lowercased section text. -/
def presentIn (textLower kw : List Char) : Bool := wbMatch (lowerL textLower) (lowerL kw)

structure EnhanceResult where
  enhanced : List Char
  injected : List (List Char)
deriving Repr, DecidableEq

/-- summary.search of a sentence-end (period, bang or question mark followed
by whitespace): the first such index, or -1. -/
def searchSentenceEnd (s : List Char) : ℤ :=
  match (List.range s.length).find? (fun i =>
    (match s[i]? with
     | some c => c = '.' || c = '!' || c = '?'
     | none => false) &&
    (match s[i + 1]? with
     | some c => jsWsChar c
     | none => false)) with
  | some i => (i : ℤ)
  | none => -1

/-- enhanceSummary from tailor-universal.js. -/
def enhanceSummary (summary : List Char) (keywords : List (List Char)) : EnhanceResult :=
  if summary = [] || keywords = [] then ⟨summary, []⟩
  else
    let summaryLower := lowerL summary
    let missingKeywords :=
      (keywords.filter (fun kw => !presentIn summaryLower kw)).take MAX_KEYWORDS_SUMMARY
    if missingKeywords = [] then ⟨summary, []⟩
    else
      let fse := searchSentenceEnd summary
      if fse > 20 then
        let beforePoint := summary.take (fse.toNat + 1)
        let afterPoint := summary.drop (fse.toNat + 1)
        let injection :=
          str " Expertise includes " ++ joinSep (str ", ") (missingKeywords.take 4) ++ str "."
        ⟨trimL (beforePoint ++ injection ++ [' '] ++ trimL afterPoint), missingKeywords.take 4⟩
      else
        let injection :=
          str " Proficient in " ++ joinSep (str ", ") (missingKeywords.take 5) ++ str "."
        ⟨trimL (trimL summary ++ injection), missingKeywords.take 5⟩

/-- The bullet glyphs of the experience bullet pattern. -/
def bulletChars : List Char := str "-•●○◦▪▸►"

/-- The bullet-line pattern: optional whitespace, one bullet glyph, optional
whitespace, then a non-empty rest.  The trailing whitespace run backs off by
one character when the rest would otherwise be empty (regex backtracking of
the starred class against the required non-empty group). -/
def bulletSplit (line : List Char) : Option (List Char × List Char) :=
  let ws1 := line.takeWhile jsWsChar
  let r1 := line.dropWhile jsWsChar
  match r1 with
  | [] => none
  | b :: r2 =>
      if bulletChars.contains b then
        if r2.isEmpty then none
        else
          let wsLen := min (r2.takeWhile jsWsChar).length (r2.length - 1)
          some (ws1 ++ b :: r2.take wsLen, r2.drop wsLen)
      else none

/-- s.lastIndexOf(comma). -/
def lastIndexOfComma (s : List Char) : ℤ :=
  match (List.range s.length).filter (fun i => s[i]? = some ',') |>.getLast? with
  | some i => (i : ℤ)
  | none => -1

/-- bulletText.replace of an optional trailing period and trailing
whitespace: strip the whitespace run at the end, then one period if present
(the leftmost match of the anchored regex). -/
def stripDotWs (s : List Char) : List Char :=
  let s1 := trimEnd s
  if s1.getLast? = some '.' then s1.dropLast else s1

/-- The bullet-map of enhanceExperience, carrying keywordIndex through the
lines; returns the enhanced lines and the keywords actually injected. -/
def enhanceExpLines (missing : List (List Char)) :
    List (List Char) → Nat → List (List Char) × List (List Char)
  | [], _ => ([], [])
  | line :: ls, ki =>
      match bulletSplit line with
      | some (pre, bulletText) =>
          if h : ki < missing.length then
            let keyword := missing.get ⟨ki, h⟩
            if !presentIn (lowerL bulletText) keyword then
              let ip : ℤ :=
                if bulletText.length > 50 then lastIndexOfComma bulletText
                else (bulletText.length : ℤ)
              if 20 < ip ∧ ip < (bulletText.length : ℤ) then
                let enhanced :=
                  bulletText.take ip.toNat ++ str ", utilizing " ++ keyword ++
                    bulletText.drop ip.toNat
                let r := enhanceExpLines missing ls (ki + 1)
                ((pre ++ enhanced) :: r.1, keyword :: r.2)
              else
                let enhanced := stripDotWs bulletText ++ str " with " ++ keyword ++ str "."
                let r := enhanceExpLines missing ls (ki + 1)
                ((pre ++ enhanced) :: r.1, keyword :: r.2)
            else
              let r := enhanceExpLines missing ls ki
              (line :: r.1, r.2)
          else
            let r := enhanceExpLines missing ls ki
            (line :: r.1, r.2)
      | none =>
          let r := enhanceExpLines missing ls ki
          (line :: r.1, r.2)

/-- enhanceExperience from tailor-universal.js. -/
def enhanceExperience (experience : List Char) (keywords : List (List Char)) : EnhanceResult :=
  if experience = [] || keywords = [] then ⟨experience, []⟩
  else
    let experienceLower := lowerL experience
    let missingKeywords :=
      (keywords.filter (fun kw => !presentIn experienceLower kw)).take MAX_KEYWORDS_EXPERIENCE
    if missingKeywords = [] then ⟨experience, []⟩
    else
      let r := enhanceExpLines missingKeywords (splitLines experience) 0
      ⟨joinLines r.1, r.2⟩

structure SkillsResult where
  enhanced : List Char
  injected : List (List Char)
  created : Bool
deriving Repr, DecidableEq

/-- enhanceSkills from tailor-universal.js. -/
def enhanceSkills (skills : List Char) (keywords : List (List Char)) : SkillsResult :=
  if keywords = [] then ⟨skills, [], false⟩
  else
    let skillsLower := lowerL skills
    let missingKeywords :=
      (keywords.filter (fun kw => !presentIn skillsLower kw)).take MAX_KEYWORDS_SKILLS
    if missingKeywords = [] then ⟨skills, [], false⟩
    else if skills = [] || (trimL skills).length < 20 then
      ⟨str "Skills" ++ '\n' :: joinSep (str " • ") missingKeywords, missingKeywords, true⟩
    else
      ⟨trimL skills ++ str " • " ++ joinSep (str " • ") missingKeywords, missingKeywords, false⟩

/-- reconstructCV from tailor-universal.js: header, then the sections in the
recorded order (an enhanced section replaces the parsed one unless it is the
empty string), then a skills section newly created by the injector, joined by
blank lines. -/
def reconstructCV (parsed : Parsed) (enhanced : List (Option SecName × List Char)) : List Char :=
  let parts0 := if parsed.header ≠ [] then [parsed.header] else []
  let parts1 := parsed.sectionOrder.foldl (fun acc s =>
    let e := (getSec enhanced (some s)).getD []
    let c := if e ≠ [] then e else (getSec parsed.sections (some s)).getD []
    if c ≠ [] then acc ++ [c] else acc) parts0
  let parts2 :=
    if (getSec enhanced (some .skills)).getD [] ≠ [] ∧
        (getSec parsed.sections (some .skills)).getD [] = [] then
      parts1 ++ [(getSec enhanced (some .skills)).getD []]
    else parts1
  joinSep (str "\n\n") parts2

/-- The keywords argument of tailorCV: a plain array or a KeywordSet-shaped
object (whose highPriority and mediumPriority fields are then used; an empty
array in those fields is still a truthy JavaScript value, hence the Option
model). -/
inductive KwArg
  | arr (l : List (List Char))
  | set (all high medium low : List (List Char))
deriving Repr

def KwArg.list : KwArg → List (List Char)
  | .arr l => l
  | .set a _ _ _ => a

def KwArg.highOpt : KwArg → Option (List (List Char))
  | .arr _ => none
  | .set _ h _ _ => some h

def KwArg.mediumOpt : KwArg → Option (List (List Char))
  | .arr _ => none
  | .set _ _ m _ => some m

/-- Modelled from the spec: ReliableExtractor.matchKeywords is referenced by
tailor-universal.js and auto-tailor-95.js but its module is not part of the
source tree.  Spec section 4.3 requires every subsystem that judges keyword
presence to use the same escaped word-boundary regex semantics, so the
matcher coincides with KeywordExtractor.matchKeywords. -/
def ReliableExtractor_matchKeywords : List Char → List (List Char) →
    KeywordExtractor.MatchResult := KeywordExtractor.matchKeywords

/-- Statistics object of a tailoring run. -/
structure TailorStats where
  summary : Nat
  experience : Nat
  skills : Nat
  total : Nat
deriving Repr, DecidableEq

/-- Result of tailorCV.  The keyword-less early return of the source carries
no score fields; they are modelled as 0 there. -/
structure TailorResult where
  tailoredCV : List Char
  originalCV : List Char
  injectedKeywords : List (List Char)
  initialScore : Nat
  finalScore : Nat
  matchedKeywords : List (List Char)
  missingKeywords : List (List Char)
  stats : TailorStats
deriving Repr, DecidableEq

/-- The keywords handed to the summary strategy:
keywords.highPriority or keywordList.slice(0, 8). -/
def summaryKeywords (keywords : KwArg) : List (List Char) :=
  match keywords.highOpt with
  | some h => h
  | none => keywords.list.take 8

/-- The summary strategy as invoked by tailorCV. -/
def runSummary (parsed : Parsed) (keywords : KwArg) : EnhanceResult :=
  enhanceSummary ((getSec parsed.sections (some .summary)).getD []) (summaryKeywords keywords)

/-- The experience strategy as invoked by tailorCV: medium-priority plus the
high-priority keywords not already injected, filtered once more against the
running injected list. -/
def runExperience (parsed : Parsed) (keywords : KwArg) : EnhanceResult :=
  let sumInj := (runSummary parsed keywords).injected
  let experienceKeywords :=
    (keywords.mediumOpt.getD []) ++
      (keywords.highOpt.getD []).filter (fun k => !sumInj.contains k)
  enhanceExperience ((getSec parsed.sections (some .experience)).getD [])
    (experienceKeywords.filter (fun k => !sumInj.contains k))

/-- The skills strategy as invoked by tailorCV: all keywords not already
injected by the earlier strategies. -/
def runSkills (parsed : Parsed) (keywords : KwArg) : SkillsResult :=
  let allInj := (runSummary parsed keywords).injected ++ (runExperience parsed keywords).injected
  enhanceSkills ((getSec parsed.sections (some .skills)).getD [])
    (keywords.list.filter (fun k => !allInj.contains k))

/-- tailorCV from tailor-universal.js, parameterised (like the source, which
probes the global object) by the optionally available
ReliableExtractor.matchKeywords; the async yields are pure delays.  The
options argument is reduced to targetScore, where the JavaScript
options.targetScore or-default makes 0 fall back to 95. -/
def tailorCV (re : Option (List Char → List (List Char) → KeywordExtractor.MatchResult))
    (cvText : List Char) (keywords : KwArg) (targetScore : Nat) :
    Except (List Char) TailorResult :=
  if cvText = [] then .error (str "CV text is required")
  else
    let keywordList := keywords.list
    if keywordList = [] then
      .ok ⟨cvText, cvText, [], 0, 0, [], [], ⟨0, 0, 0, 0⟩⟩
    else
      let target := if targetScore = 0 then TARGET_SCORE else targetScore
      let parsed := parseCV cvText
      let initialMatch :=
        match re with
        | some f => f cvText keywordList
        | none => ⟨[], keywordList, 0, 0, 0⟩
      if initialMatch.matchScore ≥ target then
        .ok ⟨cvText, cvText, [], initialMatch.matchScore, initialMatch.matchScore, [], [],
          ⟨0, 0, 0, 0⟩⟩
      else
        let summaryResult := runSummary parsed keywords
        let experienceResult := runExperience parsed keywords
        let skillsResult := runSkills parsed keywords
        let allInjected :=
          summaryResult.injected ++ experienceResult.injected ++ skillsResult.injected
        let enhanced : List (Option SecName × List Char) :=
          setSec (setSec (setSec parsed.sections (some .summary) summaryResult.enhanced)
            (some .experience) experienceResult.enhanced) (some .skills) skillsResult.enhanced
        let tailoredCV := reconstructCV parsed enhanced
        let finalMatch :=
          match re with
          | some f => f tailoredCV keywordList
          | none => ⟨[], [], min 98 (initialMatch.matchScore + allInjected.length * 3), 0, 0⟩
        .ok ⟨tailoredCV, cvText, allInjected, initialMatch.matchScore, finalMatch.matchScore,
          (match re with | some _ => finalMatch.matched | none => []),
          (match re with | some _ => finalMatch.missing | none => []),
          ⟨summaryResult.injected.length, experienceResult.injected.length,
            skillsResult.injected.length, allInjected.length⟩⟩

end TailorUniversal

namespace CVTailor

open ATS

/-- The section names of cv-tailor.js, in its object-literal order. -/
inductive CTName
  | summary
  | experience
  | skills
  | education
  | certifications
  | achievements
deriving DecidableEq, Repr

/-- The cv-tailor.js patterns are anchored on both sides: the whole trimmed
line must be the alternative words (separated by zero-or-more whitespace)
followed only by whitespace or colons. -/
def altTestFull : List (List Char) → List Char → Bool
  | [], l => l.all (fun c => jsWsChar c || c = ':')
  | w :: ws, l =>
      if isPre w l then altTestFull ws ((l.drop w.length).dropWhile jsWsChar)
      else false

def ctSectionAlts : CTName → List (List (List Char))
  | .summary => [["professional", "summary"], ["summary"], ["profile"], ["objective"],
      ["about", "me"], ["career", "summary"]].map (List.map str)
  | .experience => [["experience"], ["work", "experience"], ["professional", "experience"],
      ["employment", "history"]].map (List.map str)
  | .skills => [["skills"], ["technical", "skills"], ["core", "skills"], ["key", "skills"],
      ["competencies"]].map (List.map str)
  | .education => [["education"], ["academic", "background"], ["qualifications"]].map
      (List.map str)
  | .certifications => [["certifications"], ["certificates"], ["licenses"],
      ["credentials"]].map (List.map str)
  | .achievements => [["achievements"], ["accomplishments"], ["awards"], ["honors"]].map
      (List.map str)

def ctPatternOrder : List CTName :=
  [.summary, .experience, .skills, .education, .certifications, .achievements]

/-- The section a line opens, if any: the patterns are tested against the
trimmed line, case-insensitively, in object order. -/
def ctLineMatch (line : List Char) : Option CTName :=
  ctPatternOrder.find? (fun s =>
    (ctSectionAlts s).any (fun alt => altTestFull alt (lowerL (trimL line))))

/-- The fixed section buckets of cv-tailor.js parseCV, each a list of lines. -/
structure CTSections where
  header : List (List Char)
  summary : List (List Char)
  experience : List (List Char)
  skills : List (List Char)
  education : List (List Char)
  certifications : List (List Char)
  achievements : List (List Char)
  other : List (List Char)
deriving Repr, DecidableEq

def CTSections.get (s : CTSections) : Option CTName → List (List Char)
  | none => s.header
  | some .summary => s.summary
  | some .experience => s.experience
  | some .skills => s.skills
  | some .education => s.education
  | some .certifications => s.certifications
  | some .achievements => s.achievements

def CTSections.push (s : CTSections) (k : Option CTName) (line : List Char) : CTSections :=
  match k with
  | none => { s with header := s.header ++ [line] }
  | some .summary => { s with summary := s.summary ++ [line] }
  | some .experience => { s with experience := s.experience ++ [line] }
  | some .skills => { s with skills := s.skills ++ [line] }
  | some .education => { s with education := s.education ++ [line] }
  | some .certifications => { s with certifications := s.certifications ++ [line] }
  | some .achievements => { s with achievements := s.achievements ++ [line] }

def ctEmptySections : CTSections := ⟨[], [], [], [], [], [], [], []⟩

structure CTParsed where
  raw : List Char
  sections : CTSections
  lineCount : Nat
deriving Repr, DecidableEq

/-- parseCV from cv-tailor.js: every line lands in the bucket of the section
it opens or of the current section (the other bucket of the source is
unreachable, since the current section is always a key of the map). -/
def ctParseCV (cvText : List Char) : CTParsed :=
  if cvText = [] then ⟨[], ctEmptySections, 0⟩
  else
    let lines := splitLines cvText
    let step := fun (st : CTSections × Option CTName) (line : List Char) =>
      match ctLineMatch line with
      | some s => (st.1.push (some s) line, some s)
      | none => (st.1.push st.2 line, st.2)
    let final := lines.foldl step (ctEmptySections, none)
    ⟨cvText, final.1, lines.length⟩

/-- line.replace of the earliest period followed only by trailing whitespace
with a comma, including-clause, period and the preserved whitespace. -/
def replaceTrailingDot (line kw : List Char) : List Char :=
  let core := trimEnd line
  if core.getLast? = some '.' then
    core.dropLast ++ str ", including " ++ kw ++ str "." ++ line.drop core.length
  else line

/-- Strategy 1 of cv-tailor.js enhanceSummary: walk the lines after the
first, and for each sufficiently long line containing a period consume one
missing keyword, injecting it when the line has a trailing period (a
consumed keyword whose replacement leaves the line unchanged is injected
nowhere, as in the source).  Returns the processed lines, the remaining
missing keywords and the injected keywords. -/
def ctSumLoop (targetCount : Nat) :
    List (List Char) → List (List Char) → List (List Char) →
      List (List Char) × List (List Char) × List (List Char)
  | [], missing, injected => ([], missing, injected)
  | line :: ls, missing, injected =>
      if injected.length < targetCount then
        if (trimL line).length < 20 then
          let r := ctSumLoop targetCount ls missing injected
          (line :: r.1, r.2.1, r.2.2)
        else if line.contains '.' ∧ missing ≠ [] then
          match missing with
          | [] => let r := ctSumLoop targetCount ls missing injected
                  (line :: r.1, r.2.1, r.2.2)
          | kw :: missing2 =>
              let enhancedLine := replaceTrailingDot line kw
              if enhancedLine ≠ line then
                let r := ctSumLoop targetCount ls missing2 (injected ++ [kw])
                (enhancedLine :: r.1, r.2.1, r.2.2)
              else
                let r := ctSumLoop targetCount ls missing2 injected
                (line :: r.1, r.2.1, r.2.2)
        else
          let r := ctSumLoop targetCount ls missing injected
          (line :: r.1, r.2.1, r.2.2)
      else (line :: ls, missing, injected)

/-- enhanceSummary from cv-tailor.js. -/
def ctEnhanceSummary (summaryLines high existingMatched : List (List Char)) :
    List (List Char) × List (List Char) :=
  if summaryLines = [] ∨ high = [] then (summaryLines, [])
  else
    let summaryText := joinSep [' '] summaryLines
    let missing0 := high.filter (fun kw =>
      !hasKeyword summaryText kw && !existingMatched.contains kw)
    if missing0 = [] then (summaryLines, [])
    else
      let targetCount := min 8 high.length
      match summaryLines with
      | [] => (summaryLines, [])
      | l0 :: rest =>
          let r := ctSumLoop targetCount rest missing0 []
          let lines1 := l0 :: r.1
          let missing1 := r.2.1
          let injected1 := r.2.2
          if injected1.length < 4 ∧ missing1.length ≥ 3 then
            let keywordsToAdd := missing1.take (min 4 missing1.length)
            let lastKeyword := (keywordsToAdd.getLast?).getD []
            let front := keywordsToAdd.dropLast
            let keywordListStr :=
              if front ≠ [] then joinSep (str ", ") front ++ str " and " ++ lastKeyword
              else lastKeyword
            let newSentence := str "Proficient in " ++ keywordListStr ++
              str " with a proven track record of delivering results."
            let insertIndex := max 1 (lines1.length - 1)
            (lines1.take insertIndex ++ [newSentence] ++ lines1.drop insertIndex,
              injected1 ++ front ++ [lastKeyword])
          else (lines1, injected1)

/-- A line is a bullet for cv-tailor.js enhanceExperience: its trimmed form
starts with a bullet glyph, dash, star, or digits followed by a period. -/
def ctIsBullet (trimmed : List Char) : Bool :=
  isPre (str "•") trimmed || isPre (str "-") trimmed || isPre (str "*") trimmed ||
    (let ds := trimmed.takeWhile (fun c => 48 ≤ c.toNat && c.toNat ≤ 57)
     decide (ds.length ≥ 1) && (trimmed.drop ds.length).head? = some '.')

/-- line.replace of the earliest period-or-comma followed only by trailing
whitespace: insert a space and the phrase before that punctuation mark. -/
def replaceTrailingPunct (line phrase : List Char) : List Char :=
  let core := trimEnd line
  match core.getLast? with
  | some c =>
      if c = '.' ∨ c = ',' then
        core.dropLast ++ [' '] ++ phrase ++ [c] ++ line.drop core.length
      else line
  | none => line

/-- The inner two-keyword attempt of one bullet: j counts the attempts,
ki indexes availableKeywords; note the source pushes the keyword onto
injected even when the punctuation replacement left the line unchanged. -/
def ctBulletInject (available : List (List Char)) :
    Nat → List Char → Nat → List Char × Nat × List (List Char)
  | 0, line, ki => (line, ki, [])
  | j + 1, line, ki =>
      if h : ki < available.length then
        let kw := available.get ⟨ki, h⟩
        if !hasKeyword line kw then
          if line.contains '.' || line.contains ',' then
            let insertPhrase :=
              if j + 1 = 2 then str "utilizing " ++ kw else str "and " ++ kw
            let line2 := replaceTrailingPunct line insertPhrase
            let r := ctBulletInject available j line2 (ki + 1)
            (r.1, r.2.1, kw :: r.2.2)
          else if !(endsWithL (str ".") line) then
            let line2 := trimEnd line ++ str " using " ++ kw
            let r := ctBulletInject available j line2 (ki + 1)
            (r.1, r.2.1, kw :: r.2.2)
          else
            let r := ctBulletInject available j line ki
            (r.1, r.2.1, r.2.2)
        else
          let r := ctBulletInject available j line ki
          (r.1, r.2.1, r.2.2)
      else (line, ki, [])

/-- The line loop of cv-tailor.js enhanceExperience: up to 10 bullets, up to
2 keywords per bullet. -/
def ctExpLoop (available : List (List Char)) :
    List (List Char) → Nat → Nat → List (List Char) × List (List Char)
  | [], _, _ => ([], [])
  | line :: ls, bulletCount, ki =>
      if bulletCount < 10 then
        if ctIsBullet (trimL line) then
          if ki ≥ available.length then
            let r := ctExpLoop available ls (bulletCount + 1) ki
            (line :: r.1, r.2)
          else
            let b := ctBulletInject available 2 line ki
            let r := ctExpLoop available ls (bulletCount + 1) b.2.1
            (b.1 :: r.1, b.2.2 ++ r.2)
        else
          let r := ctExpLoop available ls bulletCount ki
          (line :: r.1, r.2)
      else (line :: ls, [])

/-- enhanceExperience from cv-tailor.js. -/
def ctEnhanceExperience (experienceLines : List (List Char))
    (high medium existingMatched : List (List Char)) :
    List (List Char) × List (List Char) :=
  if experienceLines = [] then (experienceLines, [])
  else
    let allKeywords := high ++ medium
    let experienceText := joinSep [' '] experienceLines
    let availableKeywords := allKeywords.filter (fun kw =>
      !hasKeyword experienceText kw && !existingMatched.contains kw)
    ctExpLoop availableKeywords experienceLines 0 0

/-- enhanceSkills from cv-tailor.js; created is true when a new section was
synthesized.  The two append branches of the source are textually identical,
so they are modelled once. -/
def ctEnhanceSkills (skillsLines : List (List Char))
    (high medium existingMatched : List (List Char)) :
    List (List Char) × List (List Char) × Bool :=
  if skillsLines = [] then
    let allSkills := high ++ medium.take 7
    if allSkills = [] then ([], [], false)
    else
      let half := (allSkills.length + 1) / 2
      ([str "SKILLS",
        str "• Technical: " ++ joinSep (str ", ") (allSkills.take half),
        str "• Additional: " ++ joinSep (str ", ") (allSkills.drop half)],
       allSkills, true)
  else
    let skillsText := joinSep [' '] skillsLines
    let missingSkills := (high ++ medium).filter (fun kw =>
      !hasKeyword skillsText kw && !existingMatched.contains kw)
    if missingSkills = [] then (skillsLines, [], false)
    else
      let targetLineIndex :=
        ((List.range skillsLines.length).filter (fun i =>
          match skillsLines[i]? with
          | some l =>
              let t := trimL l
              isPre (str "•") t || isPre (str "-") t || l.contains ':' || l.contains ','
          | none => false)).getLast?
      match targetLineIndex with
      | none =>
          let skillsToAdd := missingSkills.take 10
          (skillsLines ++ [str "• Additional: " ++ joinSep (str ", ") skillsToAdd],
           skillsToAdd, false)
      | some i =>
          let skillsToAdd := missingSkills.take 8
          let currentLine := (skillsLines[i]?).getD []
          let newLine := trimEnd currentLine ++ str ", " ++ joinSep (str ", ") skillsToAdd
          (skillsLines.take i ++ [newLine] ++ skillsLines.drop (i + 1), skillsToAdd, false)

/-- The keyword object cv-tailor.js tailorCV consumes. -/
structure CTKeywords where
  all : List (List Char)
  highPriority : List (List Char)
  mediumPriority : List (List Char)
  lowPriority : List (List Char)
deriving Repr, DecidableEq

/-- reconstructCV from cv-tailor.js: header first, then the buckets in the
canonical order, separated by blank lines, joined with newlines. -/
def ctReconstructCV (sections : CTSections) : List Char :=
  let addPart := fun (parts : List (List Char)) (lines : List (List Char)) =>
    if lines ≠ [] then
      (if parts ≠ [] then parts ++ [[]] else parts) ++ [joinLines lines]
    else parts
  let parts0 := if sections.header ≠ [] then [joinLines sections.header] else []
  let parts := [sections.summary, sections.experience, sections.education, sections.skills,
    sections.certifications, sections.achievements, sections.other].foldl addPart parts0
  joinLines parts

/-- The summary strategy as invoked by cv-tailor.js tailorCV (skipped when
the parsed summary bucket is empty). -/
def ctRunSummary (parsed : CTParsed) (keywords : CTKeywords)
    (initialMatched : List (List Char)) : List (List Char) × List (List Char) :=
  if parsed.sections.summary.length > 0 then
    ctEnhanceSummary parsed.sections.summary keywords.highPriority initialMatched
  else (parsed.sections.summary, [])

/-- The experience strategy as invoked by tailorCV, with the running
already-matched-or-injected list. -/
def ctRunExperience (parsed : CTParsed) (keywords : CTKeywords)
    (initialMatched : List (List Char)) : List (List Char) × List (List Char) :=
  let sumInj := (ctRunSummary parsed keywords initialMatched).2
  if parsed.sections.experience.length > 0 then
    ctEnhanceExperience parsed.sections.experience keywords.highPriority
      keywords.mediumPriority (initialMatched ++ sumInj)
  else (parsed.sections.experience, [])

/-- The skills strategy as invoked by tailorCV (always invoked). -/
def ctRunSkills (parsed : CTParsed) (keywords : CTKeywords)
    (initialMatched : List (List Char)) : List (List Char) × List (List Char) × Bool :=
  let sumInj := (ctRunSummary parsed keywords initialMatched).2
  let expInj := (ctRunExperience parsed keywords initialMatched).2
  ctEnhanceSkills parsed.sections.skills keywords.highPriority keywords.mediumPriority
    (initialMatched ++ (sumInj ++ expInj))

structure CTTailorResult where
  tailoredCV : List Char
  originalText : List Char
  injectedKeywords : List (List Char)
  matchScore : Nat
  matchedKeywords : List (List Char)
  missingKeywords : List (List Char)
  statsSummary : Nat
  statsExperience : Nat
  statsSkills : Nat
  statsTotal : Nat
deriving Repr, DecidableEq

/-- tailorCV from cv-tailor.js.  KeywordExtractor is part of the source tree
and loaded alongside this module, so the matcher branch taken is
KeywordExtractor.matchKeywords. -/
def ctTailorCV (cvText : List Char) (keywords : CTKeywords) : CTTailorResult :=
  if cvText = [] ∨ keywords.all = [] then
    ⟨cvText, cvText, [], 0, [], [], 0, 0, 0, 0⟩
  else
    let parsed := ctParseCV cvText
    let initialMatch := KeywordExtractor.matchKeywords cvText keywords.all
    let summaryR := ctRunSummary parsed keywords initialMatch.matched
    let experienceR := ctRunExperience parsed keywords initialMatch.matched
    let skillsR := ctRunSkills parsed keywords initialMatch.matched
    let allInjected := summaryR.2 ++ experienceR.2 ++ skillsR.2.1
    let enhanced : CTSections :=
      { parsed.sections with
        summary := summaryR.1
        experience := experienceR.1
        skills := skillsR.1 }
    let tailoredCV := ctReconstructCV enhanced
    let finalMatch := KeywordExtractor.matchKeywords tailoredCV keywords.all
    ⟨tailoredCV, cvText, allInjected, finalMatch.matchScore, finalMatch.matched,
      finalMatch.missing, summaryR.2.length, experienceR.2.length, skillsR.2.1.length,
      allInjected.length⟩

end CVTailor

namespace AutoTailor95

open ATS KeywordExtractor

/-- The keywords object produced by extractJobKeywords in its
KeywordExtractor fallback branch. -/
structure JobKeywords where
  all : List (List Char)
  highPriority : List (List Char)
  mediumPriority : List (List Char)
  lowPriority : List (List Char)
  total : Nat
deriving Repr, DecidableEq

/-- extractJobKeywords from auto-tailor-95.js in the source-tree environment:
ReliableExtractor is not part of the source tree, so the KeywordExtractor
fallback branch runs, recategorising the extracted list with
highCount = min(11, ceil(n * 0.45)) and mediumCount = min(8, ceil(n * 0.35)).
Exact arithmetic stands in for the binary floating-point products (which can
differ from the exact ceiling for a few lengths); no claim below depends on
the bucket sizes. -/
def extractJobKeywords (jobText : List Char) (maxKeywords : ℤ) : JobKeywords :=
  let extracted := extractKeywords jobText maxKeywords
  let n := extracted.all.length
  let highCount : ℤ := min 11 (fracCeil ⟨(n : ℤ) * 9, 20⟩)
  let mediumCount : ℤ := min 8 (fracCeil ⟨(n : ℤ) * 7, 20⟩)
  { all := jsSlice extracted.all 0 maxKeywords
    highPriority := jsSlice extracted.all 0 highCount
    mediumPriority := jsSlice extracted.all highCount (highCount + mediumCount)
    lowPriority := jsSlice extracted.all (highCount + mediumCount) extracted.all.length
    total := n }

/-- The fallback match computation shared by calculateInitialMatch and
calculateFinalMatch in the source-tree environment (neither
ReliableExtractor, DynamicScore nor ValidationEngine is present): plain
case-insensitive substring containment, score = round(matched/total x 100).
The object's score field is the matchScore field of MatchResult.  For an
empty keyword list the score is NaN in JavaScript, modelled as 0; the
orchestrator's guard makes that case unreachable. -/
def fallbackMatch (cvText : List Char) (all : List (List Char)) : MatchResult :=
  let cvLower := lowerL cvText
  let matched := all.filter (fun kw => containsL cvLower (lowerL kw))
  let missing := all.filter (fun kw => !containsL cvLower (lowerL kw))
  ⟨matched, missing, jsRoundNat (matched.length * 100) all.length,
    matched.length, all.length⟩

/-- The stats object of the orchestrator's result. -/
structure AutoStats where
  keywordsExtracted : Nat
  keywordsInjected : Nat
  scoreImprovement : ℤ
deriving Repr, DecidableEq

/-- The result object of autoTailorTo95Plus. -/
structure AutoResult where
  tailoredCV : List Char
  originalCV : List Char
  keywords : JobKeywords
  initialScore : Nat
  finalScore : Nat
  matchedKeywords : List (List Char)
  missingKeywords : List (List Char)
  injectedKeywords : List (List Char)
  stats : AutoStats
deriving Repr, DecidableEq

/-- autoTailorTo95Plus from auto-tailor-95.js in the source-tree environment:
the input guard, keyword extraction (KeywordExtractor fallback), the empty
extraction guard, the includes-based initial match, TailorUniversal.tailorCV
(probing finds no ReliableExtractor, hence re = none), and the includes-based
final match on the tailored text.  The progress/score/chips callbacks and the
delays are UI side effects with no bearing on the data flow; thrown errors
are the Except error case.  targetScore and maxKeywords are the constructor
options (95 and 35 by default). -/
def autoTailorTo95Plus (jobDescription baseCV : List Char)
    (targetScore : Nat) (maxKeywords : ℤ) :
    Except (List Char) AutoResult :=
  if jobDescription = [] ∨ baseCV = [] then
    .error (str "Job description and CV are required")
  else
    let keywords := extractJobKeywords jobDescription maxKeywords
    if keywords.all = [] then
      .error (str "Could not extract keywords from job description")
    else
      let initialMatch := fallbackMatch baseCV keywords.all
      match TailorUniversal.tailorCV none baseCV
          (.set keywords.all keywords.highPriority keywords.mediumPriority
            keywords.lowPriority) targetScore with
      | .error e => .error e
      | .ok tailorResult =>
        let finalMatch := fallbackMatch tailorResult.tailoredCV keywords.all
        .ok ⟨tailorResult.tailoredCV, baseCV, keywords, initialMatch.matchScore,
          finalMatch.matchScore, finalMatch.matched, finalMatch.missing,
          tailorResult.injectedKeywords,
          ⟨keywords.all.length, tailorResult.injectedKeywords.length,
            (finalMatch.matchScore : ℤ) - (initialMatch.matchScore : ℤ)⟩⟩

end AutoTailor95

namespace TailorUniversal

open ATS

/-- The block decomposition the parser induces on a line list: the lines
before the first pattern-matching line, then one block per matching line
(the matching line followed by the non-matching lines after it). -/
def lineBlocks : List (List Char) → List (List Char) × List (SecName × List (List Char))
  | [] => ([], [])
  | l :: ls =>
      let r := lineBlocks ls
      match lineMatch l with
      | some s => ([], (s, l :: r.1) :: r.2)
      | none => (l :: r.1, r.2)

/-- Closed form of the parse fold positioned after the header lines:
process the remaining blocks, saving the pending section before each one. -/
def afterBlocks : PState → List (SecName × List (List Char)) → PState
  | st, [] => st
  | st, (s, b) :: rest =>
      let st2 := if st.content.length > 0 ∨ st.cur ≠ none then saveSection st else st
      afterBlocks { st2 with cur := some s, content := b } rest

/-- The final save of parseCV. -/
def finishState (st : PState) : PState :=
  if st.content.length > 0 then saveSection st else st

/-- The sectionOrder update of saveSection as a function. -/
def orderInsert (o : List SecName) : Option SecName → List SecName
  | none => o
  | some s => if o.contains s then o else o ++ [s]

def applyOrder (o : List SecName) : List (Option SecName) → List SecName
  | [] => o
  | k :: ks => applyOrder (orderInsert o k) ks

def applyEntries (m : List (Option SecName × List Char)) :
    List (Option SecName × List Char) → List (Option SecName × List Char)
  | [] => m
  | e :: es => applyEntries (setSec m e.1 e.2) es

/-- The saved form of a block: its name and its joined, trimmed lines. -/
def blockEntry (p : SecName × List (List Char)) : Option SecName × List Char :=
  (some p.1, trimL (joinLines p.2))

/-- All entries parseCV saves: the header (when there are header lines),
then one entry per block. -/
def parseEntries (hb : List (List Char)) (bs : List (SecName × List (List Char))) :
    List (Option SecName × List Char) :=
  (if hb = [] then [] else [(none, trimL (joinLines hb))]) ++ bs.map blockEntry

def dropTrailingBlanks (ls : List (List Char)) : List (List Char) :=
  (ls.reverse.dropWhile (fun l => l = [])).reverse

/-- Drop the leading and trailing blank lines of a line list. -/
def trimBlanks (ls : List (List Char)) : List (List Char) :=
  dropTrailingBlanks (ls.dropWhile (fun l => l = []))

/-- A line with no leading and no trailing whitespace character: for texts
all of whose lines are clean, String.trim on a joined block removes only
whole blank lines. -/
def lineClean (l : List Char) : Bool :=
  l.isEmpty || (!jsWsChar (l.headD ' ') && !jsWsChar (l.getLastD ' '))

/-- Append a blank line to every block but the last (the shape in which the
reconstructed text's blank separators re-enter the parser). -/
def padded : List (SecName × List (List Char)) → List (SecName × List (List Char))
  | [] => []
  | [p] => [p]
  | p :: rest => (p.1, p.2 ++ [[]]) :: padded rest

end TailorUniversal

/-! ### Shared facts about the character and regex model -/

namespace ATS

theorem char_ofNat_toNat (n : Nat) (h : n.isValidChar) : (Char.ofNat n).toNat = n := by
  simp [Char.ofNat, h, Char.ofNatAux, Char.toNat, UInt32.toNat]

theorem jsToLower_idem (c : Char) : jsToLower (jsToLower c) = jsToLower c := by
  unfold jsToLower
  by_cases h : 65 ≤ c.toNat ∧ c.toNat ≤ 90
  · have hv : (c.toNat + 32).isValidChar := Or.inl (by omega)
    rw [if_pos h, char_ofNat_toNat _ hv, if_neg (by omega)]
  · rw [if_neg h, if_neg h]

theorem lowerL_idem (l : List Char) : lowerL (lowerL l) = lowerL l := by
  induction l with
  | nil => rfl
  | cons c cs ih =>
    simp only [lowerL, List.map_cons]
    simp only [lowerL] at ih
    rw [jsToLower_idem, ih]

theorem wordChar_jsToLower (c : Char) : wordChar (jsToLower c) = wordChar c := by
  unfold jsToLower wordChar
  by_cases h : 65 ≤ c.toNat ∧ c.toNat ≤ 90
  · have hv : (c.toNat + 32).isValidChar := Or.inl (by omega)
    rw [if_pos h, char_ofNat_toNat _ hv, Bool.eq_iff_iff]
    simp only [Bool.or_eq_true, Bool.and_eq_true, decide_eq_true_eq]
    constructor <;> (intro h2; omega)
  · rw [if_neg h]

theorem isPre_nil (p : List Char) (h : p ≠ []) : isPre p [] = false := by
  cases p with
  | nil => exact absurd rfl h
  | cons c cs => rfl

theorem wbMatch_nil (kw : List Char) (h : kw ≠ []) : wbMatch [] kw = false := by
  simp [wbMatch, wbMatchAt, occursAt, List.range, isPre_nil _ h, List.range.loop]

theorem isPre_getElem (p l : List Char) (h : isPre p l = true) :
    ∀ j, j < p.length → l[j]? = p[j]?  := by
  induction p generalizing l with
  | nil => intro j hj; simp at hj
  | cons a p ih =>
    cases l with
    | nil => simp [isPre] at h
    | cons b l =>
      simp only [isPre, Bool.and_eq_true, decide_eq_true_eq] at h
      intro j hj
      cases j with
      | zero => simp [h.1]
      | succ j =>
        simp only [List.getElem?_cons_succ]
        exact ih l h.2 j (by simpa using hj)

theorem jsRound_eq_round (m t : Nat) (ht : 0 < t) :
    ((jsRoundNat (m * 100) t : Nat) : ℤ) = round ((m : ℚ) / (t : ℚ) * 100) := by
  have h1 : ((m : ℚ) / (t : ℚ) * 100 + 1 / 2) = ((2 * (m * 100) + t : ℕ) : ℚ) / ((2 * t : ℕ) : ℚ) := by
    have ht0 : (t : ℚ) ≠ 0 := Nat.cast_ne_zero.mpr ht.ne'
    field_simp
    ring
  rw [round_eq, h1]
  have h2 : (((2 * (m * 100) + t : ℕ) : ℚ)) = (((2 * (m * 100) + t : ℕ) : ℤ) : ℚ) := by push_cast; ring
  rw [h2, Rat.floor_intCast_div_natCast]
  unfold jsRoundNat
  rw [Int.natCast_div]

theorem jsRound_le_100 (m t : Nat) (hmt : m ≤ t) (ht : 0 < t) :
    jsRoundNat (m * 100) t ≤ 100 := by
  unfold jsRoundNat
  have h1 : 2 * (m * 100) + t ≤ t + 100 * (2 * t) := by omega
  have h2 : (2 * (m * 100) + t) / (2 * t) ≤ (t + 100 * (2 * t)) / (2 * t) := Nat.div_le_div_right h1
  have h3 : (t + 100 * (2 * t)) / (2 * t) = t / (2 * t) + 100 :=
    Nat.add_mul_div_right t 100 (by omega)
  have h4 : t / (2 * t) = 0 := Nat.div_eq_of_lt (by omega)
  omega

end ATS

/-! ### Claims C1, C3, C10: the matcher and the consistency of presence checks -/

open ATS

/-- C1 (amended): for every non-empty CV text and non-empty keyword list,
matchKeywords returns matched and missing lists partitioning the keyword
list, and the score equals round(matchCount/totalKeywords x 100); for an
empty keyword list the score is 0; in all cases 0 <= score <= 100. -/
theorem C1_matchKeywords_partition_and_score :
    (∀ (cvText : List Char) (keywords : List (List Char)),
      cvText ≠ [] → keywords ≠ [] →
      let r := KeywordExtractor.matchKeywords cvText keywords
      (∀ k ∈ keywords, (k ∈ r.matched ∨ k ∈ r.missing) ∧ ¬(k ∈ r.matched ∧ k ∈ r.missing)) ∧
      (∀ k, k ∈ r.matched → k ∈ keywords) ∧
      (∀ k, k ∈ r.missing → k ∈ keywords) ∧
      r.matchCount = r.matched.length ∧
      r.totalKeywords = keywords.length ∧
      (r.matchScore : ℤ) = round ((r.matchCount : ℚ) / (r.totalKeywords : ℚ) * 100)) ∧
    (∀ cvText : List Char, (KeywordExtractor.matchKeywords cvText []).matchScore = 0) ∧
    (∀ (cvText : List Char) (keywords : List (List Char)),
      (KeywordExtractor.matchKeywords cvText keywords).matchScore ≤ 100) := by
  refine ⟨?_, ?_, ?_⟩
  · intro cvText keywords hcv hkw
    unfold KeywordExtractor.matchKeywords
    rw [if_neg (by simp [hcv, hkw])]
    have hlen : 0 < keywords.length := List.length_pos.mpr hkw
    simp only [gt_iff_lt, hlen, if_pos]
    refine ⟨?_, ?_, ?_, by trivial, by trivial, ?_⟩
    · intro k hk
      by_cases hd : KeywordExtractor.kwDecision (lowerL cvText) k = true
      · refine ⟨Or.inl (List.mem_filter.mpr ⟨hk, hd⟩), ?_⟩
        rintro ⟨-, hm⟩
        have := (List.mem_filter.mp hm).2
        simp [hd] at this
      · refine ⟨Or.inr (List.mem_filter.mpr ⟨hk, by simp [hd]⟩), ?_⟩
        rintro ⟨hm, -⟩
        exact hd (List.mem_filter.mp hm).2
    · intro k hk; exact (List.mem_filter.mp hk).1
    · intro k hk; exact (List.mem_filter.mp hk).1
    · exact jsRound_eq_round _ _ hlen
  · intro cvText
    unfold KeywordExtractor.matchKeywords
    rw [if_pos (by simp)]
  · intro cvText keywords
    unfold KeywordExtractor.matchKeywords
    by_cases h : cvText = [] ∨ keywords = []
    · rw [if_pos (by simpa using h)]
      simp
    · push_neg at h
      rw [if_neg (by simp [h.1, h.2])]
      have hlen : 0 < keywords.length := List.length_pos.mpr h.2
      simp only [gt_iff_lt, hlen, if_pos]
      exact jsRound_le_100 _ _ (List.length_filter_le _ _) hlen

theorem C1_witness :
    (str "knows python and sql" ≠ []) ∧ ([str "python", str "java"] ≠ ([] : List (List Char))) ∧
    (let r := KeywordExtractor.matchKeywords (str "knows python and sql") [str "python", str "java"]
     (∀ k ∈ [str "python", str "java"], (k ∈ r.matched ∨ k ∈ r.missing) ∧ ¬(k ∈ r.matched ∧ k ∈ r.missing)) ∧
     (∀ k, k ∈ r.matched → k ∈ [str "python", str "java"]) ∧
     (∀ k, k ∈ r.missing → k ∈ [str "python", str "java"]) ∧
     r.matchCount = r.matched.length ∧
     r.totalKeywords = [str "python", str "java"].length ∧
     (r.matchScore : ℤ) = round ((r.matchCount : ℚ) / (r.totalKeywords : ℚ) * 100)) :=
  ⟨by decide, by decide,
    C1_matchKeywords_partition_and_score.1 (str "knows python and sql") [str "python", str "java"]
      (by decide) (by decide)⟩

/-- C1 counterexample: for the empty CV text and the non-empty keyword list
containing just the keyword python, matchKeywords returns matched and missing
both empty, so the keyword appears in neither list and the partition claimed
for every CV text fails. -/
theorem C1_counterexample :
    (KeywordExtractor.matchKeywords (str "") [str "python"]).matched = [] ∧
    (KeywordExtractor.matchKeywords (str "") [str "python"]).missing = [] ∧
    ¬(str "python" ∈ (KeywordExtractor.matchKeywords (str "") [str "python"]).matched ∨
      str "python" ∈ (KeywordExtractor.matchKeywords (str "") [str "python"]).missing) := by
  refine ⟨by decide, by decide, ?_⟩
  intro h
  rcases h with h | h <;> revert h <;> decide


/-- C3 (amended): for every text and non-empty keyword, the presence decision
of KeywordExtractor.matchKeywords coincides with CVTailor.hasKeyword, and
whenever that word-boundary decision is positive KeywordChips.checkKeywordMatch
agrees; checkKeywordMatch additionally accepts bare substring occurrences. -/
theorem C3_presence_checks_agree (text kw : List Char) (hkw : kw ≠ []) :
    (KeywordExtractor.kwDecision (lowerL text) kw = CVTailor.hasKeyword text kw) ∧
    (KeywordExtractor.kwDecision (lowerL text) kw = true →
      KeywordChips.checkKeywordMatch (lowerL text) kw = true) := by
  constructor
  · unfold KeywordExtractor.kwDecision CVTailor.hasKeyword
    by_cases ht : text = []
    · subst ht
      rw [if_pos (by simp)]
      have : lowerL kw ≠ [] := by
        cases kw with
        | nil => exact absurd rfl hkw
        | cons c cs => simp [lowerL]
      exact wbMatch_nil _ this
    · rw [if_neg (by simp [ht, hkw])]
  · intro h
    unfold KeywordChips.checkKeywordMatch
    rw [lowerL_idem]
    unfold KeywordExtractor.kwDecision at h
    simp [h]

theorem C3_witness :
    ((str "python") ≠ ([] : List Char)) ∧
    (KeywordExtractor.kwDecision (lowerL (str "We use Python here")) (str "python") =
      CVTailor.hasKeyword (str "We use Python here") (str "python")) ∧
    (KeywordExtractor.kwDecision (lowerL (str "We use Python here")) (str "python") = true →
      KeywordChips.checkKeywordMatch (lowerL (str "We use Python here")) (str "python") = true) :=
  ⟨by decide,
    (C3_presence_checks_agree (str "We use Python here") (str "python") (by decide)).1,
    (C3_presence_checks_agree (str "We use Python here") (str "python") (by decide)).2⟩

/-- C3 counterexample: on the text python3 with keyword python, the chip
renderer's checkKeywordMatch reports a match through its substring fallback
while the matcher decision and hasKeyword both report no match, so the three
checks do not produce identical decisions. -/
theorem C3_counterexample :
    KeywordChips.checkKeywordMatch (lowerL (str "python3")) (str "python") = true ∧
    KeywordExtractor.kwDecision (lowerL (str "python3")) (str "python") = false ∧
    CVTailor.hasKeyword (str "python3") (str "python") = false ∧
    (KeywordExtractor.matchKeywords (str "python3") [str "python"]).missing = [str "python"] := by
  refine ⟨by decide, by decide, by decide, by decide⟩

/-- C10 (confirmed): for a keyword whose final character is not a word
character, the matcher and hasKeyword report the keyword present only when an
occurrence in the text is immediately followed by a word character; in
particular c++ followed by space, punctuation or end of text never matches. -/
theorem C10_trailing_nonword_boundary :
    (∀ (text kw : List Char) (c : Char), kw.getLast? = some c → wordChar c = false →
      KeywordExtractor.kwDecision (lowerL text) kw = true →
      ∃ i, occursAt (lowerL text) (lowerL kw) i = true ∧
        wordAt (lowerL text) (i + kw.length) = true) ∧
    KeywordExtractor.kwDecision (lowerL (str "i know c++")) (str "c++") = false ∧
    KeywordExtractor.kwDecision (lowerL (str "c++ and java")) (str "c++") = false ∧
    KeywordExtractor.kwDecision (lowerL (str "use c++.")) (str "c++") = false ∧
    KeywordExtractor.kwDecision (lowerL (str "c++x")) (str "c++") = true ∧
    CVTailor.hasKeyword (str "i know c++") (str "c++") = false ∧
    CVTailor.hasKeyword (str "use c++.") (str "c++") = false := by
  refine ⟨?_, by decide, by decide, by decide, by decide, by decide, by decide⟩
  intro text kw c hlast hnw hdec
  unfold KeywordExtractor.kwDecision wbMatch at hdec
  rw [List.any_eq_true] at hdec
  obtain ⟨i, -, hat⟩ := hdec
  unfold wbMatchAt at hat
  simp only [Bool.and_eq_true] at hat
  obtain ⟨⟨hocc, -⟩, hb2⟩ := hat
  refine ⟨i, hocc, ?_⟩
  have hkne : kw ≠ [] := by
    intro h; subst h; simp at hlast
  have hklen : 0 < kw.length := List.length_pos.mpr hkne
  have hlkwlen : (lowerL kw).length = kw.length := by simp [lowerL]
  -- the last character of the occurrence is jsToLower c, a non-word character
  have hlastidx : (lowerL kw)[kw.length - 1]? = some (jsToLower c) := by
    have h1 : kw[kw.length - 1]? = some c := by
      rw [← List.getLast?_eq_getElem?]; exact hlast
    have : (lowerL kw)[kw.length - 1]? = kw[kw.length - 1]?.map jsToLower := by
      simp [lowerL]
    rw [this, h1]; rfl
  have hoccel := isPre_getElem _ _ hocc (kw.length - 1) (by omega)
  rw [List.getElem?_drop] at hoccel
  have hprev : wordAt (lowerL text) (i + (kw.length - 1)) = false := by
    unfold wordAt
    rw [hoccel, hlastidx]
    show wordChar (jsToLower c) = false
    rw [wordChar_jsToLower]
    exact hnw
  unfold boundaryAt at hb2
  rw [hlkwlen] at hb2
  have hne : i + kw.length ≠ 0 := by omega
  rw [if_neg hne] at hb2
  have : i + kw.length - 1 = i + (kw.length - 1) := by omega
  rw [this, hprev] at hb2
  cases hw : wordAt (lowerL text) (i + kw.length)
  · rw [hw] at hb2; simp at hb2
  · rfl

theorem C10_witness :
    ((str "c++").getLast? = some '+') ∧ (wordChar '+' = false) ∧
    (KeywordExtractor.kwDecision (lowerL (str "c++x")) (str "c++") = true) ∧
    (∃ i, occursAt (lowerL (str "c++x")) (lowerL (str "c++")) i = true ∧
      wordAt (lowerL (str "c++x")) (i + (str "c++").length) = true) :=
  ⟨by decide, by decide, by decide,
    C10_trailing_nonword_boundary.1 (str "c++x") (str "c++") '+' (by decide) (by decide) (by decide)⟩

/-! ### Claim C2: the keyword-set partition invariant -/

open ATS KeywordExtractor

theorem dedupScores_norm_nodup (l : List ScoredItem) :
    ∀ seen : List (List Char),
      ((dedupScores l seen).map (fun i => normalizeTerm i.term)).Nodup ∧
      ∀ i ∈ dedupScores l seen, normalizeTerm i.term ∉ seen := by
  induction l with
  | nil => intro seen; simp [dedupScores]
  | cons item rest ih =>
    intro seen
    unfold dedupScores
    by_cases hc : seen.contains (normalizeTerm item.term)
    · rw [if_pos hc]
      exact ih seen
    · rw [if_neg hc]
      simp only
      set seen2 :=
        if item.isPhrase then (normalizeTerm item.term :: seen) ++ splitWords item.term
        else normalizeTerm item.term :: seen with hseen2
      have hsub : ∀ x : List Char, x ∈ seen → x ∈ seen2 := by
        intro x hx
        rw [hseen2]
        by_cases hp : item.isPhrase <;> simp [hp, hx]
      have hself : normalizeTerm item.term ∈ seen2 := by
        rw [hseen2]
        by_cases hp : item.isPhrase <;> simp [hp]
      obtain ⟨hnd, hnotin⟩ := ih seen2
      refine ⟨?_, ?_⟩
      · simp only [List.map_cons, List.nodup_cons]
        refine ⟨?_, hnd⟩
        intro hmem
        obtain ⟨j, hj, hje⟩ := List.mem_map.mp hmem
        exact (hnotin j hj) (hje ▸ hself)
      · intro i hi
        simp only [List.mem_cons] at hi
        rcases hi with rfl | hi
        · simpa using hc
        · intro hmem
          exact (hnotin i hi) (hsub _ hmem)

theorem jsSlice_sublist {α : Type} (xs : List α) (s e : ℤ) : (jsSlice xs s e).Sublist xs := by
  unfold jsSlice
  exact (List.take_sublist _ _).trans (List.drop_sublist _ _)

theorem uniqueItems_terms_nodup (cleaned : List Char) :
    ((uniqueItems cleaned).map (fun i => i.term)).Nodup := by
  apply List.Nodup.of_map (f := normalizeTerm)
  rw [List.map_map]
  exact (dedupScores_norm_nodup (rankedItems cleaned) []).1

theorem extractKeywords_all_nodup (jd : List Char) (m : ℤ) :
    (extractKeywords jd m).all.Nodup := by
  unfold extractKeywords
  by_cases hjd : jd = []
  · simp [hjd]
  · rw [if_neg hjd]
    exact ((jsSlice_sublist (uniqueItems (cleanText jd)) 0 m).map (fun i => i.term)).nodup
      (uniqueItems_terms_nodup (cleanText jd))

theorem jsSlice_zero_nonneg_length {α : Type} (xs : List α) (m : ℤ) (hm : 0 ≤ m) :
    ((jsSlice xs 0 m).length : ℤ) ≤ m := by
  unfold jsSlice jsSliceIdx
  rw [if_neg (by omega), if_neg (by omega)]
  have hn : (0:ℤ) ≤ (xs.length : ℤ) := by positivity
  have h1 : min (0:ℤ) (xs.length : ℤ) = 0 := by omega
  rw [h1]
  have h2 := List.length_take_le (m ⊓ (xs.length : ℤ) - 0).toNat (xs.drop (0:ℤ).toNat)
  have h3 : ((m ⊓ (xs.length : ℤ) - 0).toNat : ℤ) ≤ m := by omega
  calc ((List.take (m ⊓ (xs.length : ℤ) - 0).toNat (xs.drop (0:ℤ).toNat)).length : ℤ)
      ≤ ((m ⊓ (xs.length : ℤ) - 0).toNat : ℤ) := by exact_mod_cast h2
    _ ≤ m := h3

theorem take_take_drop_append {α : Type} (l : List α) (a b : Nat) :
    l.take a ++ (l.drop a).take b ++ ((l.drop a).drop b) = l := by
  rw [List.append_assoc, List.take_append_drop, List.take_append_drop]

theorem nodup_slices_disjoint {α : Type} (l : List α) (hl : l.Nodup) (a b : Nat) :
    (l.take a).Disjoint ((l.drop a).take b) ∧
    (l.take a).Disjoint ((l.drop a).drop b) ∧
    ((l.drop a).take b).Disjoint ((l.drop a).drop b) := by
  have h1 : (l.take a ++ l.drop a).Nodup := by rw [List.take_append_drop]; exact hl
  rw [List.nodup_append] at h1
  have h2 : ((l.drop a).take b ++ (l.drop a).drop b).Nodup := by
    rw [List.take_append_drop]; exact h1.2.1
  rw [List.nodup_append] at h2
  refine ⟨?_, ?_, h2.2.2⟩
  · intro x hx hx2
    exact h1.2.2 hx (List.take_subset _ _ hx2)
  · intro x hx hx2
    exact h1.2.2 hx (List.drop_subset _ _ hx2)

theorem extractKeywords_slices (jd : List Char) (m : ℤ) :
    (extractKeywords jd m).all.length = (extractKeywords jd m).total ∧
    (extractKeywords jd m).highPriority =
      (extractKeywords jd m).all.take (highCountOf (extractKeywords jd m).total) ∧
    (extractKeywords jd m).mediumPriority =
      ((extractKeywords jd m).all.drop (highCountOf (extractKeywords jd m).total)).take
        (mediumCountOf (extractKeywords jd m).total) ∧
    (extractKeywords jd m).lowPriority =
      ((extractKeywords jd m).all.drop (highCountOf (extractKeywords jd m).total)).drop
        (mediumCountOf (extractKeywords jd m).total) := by
  unfold extractKeywords
  by_cases hjd : jd = []
  · rw [if_pos hjd]
    exact ⟨by simp, by simp, by simp, by simp⟩
  · rw [if_neg hjd]
    dsimp only
    refine ⟨by simp, ?_, ?_, ?_⟩
    · rw [List.map_take]
    · rw [List.map_take, List.map_drop]
    · rw [List.map_drop, List.drop_drop, Nat.add_comm]

/-- C2 (amended): for every input text and every maxKeywords, the KeywordSet
of extractKeywords has pairwise disjoint priority buckets whose ordered union
is all; the partition is positional over the ranked list (the buckets are the
leading, middle and trailing slices of all); and when maxKeywords is
nonnegative the length of all is at most maxKeywords.  (A negative
maxKeywords is interpreted by Array.slice as counting from the end of the
array, so the length bound fails there; see the counterexample.) -/
theorem C2_keywordSet_partition (jd : List Char) (m : ℤ) :
    (extractKeywords jd m).highPriority ++ (extractKeywords jd m).mediumPriority ++
      (extractKeywords jd m).lowPriority = (extractKeywords jd m).all ∧
    (extractKeywords jd m).all.Nodup ∧
    (extractKeywords jd m).highPriority.Disjoint (extractKeywords jd m).mediumPriority ∧
    (extractKeywords jd m).highPriority.Disjoint (extractKeywords jd m).lowPriority ∧
    (extractKeywords jd m).mediumPriority.Disjoint (extractKeywords jd m).lowPriority ∧
    (extractKeywords jd m).highPriority =
      (extractKeywords jd m).all.take (highCountOf (extractKeywords jd m).total) ∧
    (extractKeywords jd m).mediumPriority =
      ((extractKeywords jd m).all.drop (highCountOf (extractKeywords jd m).total)).take
        (mediumCountOf (extractKeywords jd m).total) ∧
    (0 ≤ m → ((extractKeywords jd m).all.length : ℤ) ≤ m) := by
  obtain ⟨hlen, h1, h2, h3⟩ := extractKeywords_slices jd m
  have hnodup := extractKeywords_all_nodup jd m
  obtain ⟨d1, d2, d3⟩ := nodup_slices_disjoint _ hnodup
    (highCountOf (extractKeywords jd m).total) (mediumCountOf (extractKeywords jd m).total)
  refine ⟨?_, hnodup, ?_, ?_, ?_, h1, h2, ?_⟩
  · rw [h1, h2, h3, take_take_drop_append]
  · rw [h1, h2]; exact d1
  · rw [h1, h3]; exact d2
  · rw [h2, h3]; exact d3
  · intro hm
    have hall : (extractKeywords jd m).all.length ≤ (jsSlice (uniqueItems (cleanText jd)) 0 m).length ∨
        (extractKeywords jd m).all = [] := by
      unfold extractKeywords
      by_cases hjd : jd = []
      · rw [if_pos hjd]; right; rfl
      · rw [if_neg hjd]; left; simp
    rcases hall with hle | hnil
    · calc ((extractKeywords jd m).all.length : ℤ)
          ≤ ((jsSlice (uniqueItems (cleanText jd)) 0 m).length : ℤ) := by exact_mod_cast hle
        _ ≤ m := jsSlice_zero_nonneg_length _ _ hm
    · rw [hnil]; simpa using hm

/-- C2 counterexample: extractKeywords of the text python java with
maxKeywords = -1 has all of length 1, so the claimed bound length of all at
most maxKeywords fails for a negative maxKeywords (Array.slice counts a
negative end index from the end of the array). -/
theorem C2_counterexample :
    (extractKeywords (str "python java") (-1)).all = [str "python"] ∧
    ¬(((extractKeywords (str "python java") (-1)).all.length : ℤ) ≤ -1) := by
  constructor
  · decide
  · decide

theorem C2_witness :
    ((0 : ℤ) ≤ 35) ∧
    (((extractKeywords (str "python java") 35).all.length : ℤ) ≤ 35) :=
  ⟨by decide, (C2_keywordSet_partition (str "python java") 35).2.2.2.2.2.2.2 (by decide)⟩

/-! ### Claim C6: no duplicate injection across strategies -/


theorem tu_enhanceSummary_injected_subset (s : List Char) (kws : List (List Char)) :
    ∀ x ∈ (TailorUniversal.enhanceSummary s kws).injected, x ∈ kws := by
  unfold TailorUniversal.enhanceSummary
  intro x hx
  split at hx
  · simp at hx
  · dsimp only at hx
    split at hx
    · simp at hx
    · have base : ∀ y ∈ (kws.filter
          (fun kw => !TailorUniversal.presentIn (lowerL s) kw)).take
            TailorUniversal.MAX_KEYWORDS_SUMMARY, y ∈ kws := by
        intro y hy
        exact (List.mem_filter.mp (List.take_subset _ _ hy)).1
      split at hx <;>
      · simp only at hx
        exact base x (List.take_subset _ _ hx)

theorem tu_enhanceExpLines_injected_subset (missing : List (List Char)) :
    ∀ (ls : List (List Char)) (ki : Nat),
      ∀ x ∈ (TailorUniversal.enhanceExpLines missing ls ki).2, x ∈ missing := by
  intro ls
  induction ls with
  | nil => intro ki x hx; simp [TailorUniversal.enhanceExpLines] at hx
  | cons line ls ih =>
    intro ki x hx
    unfold TailorUniversal.enhanceExpLines at hx
    rcases hmatch : TailorUniversal.bulletSplit line with - | ⟨pre, bulletText⟩ <;>
      rw [hmatch] at hx <;> (try dsimp only at hx)
    · exact ih ki x hx
    · by_cases h : ki < missing.length
      · rw [dif_pos h] at hx
        repeat' split at hx
        all_goals
          first
          | exact ih _ x hx
          | (obtain rfl | hx2 := List.mem_cons.mp hx
             exacts [List.get_mem _ _ _, ih _ x hx2])
      · rw [dif_neg h] at hx
        exact ih _ x hx

theorem tu_enhanceExperience_injected_subset (e : List Char) (kws : List (List Char)) :
    ∀ x ∈ (TailorUniversal.enhanceExperience e kws).injected, x ∈ kws := by
  unfold TailorUniversal.enhanceExperience
  intro x hx
  split at hx
  · simp at hx
  · dsimp only at hx
    split at hx
    · simp at hx
    · simp only at hx
      have h1 := tu_enhanceExpLines_injected_subset _ _ _ x hx
      exact (List.mem_filter.mp (List.take_subset _ _ h1)).1

theorem tu_enhanceSkills_injected_subset (s : List Char) (kws : List (List Char)) :
    ∀ x ∈ (TailorUniversal.enhanceSkills s kws).injected, x ∈ kws := by
  unfold TailorUniversal.enhanceSkills
  intro x hx
  split at hx
  · simp at hx
  · dsimp only at hx
    split at hx
    · simp at hx
    · split at hx <;>
      · simp only at hx
        exact (List.mem_filter.mp (List.take_subset _ _ hx)).1

theorem ctSumLoop_subset (tc : Nat) (ls : List (List Char)) :
    ∀ missing injected : List (List Char),
      (∀ x ∈ (CVTailor.ctSumLoop tc ls missing injected).2.1, x ∈ missing) ∧
      (∀ x ∈ (CVTailor.ctSumLoop tc ls missing injected).2.2, x ∈ injected ∨ x ∈ missing) := by
  induction ls with
  | nil =>
    intro missing injected
    constructor <;> (intro x hx; simp [CVTailor.ctSumLoop] at hx)
    · exact hx
    · exact Or.inl hx
  | cons line ls ih =>
    intro missing injected
    unfold CVTailor.ctSumLoop
    split
    · split
      · exact ⟨fun x hx => (ih missing injected).1 x hx,
          fun x hx => (ih missing injected).2 x hx⟩
      · split
        · rcases missing with - | ⟨kw, missing2⟩
          · exact ⟨fun x hx => (ih _ _).1 x hx, fun x hx => (ih _ _).2 x hx⟩
          · dsimp only
            split
            · constructor
              · intro x hx
                exact List.mem_cons_of_mem _ ((ih missing2 (injected ++ [kw])).1 x hx)
              · intro x hx
                rcases (ih missing2 (injected ++ [kw])).2 x hx with h1 | h1
                · rcases List.mem_append.mp h1 with h2 | h2
                  · exact Or.inl h2
                  · simp at h2
                    exact Or.inr (by simp [h2])
                · exact Or.inr (List.mem_cons_of_mem _ h1)
            · constructor
              · intro x hx
                exact List.mem_cons_of_mem _ ((ih missing2 injected).1 x hx)
              · intro x hx
                rcases (ih missing2 injected).2 x hx with h1 | h1
                · exact Or.inl h1
                · exact Or.inr (List.mem_cons_of_mem _ h1)
        · exact ⟨fun x hx => (ih missing injected).1 x hx,
            fun x hx => (ih missing injected).2 x hx⟩
    · exact ⟨fun x hx => hx, fun x hx => Or.inl hx⟩

theorem getLastD_mem {α : Type} (l : List α) (d : α) (h : l ≠ []) :
    l.getLast?.getD d ∈ l := by
  induction l with
  | nil => exact absurd rfl h
  | cons a l ih =>
    cases l with
    | nil => simp [List.getLast?]
    | cons b l =>
      have h2 := ih (by simp)
      rw [List.getLast?_cons_cons]
      exact List.mem_cons_of_mem _ h2

theorem ctEnhanceSummary_injected (summaryLines high existingMatched : List (List Char)) :
    ∀ x ∈ (CVTailor.ctEnhanceSummary summaryLines high existingMatched).2,
      x ∈ high ∧ x ∉ existingMatched := by
  intro x hx
  unfold CVTailor.ctEnhanceSummary at hx
  split at hx
  · simp at hx
  · dsimp only at hx
    split at hx
    · simp at hx
    · rcases hlines : summaryLines with - | ⟨l0, rest⟩
      · rw [hlines] at hx; simp at hx
      · rw [hlines] at hx
        dsimp only at hx
        generalize hM : (high.filter fun kw =>
          !CVTailor.hasKeyword (joinSep [' '] (l0 :: rest)) kw &&
            !existingMatched.contains kw) = M at hx
        have base : ∀ y, y ∈ M → y ∈ high ∧ y ∉ existingMatched := by
          intro y hy
          rw [← hM] at hy
          have h1 := List.mem_filter.mp hy
          refine ⟨h1.1, ?_⟩
          have h2 := h1.2
          simp only [Bool.and_eq_true, Bool.not_eq_true'] at h2
          simpa using h2.2
        generalize hL : CVTailor.ctSumLoop (min 8 high.length) rest M [] = L at hx
        have hloop := ctSumLoop_subset (min 8 high.length) rest M []
        rw [hL] at hloop
        obtain ⟨hl1, hl2⟩ := hloop
        split at hx
        · rename_i hcond
          simp only at hx
          rcases List.mem_append.mp hx with h1 | h1
          · rcases List.mem_append.mp h1 with h2 | h2
            · rcases hl2 x h2 with h3 | h3
              · simp at h3
              · exact base x h3
            · have h3 := (List.dropLast_sublist _).subset h2
              have h4 := List.take_subset _ _ h3
              exact base x (hl1 x h4)
          · simp only [List.mem_singleton] at h1
            subst h1
            have hne : (L.2.1.take (min 4 L.2.1.length)) ≠ [] := by
              intro he
              have hlen := congrArg List.length he
              simp only [List.length_take, List.length_nil] at hlen
              omega
            have hmem := getLastD_mem (L.2.1.take (min 4 L.2.1.length)) [] hne
            exact base _ (hl1 _ (List.take_subset _ _ hmem))
        · rcases hl2 x hx with h2 | h2
          · simp at h2
          · exact base x h2

theorem ctBulletInject_subset (available : List (List Char)) :
    ∀ (j : Nat) (line : List Char) (ki : Nat),
      ∀ x ∈ (CVTailor.ctBulletInject available j line ki).2.2, x ∈ available := by
  intro j
  induction j with
  | zero => intro line ki x hx; simp [CVTailor.ctBulletInject] at hx
  | succ j ih =>
    intro line ki x hx
    unfold CVTailor.ctBulletInject at hx
    by_cases h : ki < available.length
    · rw [dif_pos h] at hx
      dsimp only at hx
      cases hkw : CVTailor.hasKeyword line (available.get ⟨ki, h⟩) <;>
        simp only [hkw, Bool.not_false, Bool.not_true, if_true, if_false] at hx
      · cases hpc : (line.contains '.' || line.contains ',') <;>
          simp only [hpc, if_true, if_false] at hx
        · cases hed : endsWithL (str ".") line <;>
            simp only [hed, Bool.not_false, Bool.not_true, if_true, if_false] at hx
          · obtain rfl | hx2 := List.mem_cons.mp hx
            · exact List.get_mem _ _ _
            · exact ih _ _ x hx2
          · exact ih _ _ x hx
        · by_cases hj : j + 1 = 2 <;> simp only [hj, if_true, if_false] at hx <;>
          · obtain rfl | hx2 := List.mem_cons.mp hx
            · exact List.get_mem _ _ _
            · exact ih _ _ x hx2
      · exact ih _ _ x hx
    · rw [dif_neg h] at hx
      simp at hx

theorem ctExpLoop_subset (available : List (List Char)) :
    ∀ (ls : List (List Char)) (bc ki : Nat),
      ∀ x ∈ (CVTailor.ctExpLoop available ls bc ki).2, x ∈ available := by
  intro ls
  induction ls with
  | nil => intro bc ki x hx; simp [CVTailor.ctExpLoop] at hx
  | cons line ls ih =>
    intro bc ki x hx
    unfold CVTailor.ctExpLoop at hx
    repeat' split at hx
    all_goals first
      | exact ih _ _ x hx
      | (rcases List.mem_append.mp hx with h1 | h1
         exacts [ctBulletInject_subset available _ _ _ x h1, ih _ _ x h1])
      | (simp at hx
         rcases hx with h1 | h1
         exacts [ctBulletInject_subset available _ _ _ x h1, ih _ _ x h1])
      | simp at hx

theorem ctEnhanceExperience_injected (experienceLines high medium existingMatched :
    List (List Char)) :
    ∀ x ∈ (CVTailor.ctEnhanceExperience experienceLines high medium existingMatched).2,
      x ∈ high ++ medium ∧ x ∉ existingMatched := by
  intro x hx
  unfold CVTailor.ctEnhanceExperience at hx
  split at hx
  · simp at hx
  · dsimp only at hx
    have h1 := ctExpLoop_subset _ _ _ _ x hx
    have h2 := List.mem_filter.mp h1
    refine ⟨h2.1, ?_⟩
    have h3 := h2.2
    simp only [Bool.and_eq_true, Bool.not_eq_true'] at h3
    simpa using h3.2

theorem ctEnhanceSkills_injected_of_nonempty (skillsLines high medium existingMatched :
    List (List Char)) (hne : skillsLines ≠ []) :
    ∀ x ∈ (CVTailor.ctEnhanceSkills skillsLines high medium existingMatched).2.1,
      x ∈ high ++ medium ∧ x ∉ existingMatched := by
  intro x hx
  unfold CVTailor.ctEnhanceSkills at hx
  rw [if_neg hne] at hx
  dsimp only at hx
  split at hx
  · simp at hx
  · have base : ∀ y, y ∈ (high ++ medium).filter (fun kw =>
        !CVTailor.hasKeyword (joinSep [' '] skillsLines) kw &&
          !existingMatched.contains kw) → y ∈ high ++ medium ∧ y ∉ existingMatched := by
      intro y hy
      have h1 := List.mem_filter.mp hy
      refine ⟨h1.1, ?_⟩
      have h2 := h1.2
      simp only [Bool.and_eq_true, Bool.not_eq_true'] at h2
      simpa using h2.2
    split at hx
    · exact base x (List.take_subset _ _ hx)
    · exact base x (List.take_subset _ _ hx)

/-- C6 (amended): in TailorUniversal.tailorCV the summary, experience and
skills injected-keyword lists are pairwise disjoint for every input; in
CVTailor.tailorCV the summary and experience lists are always disjoint, and
both are disjoint from the skills list whenever the CV has a skills section.
(When the skills section is absent, the created section takes every
high/medium keyword regardless of earlier injections; see the
counterexample.) -/
theorem C6_strategy_injections_disjoint :
    (∀ (parsed : TailorUniversal.Parsed) (kw : TailorUniversal.KwArg),
      (TailorUniversal.runSummary parsed kw).injected.Disjoint
        (TailorUniversal.runExperience parsed kw).injected ∧
      (TailorUniversal.runSummary parsed kw).injected.Disjoint
        (TailorUniversal.runSkills parsed kw).injected ∧
      (TailorUniversal.runExperience parsed kw).injected.Disjoint
        (TailorUniversal.runSkills parsed kw).injected) ∧
    (∀ (parsed : CVTailor.CTParsed) (kw : CVTailor.CTKeywords)
        (matched : List (List Char)),
      (CVTailor.ctRunSummary parsed kw matched).2.Disjoint
        (CVTailor.ctRunExperience parsed kw matched).2 ∧
      (parsed.sections.skills ≠ [] →
        (CVTailor.ctRunSummary parsed kw matched).2.Disjoint
          (CVTailor.ctRunSkills parsed kw matched).2.1 ∧
        (CVTailor.ctRunExperience parsed kw matched).2.Disjoint
          (CVTailor.ctRunSkills parsed kw matched).2.1)) := by
  constructor
  · intro parsed kw
    refine ⟨?_, ?_, ?_⟩
    · intro a ha hb
      unfold TailorUniversal.runExperience at hb
      have h1 := tu_enhanceExperience_injected_subset _ _ a hb
      have h2 := List.mem_filter.mp h1
      have h3 := h2.2
      simp at h3
      exact h3 ha
    · intro a ha hb
      unfold TailorUniversal.runSkills at hb
      have h1 := tu_enhanceSkills_injected_subset _ _ a hb
      have h2 := List.mem_filter.mp h1
      have h3 := h2.2
      simp at h3
      exact h3.1 ha
    · intro a ha hb
      unfold TailorUniversal.runSkills at hb
      have h1 := tu_enhanceSkills_injected_subset _ _ a hb
      have h2 := List.mem_filter.mp h1
      have h3 := h2.2
      simp at h3
      exact h3.2 ha
  · intro parsed kw matched
    constructor
    · intro a ha hb
      unfold CVTailor.ctRunExperience at hb
      split at hb
      · have h1 := ctEnhanceExperience_injected _ _ _ _ a hb
        exact h1.2 (List.mem_append.mpr (Or.inr ha))
      · simp at hb
    · intro hskills
      constructor
      · intro a ha hb
        unfold CVTailor.ctRunSkills at hb
        have h1 := ctEnhanceSkills_injected_of_nonempty _ _ _ _ hskills a hb
        refine h1.2 (List.mem_append.mpr (Or.inr ?_))
        exact List.mem_append.mpr (Or.inl ha)
      · intro a ha hb
        unfold CVTailor.ctRunSkills at hb
        have h1 := ctEnhanceSkills_injected_of_nonempty _ _ _ _ hskills a hb
        refine h1.2 (List.mem_append.mpr (Or.inr ?_))
        exact List.mem_append.mpr (Or.inr ha)

/-- C6 counterexample: with a CV that has a summary but no skills section and
high-priority keywords python, java, sql, cv-tailor.js injects python into
the summary and then the created skills section injects python again, so the
summary and skills injected lists are not disjoint and the combined
injectedKeywords list of tailorCV contains python twice. -/
theorem C6_counterexample :
    str "python" ∈
      (CVTailor.ctRunSummary
        (CVTailor.ctParseCV
          (str "SUMMARY\nSeasoned analyst delivering dashboards for enterprise clients."))
        ⟨["python", "java", "sql"].map str, ["python", "java", "sql"].map str, [], []⟩
        (KeywordExtractor.matchKeywords
          (str "SUMMARY\nSeasoned analyst delivering dashboards for enterprise clients.")
          (["python", "java", "sql"].map str)).matched).2 ∧
    str "python" ∈
      (CVTailor.ctRunSkills
        (CVTailor.ctParseCV
          (str "SUMMARY\nSeasoned analyst delivering dashboards for enterprise clients."))
        ⟨["python", "java", "sql"].map str, ["python", "java", "sql"].map str, [], []⟩
        (KeywordExtractor.matchKeywords
          (str "SUMMARY\nSeasoned analyst delivering dashboards for enterprise clients.")
          (["python", "java", "sql"].map str)).matched).2.1 ∧
    ¬(CVTailor.ctTailorCV
        (str "SUMMARY\nSeasoned analyst delivering dashboards for enterprise clients.")
        ⟨["python", "java", "sql"].map str, ["python", "java", "sql"].map str, [], []⟩
      ).injectedKeywords.Nodup := by
  refine ⟨by decide, by decide, by decide⟩

theorem C6_witness :
    (CVTailor.ctParseCV (str "SKILLS\npython, sql, analytics tools")).sections.skills ≠ [] ∧
    ((CVTailor.ctRunSummary (CVTailor.ctParseCV (str "SKILLS\npython, sql, analytics tools"))
        ⟨["java"].map str, ["java"].map str, [], []⟩ []).2.Disjoint
      (CVTailor.ctRunSkills (CVTailor.ctParseCV (str "SKILLS\npython, sql, analytics tools"))
        ⟨["java"].map str, ["java"].map str, [], []⟩ []).2.1 ∧
     (CVTailor.ctRunExperience (CVTailor.ctParseCV (str "SKILLS\npython, sql, analytics tools"))
        ⟨["java"].map str, ["java"].map str, [], []⟩ []).2.Disjoint
      (CVTailor.ctRunSkills (CVTailor.ctParseCV (str "SKILLS\npython, sql, analytics tools"))
        ⟨["java"].map str, ["java"].map str, [], []⟩ []).2.1) :=
  ⟨by decide,
    (C6_strategy_injections_disjoint.2
      (CVTailor.ctParseCV (str "SKILLS\npython, sql, analytics tools"))
      ⟨["java"].map str, ["java"].map str, [], []⟩ []).2 (by decide)⟩

/-! ### Claim C7: tailoring and the 95-percent target -/


/-- C7 failing input, cv-tailor.js engine: a CV whose skills section precedes
its education section, with two keywords matched across the original section
boundary and one keyword missing.  The initial score is 67 (below the target
95) with a missing keyword, yet tailoring reorders the sections into
canonical order, destroying both cross-boundary matches while injecting only
the one missing keyword: the final score 33 is lower than the initial 67. -/
theorem C7_tailorCV_can_decrease_score :
    (KeywordExtractor.matchKeywords (str "SKILLS\nfoo\nEDUCATION\nbar")
      (["foo\neducation", "foo\neducation\nbar", "qqq"].map str)).matchScore = 67 ∧
    (KeywordExtractor.matchKeywords (str "SKILLS\nfoo\nEDUCATION\nbar")
      (["foo\neducation", "foo\neducation\nbar", "qqq"].map str)).missing = [str "qqq"] ∧
    (CVTailor.ctTailorCV (str "SKILLS\nfoo\nEDUCATION\nbar")
      ⟨["foo\neducation", "foo\neducation\nbar", "qqq"].map str,
       ["foo\neducation", "foo\neducation\nbar", "qqq"].map str, [], []⟩).matchScore = 33 ∧
    (33 : Nat) < 67 ∧ (67 : Nat) < 95 ∧
    ((TailorUniversal.tailorCV (some TailorUniversal.ReliableExtractor_matchKeywords)
        (str "z1 z2 z3 z4 z5 z6 z7 z8 z9 z10 z11 z12 z13 z14 z15 z16\nSkills\nfoo")
        (.arr (["z1", "z2", "z3", "z4", "z5", "z6", "z7", "z8", "z9", "z10", "z11", "z12",
          "z13", "z14", "z15", "z16", "foo", "qqq"].map str)) 95).toOption.map
      (fun r => (r.initialScore, r.finalScore))) = some (94, 89) ∧ (89 : Nat) < 94 := by
  refine ⟨by decide, by decide, by decide, by decide, by decide, by decide, by decide⟩

/-! ### Claim C8: orchestrator error behaviour -/

theorem tu_tailorCV_ok_of_ne_nil
    (re : Option (List Char → List (List Char) → KeywordExtractor.MatchResult))
    (cv : List Char) (kw : TailorUniversal.KwArg) (ts : Nat) (h : cv ≠ []) :
    ∃ r, TailorUniversal.tailorCV re cv kw ts = .ok r := by
  unfold TailorUniversal.tailorCV
  rw [if_neg h]
  dsimp only
  repeat' split
  all_goals exact ⟨_, rfl⟩

/-- C8: the orchestrator raises the descriptive input error whenever the job
description OR the base CV is empty (before extraction, with no partial
work); it raises the extraction error when both inputs are nonempty but
keyword extraction yields zero keywords; and it returns a full result exactly
when the job description is nonempty, the CV is nonempty and extraction is
nonempty (Except returns a result or an error, never both). -/
theorem C8_orchestrator_error_conditions (jd cv : List Char) (ts : Nat) (mk : ℤ) :
    ((∃ r, AutoTailor95.autoTailorTo95Plus jd cv ts mk = .ok r) ↔
      (jd ≠ [] ∧ cv ≠ [] ∧ (AutoTailor95.extractJobKeywords jd mk).all ≠ [])) ∧
    (jd = [] ∨ cv = [] →
      AutoTailor95.autoTailorTo95Plus jd cv ts mk =
        .error (str "Job description and CV are required")) ∧
    (jd ≠ [] → cv ≠ [] → (AutoTailor95.extractJobKeywords jd mk).all = [] →
      AutoTailor95.autoTailorTo95Plus jd cv ts mk =
        .error (str "Could not extract keywords from job description")) := by
  by_cases h1 : jd = [] ∨ cv = []
  · refine ⟨?_, fun _ => ?_, fun hj hc _ => ?_⟩
    · unfold AutoTailor95.autoTailorTo95Plus
      rw [if_pos h1]
      constructor
      · rintro ⟨r, hr⟩
        cases hr
      · rintro ⟨hj, hc, -⟩
        exact absurd h1 (by simp [hj, hc])
    · unfold AutoTailor95.autoTailorTo95Plus
      rw [if_pos h1]
    · exact absurd h1 (by simp [hj, hc])
  · push_neg at h1
    obtain ⟨hj, hc⟩ := h1
    by_cases h2 : (AutoTailor95.extractJobKeywords jd mk).all = []
    · refine ⟨?_, fun h => ?_, fun _ _ _ => ?_⟩
      · unfold AutoTailor95.autoTailorTo95Plus
        rw [if_neg (by simp [hj, hc])]
        dsimp only
        rw [if_pos h2]
        constructor
        · rintro ⟨r, hr⟩
          cases hr
        · rintro ⟨-, -, hne⟩
          exact absurd h2 hne
      · exact absurd h (by simp [hj, hc])
      · unfold AutoTailor95.autoTailorTo95Plus
        rw [if_neg (by simp [hj, hc])]
        dsimp only
        rw [if_pos h2]
    · refine ⟨?_, fun h => absurd h (by simp [hj, hc]), fun _ _ h => absurd h h2⟩
      constructor
      · intro _
        exact ⟨hj, hc, h2⟩
      · intro _
        obtain ⟨r, hr⟩ := tu_tailorCV_ok_of_ne_nil none cv
          (.set (AutoTailor95.extractJobKeywords jd mk).all
            (AutoTailor95.extractJobKeywords jd mk).highPriority
            (AutoTailor95.extractJobKeywords jd mk).mediumPriority
            (AutoTailor95.extractJobKeywords jd mk).lowPriority) ts hc
        unfold AutoTailor95.autoTailorTo95Plus
        rw [if_neg (by simp [hj, hc])]
        dsimp only
        rw [if_neg h2, hr]
        exact ⟨_, rfl⟩

/-- C8 counterexample to the original claim: a nonempty job description whose
extraction succeeds, paired with an empty CV, raises the input error instead
of returning a result. -/
theorem C8_counterexample :
    (AutoTailor95.extractJobKeywords (str "python developer") 35).all ≠ [] ∧
    AutoTailor95.autoTailorTo95Plus (str "python developer") [] 95 35 =
      .error (str "Job description and CV are required") := by
  exact ⟨by decide, rfl⟩

/-- C8 witness: a stop-word-only job description extracts zero keywords and
the orchestrator raises the extraction error. -/
theorem C8_witness :
    AutoTailor95.autoTailorTo95Plus (str "of") (str "cv text") 95 35 =
      .error (str "Could not extract keywords from job description") :=
  (C8_orchestrator_error_conditions (str "of") (str "cv text") 95 35).2.2
    (by decide) (by decide) (by decide)

/-! ### Claims C4 and C5: the section parser and the reconstruction round trip -/

namespace ATS

theorem splitOnChar_ne_nil (c : Char) (l : List Char) : splitOnChar c l ≠ [] := by
  induction l with
  | nil => simp [splitOnChar]
  | cons a as ih =>
      simp only [splitOnChar]
      split
      · simp
      · cases h : splitOnChar c as with
        | nil => exact absurd h ih
        | cons x xs => simp

theorem splitOnChar_append_sep (c : Char) (x y : List Char) :
    splitOnChar c (x ++ c :: y) = splitOnChar c x ++ splitOnChar c y := by
  induction x with
  | nil => simp [splitOnChar]
  | cons a as ih =>
      by_cases ha : a = c
      · subst ha
        show splitOnChar a (a :: (as ++ a :: y)) = splitOnChar a (a :: as) ++ splitOnChar a y
        simp only [splitOnChar, if_pos rfl, ih]
        rfl
      · show splitOnChar c (a :: (as ++ c :: y)) = splitOnChar c (a :: as) ++ splitOnChar c y
        simp only [splitOnChar, if_neg ha, ih]
        cases h : splitOnChar c as with
        | nil => exact absurd h (splitOnChar_ne_nil c as)
        | cons p ps => simp [h]

theorem splitOnChar_not_mem (c : Char) (l : List Char) :
    ∀ p ∈ splitOnChar c l, c ∉ p := by
  induction l with
  | nil =>
      intro p hp
      simp only [splitOnChar, List.mem_singleton] at hp
      simp [hp]
  | cons a as ih =>
      intro p hp
      simp only [splitOnChar] at hp
      by_cases ha : a = c
      · rw [if_pos ha] at hp
        rcases List.mem_cons.1 hp with h | h
        · simp [h]
        · exact ih p h
      · rw [if_neg ha] at hp
        cases h : splitOnChar c as with
        | nil => exact absurd h (splitOnChar_ne_nil c as)
        | cons x xs =>
            rw [h] at hp
            dsimp only at hp
            rcases List.mem_cons.1 hp with h2 | h2
            · subst h2
              intro hm
              rcases List.mem_cons.1 hm with h3 | h3
              · exact ha h3.symm
              · exact ih x (by simp [h]) h3
            · exact ih p (by simp [h, h2])

theorem splitOnChar_eq_self (c : Char) (l : List Char) (h : c ∉ l) :
    splitOnChar c l = [l] := by
  induction l with
  | nil => simp [splitOnChar]
  | cons a as ih =>
      simp only [List.mem_cons, not_or] at h
      have hac : a ≠ c := fun he => h.1 he.symm
      simp only [splitOnChar, ih h.2]
      rw [if_neg hac]

theorem splitLines_joinLines (ls : List (List Char)) (hne : ls ≠ [])
    (h : ∀ l ∈ ls, ('\n' : Char) ∉ l) : splitLines (joinLines ls) = ls := by
  induction ls with
  | nil => exact absurd rfl hne
  | cons a as ih =>
      cases as with
      | nil =>
          simp only [joinLines, splitLines]
          exact splitOnChar_eq_self _ _ (h a (by simp))
      | cons b bs =>
          show splitOnChar '\n' (a ++ '\n' :: joinLines (b :: bs)) = _
          rw [splitOnChar_append_sep, splitOnChar_eq_self _ _ (h a (by simp))]
          have := ih (by simp) (fun l hl => h l (List.mem_cons_of_mem _ hl))
          simp only [splitLines] at this
          rw [this]
          rfl

end ATS

namespace TailorUniversal

open ATS

theorem lineBlocks_join (ls : List (List Char)) :
    (lineBlocks ls).1 ++ ((lineBlocks ls).2.map (fun p => p.2)).flatten = ls := by
  induction ls with
  | nil => simp [lineBlocks]
  | cons l t ih =>
      simp only [lineBlocks]
      cases h : lineMatch l with
      | some s => simpa using ih
      | none => simpa using ih

theorem lineBlocks_header_nomatch (ls : List (List Char)) :
    ∀ l ∈ (lineBlocks ls).1, lineMatch l = none := by
  induction ls with
  | nil => simp [lineBlocks]
  | cons l t ih =>
      simp only [lineBlocks]
      cases h : lineMatch l with
      | some s => simp
      | none =>
          intro x hx
          rcases List.mem_cons.1 hx with h2 | h2
          · rw [h2]; exact h
          · exact ih x h2

theorem lineBlocks_shape (ls : List (List Char)) :
    ∀ p ∈ (lineBlocks ls).2, ∃ l t, p.2 = l :: t ∧ lineMatch l = some p.1 ∧
      ∀ x ∈ t, lineMatch x = none := by
  induction ls with
  | nil => simp [lineBlocks]
  | cons l t ih =>
      simp only [lineBlocks]
      cases h : lineMatch l with
      | some s =>
          intro p hp
          rcases List.mem_cons.1 hp with h2 | h2
          · subst h2
            exact ⟨l, (lineBlocks t).1, rfl, h, lineBlocks_header_nomatch t⟩
          · exact ih p h2
      | none => exact ih

theorem lineBlocks_block_ne_nil (ls : List (List Char)) :
    ∀ p ∈ (lineBlocks ls).2, p.2 ≠ [] := by
  intro p hp
  obtain ⟨l, t, he, -, -⟩ := lineBlocks_shape ls p hp
  simp [he]

theorem lineBlocks_mem_header (ls : List (List Char)) :
    ∀ l ∈ (lineBlocks ls).1, l ∈ ls := by
  intro l hl
  have := lineBlocks_join ls
  rw [← this]
  exact List.mem_append_left _ hl

theorem lineBlocks_mem_block (ls : List (List Char)) :
    ∀ p ∈ (lineBlocks ls).2, ∀ x ∈ p.2, x ∈ ls := by
  intro p hp x hx
  have := lineBlocks_join ls
  rw [← this]
  refine List.mem_append_right _ (List.mem_flatten.2 ⟨p.2, ?_, hx⟩)
  exact List.mem_map.2 ⟨p, hp, rfl⟩

theorem lineBlocks_append_nomatch (h rest : List (List Char))
    (hh : ∀ l ∈ h, lineMatch l = none) :
    lineBlocks (h ++ rest) = (h ++ (lineBlocks rest).1, (lineBlocks rest).2) := by
  induction h with
  | nil => simp
  | cons a t ih =>
      have ha := hh a (by simp)
      have ih2 := ih (fun l hl => hh l (List.mem_cons_of_mem _ hl))
      show lineBlocks (a :: (t ++ rest)) = _
      simp only [lineBlocks, List.append_eq, ha, ih2, List.cons_append]

theorem lineBlocks_cons_match (l : List Char) (rest : List (List Char)) (s : SecName)
    (h : lineMatch l = some s) :
    lineBlocks (l :: rest) = ([], (s, l :: (lineBlocks rest).1) :: (lineBlocks rest).2) := by
  simp only [lineBlocks]
  rw [h]

theorem parse_fold_eq (ls : List (List Char)) (st : PState) :
    ls.foldl parseStep st =
      afterBlocks { st with content := st.content ++ (lineBlocks ls).1 } (lineBlocks ls).2 := by
  induction ls generalizing st with
  | nil => simp [lineBlocks, afterBlocks]
  | cons l t ih =>
      simp only [List.foldl_cons, lineBlocks]
      cases h : lineMatch l with
      | some s =>
          dsimp only
          have hstep : parseStep st l =
              { (if st.content.length > 0 ∨ st.cur ≠ none then saveSection st else st) with
                cur := some s, content := [l] } := by
            simp only [parseStep, h]
          rw [ih (parseStep st l), hstep]
          show afterBlocks _ _ =
            afterBlocks { st with content := st.content ++ [] } ((s, l :: (lineBlocks t).1) :: (lineBlocks t).2)
          simp only [afterBlocks, List.append_nil]
          rfl
      | none =>
          dsimp only
          have hstep : parseStep st l = { st with content := st.content ++ [l] } := by
            simp only [parseStep, h]
          rw [ih (parseStep st l), hstep]
          simp [List.append_assoc]

theorem finish_afterBlocks (bs : List (SecName × List (List Char))) (st : PState)
    (hc : st.content ≠ []) (hbne : ∀ p ∈ bs, p.2 ≠ []) :
    (finishState (afterBlocks st bs)).sections =
        applyEntries st.sections ((st.cur, trimL (joinLines st.content)) :: bs.map blockEntry) ∧
    (finishState (afterBlocks st bs)).order =
        applyOrder st.order (st.cur :: bs.map (fun p => some p.1)) := by
  induction bs generalizing st with
  | nil =>
      obtain ⟨ms, mo, mc, mcon⟩ := st
      simp only [afterBlocks, finishState, List.map_nil]
      rw [if_pos (by simpa [List.length_pos] using hc)]
      refine ⟨rfl, ?_⟩
      cases mc <;> rfl
  | cons p rest ih =>
      obtain ⟨s, b⟩ := p
      obtain ⟨ms, mo, mc, mcon⟩ := st
      simp only [afterBlocks]
      rw [if_pos (Or.inl (by simpa [List.length_pos] using hc))]
      have hb : b ≠ [] := hbne (s, b) (by simp)
      have hrec := ih { saveSection ⟨ms, mo, mc, mcon⟩ with cur := some s, content := b } hb
        (fun q hq => hbne q (List.mem_cons_of_mem _ hq))
      refine ⟨?_, ?_⟩
      · rw [hrec.1]
        cases mc <;> rfl
      · rw [hrec.2]
        cases mc <;> rfl

theorem splitLines_ne_nil (l : List Char) : splitLines l ≠ [] :=
  splitOnChar_ne_nil '\n' l

theorem finishState_eq (st : PState) :
    (if st.content.length > 0 then saveSection st else st) = finishState st := rfl

theorem parseCV_closed (cvText : List Char) (h : cvText ≠ []) :
    parseCV cvText =
      ⟨(getSec (applyEntries [] (parseEntries (lineBlocks (splitLines cvText)).1
          (lineBlocks (splitLines cvText)).2)) none).getD [],
       applyEntries [] (parseEntries (lineBlocks (splitLines cvText)).1
          (lineBlocks (splitLines cvText)).2),
       applyOrder [] ((lineBlocks (splitLines cvText)).2.map (fun p => some p.1))⟩ := by
  unfold parseCV
  rw [if_neg h]
  dsimp only
  rw [parse_fold_eq, finishState_eq]
  have hbne := lineBlocks_block_ne_nil (splitLines cvText)
  by_cases hhb : (lineBlocks (splitLines cvText)).1 = []
  · rw [hhb]
    cases hbs : (lineBlocks (splitLines cvText)).2 with
    | nil =>
        exfalso
        have hj := lineBlocks_join (splitLines cvText)
        rw [hhb, hbs] at hj
        simp at hj
        exact splitLines_ne_nil cvText hj
    | cons q rest =>
        obtain ⟨s, b⟩ := q
        have hb : b ≠ [] := by simpa using hbne (s, b) (by rw [hbs]; simp)
        have hfin := finish_afterBlocks rest ⟨[], [], some s, b⟩ hb
          (fun q hq => by
            simpa using hbne q (by rw [hbs]; exact List.mem_cons_of_mem _ hq))
        simp only [afterBlocks, List.append_nil, List.nil_append]
        rw [if_neg (by simp)]
        rw [show (⟨[], [], none, []⟩ : PState) = ({ sections := [], order := [], cur := none, content := [] } : PState) from rfl]
        rw [hfin.1, hfin.2]
        simp only [parseEntries, if_pos rfl, List.nil_append, List.map_cons, applyOrder,
          orderInsert, applyEntries, blockEntry]
  · have hfin := finish_afterBlocks (lineBlocks (splitLines cvText)).2
        ⟨[], [], none, (lineBlocks (splitLines cvText)).1⟩ hhb hbne
    simp only [List.nil_append]
    rw [hfin.1, hfin.2]
    simp only [parseEntries, if_neg hhb, List.singleton_append, applyOrder, orderInsert]

theorem setSec_absent (m : List (Option SecName × List Char)) (k : Option SecName)
    (v : List Char) (h : ∀ q ∈ m, q.1 ≠ k) : setSec m k v = m ++ [(k, v)] := by
  unfold setSec
  rw [if_neg]
  simp only [List.any_eq_true, not_exists]
  intro q
  by_cases hq : q ∈ m
  · simp [h q hq]
  · simp [hq]

theorem applyEntries_fresh (es m : List (Option SecName × List Char))
    (hd : (es.map (fun e => e.1)).Nodup) (hm : ∀ e ∈ es, ∀ q ∈ m, q.1 ≠ e.1) :
    applyEntries m es = m ++ es := by
  induction es generalizing m with
  | nil => simp [applyEntries]
  | cons e rest ih =>
      simp only [applyEntries]
      rw [setSec_absent m e.1 e.2 (fun q hq => hm e (by simp) q hq)]
      have hfresh : ∀ f ∈ rest, ∀ q ∈ m ++ [(e.1, e.2)], q.1 ≠ f.1 := by
        intro f hf q hq
        rcases List.mem_append.1 hq with h2 | h2
        · exact hm f (List.mem_cons_of_mem _ hf) q h2
        · simp only [List.mem_singleton] at h2
          subst h2
          simp only [List.map_cons, List.nodup_cons] at hd
          intro hee
          exact hd.1 (by rw [hee]; exact List.mem_map.2 ⟨f, hf, rfl⟩)
      rw [ih (m ++ [(e.1, e.2)]) (by simp only [List.map_cons, List.nodup_cons] at hd; exact hd.2)
        hfresh]
      simp

theorem blockEntry_key (bs : List (SecName × List (List Char))) :
    (bs.map blockEntry).map (fun e => e.1) = (bs.map (fun p => p.1)).map some := by
  simp [blockEntry, Function.comp]

theorem parseEntries_keys_nodup (hb : List (List Char)) (bs : List (SecName × List (List Char)))
    (h : (bs.map (fun p => p.1)).Nodup) :
    ((parseEntries hb bs).map (fun e => e.1)).Nodup := by
  unfold parseEntries
  have hsome : ((bs.map blockEntry).map (fun e => e.1)).Nodup := by
    rw [blockEntry_key]
    exact h.map (Option.some_injective _)
  by_cases hhb : hb = []
  · simpa [hhb] using hsome
  · rw [if_neg hhb]
    simp only [List.map_append, List.singleton_append, List.map_cons, List.map_nil,
      List.nodup_cons]
    refine ⟨?_, hsome⟩
    rw [blockEntry_key]
    simp

theorem find?_blockEntry_none (bs : List (SecName × List (List Char))) :
    (bs.map blockEntry).find? (fun p => p.1 = none) = none := by
  induction bs with
  | nil => rfl
  | cons q rest ih =>
      rw [List.map_cons, List.find?_cons_of_neg _ (by simp [blockEntry])]
      exact ih

theorem getSec_parseEntries_none (hb : List (List Char)) (bs : List (SecName × List (List Char))) :
    getSec (parseEntries hb bs) none =
      if hb = [] then none else some (trimL (joinLines hb)) := by
  unfold parseEntries getSec
  by_cases hhb : hb = []
  · rw [if_pos hhb, if_pos hhb]
    simp only [List.nil_append]
    rw [find?_blockEntry_none]
    rfl
  · rw [if_neg hhb, if_neg hhb]
    simp only [List.singleton_append]
    rw [List.find?_cons_of_pos _ (by simp)]
    rfl

theorem find?_blockEntry_some (bs : List (SecName × List (List Char))) (s : SecName)
    (b : List (List Char)) (hd : (bs.map (fun p => p.1)).Nodup) (hm : (s, b) ∈ bs) :
    (bs.map blockEntry).find? (fun p => p.1 = some s) =
      some (some s, trimL (joinLines b)) := by
  induction bs with
  | nil => simp at hm
  | cons q rest ih =>
      obtain ⟨s0, b0⟩ := q
      simp only [List.map_cons, List.nodup_cons] at hd
      by_cases hs : s0 = s
      · subst hs
        have hb0 : b = b0 := by
          rcases List.mem_cons.1 hm with h2 | h2
          · simp only [Prod.mk.injEq, true_and] at h2
            exact h2
          · exact absurd (List.mem_map.2 ⟨(s0, b), h2, rfl⟩) hd.1
        subst hb0
        rw [List.map_cons, List.find?_cons_of_pos _ (by simp [blockEntry])]
        rfl
      · rw [List.map_cons, List.find?_cons_of_neg _ (by simp only [blockEntry]; simp [hs])]
        refine ih hd.2 ?_
        rcases List.mem_cons.1 hm with h2 | h2
        · exact absurd (congrArg Prod.fst h2).symm hs
        · exact h2

theorem find?_blockEntry_absent (bs : List (SecName × List (List Char))) (s : SecName)
    (hm : s ∉ bs.map (fun p => p.1)) :
    (bs.map blockEntry).find? (fun p => p.1 = some s) = none := by
  induction bs with
  | nil => rfl
  | cons q rest ih =>
      simp only [List.map_cons, List.mem_cons, not_or] at hm
      rw [List.map_cons, List.find?_cons_of_neg _
        (by simp only [blockEntry]; simp only [decide_eq_true_eq, Option.some_inj]; exact fun h => hm.1 h.symm)]
      exact ih hm.2

theorem getSec_parseEntries_some (hb : List (List Char)) (bs : List (SecName × List (List Char)))
    (s : SecName) (b : List (List Char)) (hd : (bs.map (fun p => p.1)).Nodup)
    (hm : (s, b) ∈ bs) :
    getSec (parseEntries hb bs) (some s) = some (trimL (joinLines b)) := by
  unfold parseEntries getSec
  by_cases hhb : hb = []
  · rw [if_pos hhb]
    simp only [List.nil_append]
    rw [find?_blockEntry_some bs s b hd hm]
    rfl
  · rw [if_neg hhb]
    simp only [List.singleton_append]
    rw [List.find?_cons_of_neg _ (by simp)]
    rw [find?_blockEntry_some bs s b hd hm]
    rfl

theorem getSec_parseEntries_absent (hb : List (List Char))
    (bs : List (SecName × List (List Char))) (s : SecName)
    (hm : s ∉ bs.map (fun p => p.1)) :
    getSec (parseEntries hb bs) (some s) = none := by
  unfold parseEntries getSec
  by_cases hhb : hb = []
  · rw [if_pos hhb]
    simp only [List.nil_append]
    rw [find?_blockEntry_absent bs s hm]
    rfl
  · rw [if_neg hhb]
    simp only [List.singleton_append]
    rw [List.find?_cons_of_neg _ (by simp)]
    rw [find?_blockEntry_absent bs s hm]
    rfl

theorem applyOrder_some_nodup (names : List SecName) (o : List SecName)
    (hd : names.Nodup) (ho : ∀ s ∈ names, s ∉ o) :
    applyOrder o (names.map some) = o ++ names := by
  induction names generalizing o with
  | nil => simp [applyOrder]
  | cons s rest ih =>
      simp only [List.map_cons, applyOrder, orderInsert]
      rw [if_neg (by simpa using ho s (by simp))]
      rw [ih (o ++ [s]) hd.of_cons]
      · simp
      · intro x hx
        simp only [List.mem_append, List.mem_singleton, not_or]
        refine ⟨ho x (List.mem_cons_of_mem _ hx), ?_⟩
        simp only [List.nodup_cons] at hd
        intro he
        exact hd.1 (he ▸ hx)

theorem orderInsert_nodup (o : List SecName) (k : Option SecName) (h : o.Nodup) :
    (orderInsert o k).Nodup := by
  cases k with
  | none => exact h
  | some s =>
      simp only [orderInsert]
      split
      · exact h
      · rename_i hc
        simp at hc
        simp [List.nodup_append, h, hc]

theorem applyOrder_nodup (ks : List (Option SecName)) (o : List SecName) (h : o.Nodup) :
    (applyOrder o ks).Nodup := by
  induction ks generalizing o with
  | nil => exact h
  | cons k rest ih => exact ih _ (orderInsert_nodup o k h)

end TailorUniversal

namespace TailorUniversal

open ATS

theorem parseCV_sections_closed (cvText : List Char) (h : cvText ≠ [])
    (hd : ((lineBlocks (splitLines cvText)).2.map (fun p => p.1)).Nodup) :
    (parseCV cvText).sections =
      parseEntries (lineBlocks (splitLines cvText)).1 (lineBlocks (splitLines cvText)).2 := by
  rw [parseCV_closed cvText h]
  exact applyEntries_fresh _ [] (parseEntries_keys_nodup _ _ hd) (by simp)

theorem parseCV_order_closed (cvText : List Char) (h : cvText ≠ [])
    (hd : ((lineBlocks (splitLines cvText)).2.map (fun p => p.1)).Nodup) :
    (parseCV cvText).sectionOrder = (lineBlocks (splitLines cvText)).2.map (fun p => p.1) := by
  rw [parseCV_closed cvText h]
  show applyOrder [] _ = _
  rw [show ((lineBlocks (splitLines cvText)).2.map (fun p => some p.1)) =
      ((lineBlocks (splitLines cvText)).2.map (fun p => p.1)).map some by simp]
  rw [applyOrder_some_nodup _ [] hd (by simp)]
  simp

theorem parseCV_header_closed (cvText : List Char) (h : cvText ≠ [])
    (hd : ((lineBlocks (splitLines cvText)).2.map (fun p => p.1)).Nodup) :
    (parseCV cvText).header = trimL (joinLines (lineBlocks (splitLines cvText)).1) := by
  rw [parseCV_closed cvText h]
  show (getSec (applyEntries [] _) none).getD [] = _
  rw [applyEntries_fresh _ [] (parseEntries_keys_nodup _ _ hd) (by simp), List.nil_append]
  rw [getSec_parseEntries_none]
  by_cases hhb : (lineBlocks (splitLines cvText)).1 = []
  · rw [if_pos hhb, hhb]
    rfl
  · rw [if_neg hhb]
    rfl

end TailorUniversal

open ATS TailorUniversal in
/-- C5: the parser partitions the input lines into a header block and one
block per pattern-matching line: concatenating those untrimmed blocks
reconstructs the full line list exactly; no header line matches a pattern,
and each block starts with its matching line followed by non-matching lines;
sectionOrder never contains a name twice.  When no section name is reopened,
the saved data is exactly the blocks: sectionOrder lists the block names in
order, the header is the joined, trimmed header block, and each named
section's saved content is its joined, trimmed block — so content is
preserved only up to String.trim at the block edges, and a reopened name
(excluded here) overwrites the earlier block's content. -/
theorem C5_parser_partition (cvText : List Char) (hcv : cvText ≠ []) :
    ((lineBlocks (splitLines cvText)).1 ++
        ((lineBlocks (splitLines cvText)).2.map (fun p => p.2)).flatten = splitLines cvText) ∧
    (∀ l ∈ (lineBlocks (splitLines cvText)).1, lineMatch l = none) ∧
    (∀ p ∈ (lineBlocks (splitLines cvText)).2, ∃ l t, p.2 = l :: t ∧
        lineMatch l = some p.1 ∧ ∀ x ∈ t, lineMatch x = none) ∧
    (parseCV cvText).sectionOrder.Nodup ∧
    (((lineBlocks (splitLines cvText)).2.map (fun p => p.1)).Nodup →
      (parseCV cvText).sectionOrder = (lineBlocks (splitLines cvText)).2.map (fun p => p.1) ∧
      (parseCV cvText).header = trimL (joinLines (lineBlocks (splitLines cvText)).1) ∧
      ∀ p ∈ (lineBlocks (splitLines cvText)).2,
        getSec (parseCV cvText).sections (some p.1) = some (trimL (joinLines p.2))) := by
  refine ⟨lineBlocks_join _, lineBlocks_header_nomatch _, lineBlocks_shape _, ?_, ?_⟩
  · rw [parseCV_closed cvText hcv]
    exact applyOrder_nodup _ [] (by simp)
  · intro hd
    refine ⟨parseCV_order_closed cvText hcv hd, parseCV_header_closed cvText hcv hd, ?_⟩
    intro p hp
    rw [parseCV_sections_closed cvText hcv hd]
    exact getSec_parseEntries_some _ _ p.1 p.2 hd (by simpa using hp)

open ATS TailorUniversal in
/-- C5 counterexample: reopening a section drops content.  In
"Skills(nl)a(nl)Skills(nl)b" the second Skills block overwrites the first,
so the input line "a" appears in no saved section and the parse does not
preserve the input's characters. -/
theorem C5_counterexample :
    (str "a") ∈ splitLines (str "Skills\na\nSkills\nb") ∧
    parseCV (str "Skills\na\nSkills\nb") =
      ⟨[], [(some .skills, str "Skills\nb")], [.skills]⟩ ∧
    (parseCV (str "Skills\na\nSkills\nb")).sections.all
      (fun p => !containsL p.2 (str "a")) = true := by
  refine ⟨by decide, by decide, by decide⟩

open ATS TailorUniversal in
/-- C5 witness: a CV with a header and two distinct sections. -/
theorem C5_witness :
    (parseCV (str "John\nSkills\npython\nExperience\nfoo")).sectionOrder =
      [SecName.skills, SecName.experience] ∧
    getSec (parseCV (str "John\nSkills\npython\nExperience\nfoo")).sections
      (some SecName.skills) = some (str "Skills\npython") ∧
    (parseCV (str "John\nSkills\npython\nExperience\nfoo")).header = str "John" := by
  have h := C5_parser_partition (str "John\nSkills\npython\nExperience\nfoo") (by decide)
  have h6 := h.2.2.2.2 (by decide)
  refine ⟨h6.1.trans (by decide), ?_, h6.2.1.trans (by decide)⟩
  have h7 := h6.2.2 (SecName.skills, [str "Skills", str "python"]) (by decide)
  exact h7.trans (by decide)

namespace TailorUniversal

open ATS

theorem lineMatch_nil : lineMatch [] = none := by decide

theorem lineMatch_ne_nil (l : List Char) (s : SecName) (h : lineMatch l = some s) : l ≠ [] := by
  intro he
  rw [he, lineMatch_nil] at h
  cases h

theorem dropWhile_head_false {α : Type} (p : α → Bool) (l : List α) (a : α) (t : List α)
    (h : l.dropWhile p = a :: t) : p a = false := by
  induction l with
  | nil => cases h
  | cons x xs ih =>
      rw [List.dropWhile_cons] at h
      split at h
      · exact ih h
      · cases h
        rename_i hx
        simpa using hx

theorem dropWhile_idem {α : Type} (p : α → Bool) (l : List α) :
    (l.dropWhile p).dropWhile p = l.dropWhile p := by
  cases h : l.dropWhile p with
  | nil => rfl
  | cons a t =>
      rw [List.dropWhile_cons, dropWhile_head_false p l a t h]
      simp

theorem dTB_cons (l : List Char) (t : List (List Char))
    (hl : l ≠ [] ∨ dropTrailingBlanks t ≠ []) :
    dropTrailingBlanks (l :: t) = l :: dropTrailingBlanks t := by
  unfold dropTrailingBlanks at hl ⊢
  rw [show (l :: t).reverse = t.reverse ++ [l] by simp]
  rw [List.dropWhile_append]
  split
  · rename_i hemp
    simp only [List.isEmpty_iff] at hemp
    rcases hl with hl | hl
    · rw [List.dropWhile_cons, if_neg (by simpa using hl)]
      simp [hemp]
    · rw [hemp] at hl
      simp at hl
  · simp

theorem dTB_idem (ls : List (List Char)) :
    dropTrailingBlanks (dropTrailingBlanks ls) = dropTrailingBlanks ls := by
  unfold dropTrailingBlanks
  rw [List.reverse_reverse, dropWhile_idem]

theorem dTB_nil_iff (ls : List (List Char)) :
    dropTrailingBlanks ls = [] ↔ ∀ l ∈ ls, l = [] := by
  unfold dropTrailingBlanks
  rw [List.reverse_eq_nil_iff, List.dropWhile_eq_nil_iff]
  constructor
  · intro h l hl
    simpa using h l (by simpa using hl)
  · intro h l hl
    simpa using h l (by simpa using hl)

theorem dTB_mem (ls : List (List Char)) (x : List Char) (h : x ∈ dropTrailingBlanks ls) :
    x ∈ ls := by
  unfold dropTrailingBlanks at h
  simp only [List.mem_reverse] at h
  exact List.mem_reverse.1 ((List.dropWhile_sublist _).mem h)

theorem trimBlanks_mem (ls : List (List Char)) (x : List Char) (h : x ∈ trimBlanks ls) :
    x ∈ ls := (List.dropWhile_sublist _).mem (dTB_mem _ x h)

theorem trimBlanks_cons (l : List Char) (t : List (List Char)) (hl : l ≠ []) :
    trimBlanks (l :: t) = l :: dropTrailingBlanks t := by
  unfold trimBlanks
  rw [List.dropWhile_cons, if_neg (by simpa using hl), dTB_cons l t (Or.inl hl)]

theorem joinLines_cons_ne (l : List Char) (ls : List (List Char)) (h : ls ≠ []) :
    joinLines (l :: ls) = l ++ '\n' :: joinLines ls := by
  cases ls with
  | nil => exact absurd rfl h
  | cons a t => rfl

theorem joinLines_append_singleton (ls : List (List Char)) (y : List Char) (h : ls ≠ []) :
    joinLines (ls ++ [y]) = joinLines ls ++ '\n' :: y := by
  induction ls with
  | nil => exact absurd rfl h
  | cons a t ih =>
      cases t with
      | nil => rfl
      | cons b r =>
          rw [List.cons_append, joinLines_cons_ne a (b :: r ++ [y]) (by simp),
            joinLines_cons_ne a (b :: r) (by simp), ih (by simp)]
          simp

theorem joinLines_all_blank (ls : List (List Char)) (h : ∀ l ∈ ls, l = []) :
    ∀ c ∈ joinLines ls, jsWsChar c = true := by
  induction ls with
  | nil => simp [joinLines]
  | cons a t ih =>
      cases t with
      | nil =>
          rw [show joinLines [a] = a from rfl, h a (by simp)]
          simp
      | cons b r =>
          rw [joinLines_cons_ne a (b :: r) (by simp), h a (by simp)]
          intro c hc
          simp only [List.nil_append, List.mem_cons] at hc
          rcases hc with hc | hc
          · rw [hc]; rfl
          · exact ih (fun l hl => h l (List.mem_cons_of_mem _ hl)) c hc

theorem trimEnd_append_ws (x y : List Char) (h : ∀ c ∈ y, jsWsChar c = true) :
    trimEnd (x ++ y) = trimEnd x := by
  unfold trimEnd
  rw [List.reverse_append, List.dropWhile_append]
  rw [if_pos]
  simp only [List.isEmpty_iff, List.dropWhile_eq_nil_iff]
  intro c hc
  exact h c (List.mem_reverse.1 hc)

theorem trimEnd_append_of_ne (x y : List Char) (h : trimEnd y ≠ []) :
    trimEnd (x ++ y) = x ++ trimEnd y := by
  unfold trimEnd at h ⊢
  rw [List.reverse_append, List.dropWhile_append]
  rw [if_neg]
  · simp
  · simp only [List.isEmpty_iff]
    intro he
    rw [he] at h
    simp at h

theorem trimEnd_clean (l : List Char) (h : lineClean l = true) : trimEnd l = l := by
  unfold lineClean at h
  cases hl : l with
  | nil => rfl
  | cons a t =>
      rw [hl] at h
      simp only [List.isEmpty_cons, Bool.false_or, Bool.and_eq_true, Bool.not_eq_true'] at h
      unfold trimEnd
      cases hr : (a :: t).reverse with
      | nil => simp at hr
      | cons b r =>
          rw [List.dropWhile_cons, if_neg]
          · rw [← hr, List.reverse_reverse]
          · have hb : b = (a :: t).getLastD ' ' := by
              have := List.head?_reverse (a :: t)
              rw [hr] at this
              simp only [List.head?_cons] at this
              rw [List.getLastD_eq_getLast?]
              rw [← this]
              rfl
            rw [hb]
            simpa [List.getLastD_eq_getLast?] using h.2

theorem trimStart_clean (l : List Char) (h : lineClean l = true) (hne : l ≠ []) :
    ∀ x : List Char, trimStart (l ++ x) = l ++ x := by
  intro x
  cases hl : l with
  | nil => exact absurd hl hne
  | cons a t =>
      rw [hl] at h
      unfold lineClean at h
      simp only [List.isEmpty_cons, Bool.false_or, Bool.and_eq_true, Bool.not_eq_true',
        List.headD_cons] at h
      unfold trimStart
      rw [List.cons_append, List.dropWhile_cons, if_neg (by simp [h.1])]

theorem trimStart_join_clean (ls : List (List Char)) (h : ∀ l ∈ ls, lineClean l = true) :
    trimStart (joinLines ls) = joinLines (ls.dropWhile (fun l => l = [])) := by
  induction ls with
  | nil => rfl
  | cons a t ih =>
      by_cases ha : a = []
      · subst ha
        cases t with
        | nil => rfl
        | cons b r =>
            rw [joinLines_cons_ne [] (b :: r) (by simp), List.dropWhile_cons, if_pos (by simp)]
            rw [← ih (fun l hl => h l (List.mem_cons_of_mem _ hl))]
            rfl
      · rw [List.dropWhile_cons, if_neg (by simpa using ha)]
        cases t with
        | nil =>
            show trimStart a = a
            have := trimStart_clean a (h a (by simp)) ha []
            simpa using this
        | cons b r =>
            rw [joinLines_cons_ne a (b :: r) (by simp)]
            rw [trimStart_clean a (h a (by simp)) ha ('\n' :: joinLines (b :: r))]

theorem joinLines_ne_nil_of_mid (l : List Char) (ls : List (List Char)) (h : ls ≠ []) :
    joinLines (l :: ls) ≠ [] := by
  rw [joinLines_cons_ne l ls h]
  simp

theorem join_dTB_ne (ls : List (List Char)) (h : dropTrailingBlanks ls ≠ []) :
    joinLines (dropTrailingBlanks ls) ≠ [] := by
  unfold dropTrailingBlanks at h ⊢
  cases hd : ls.reverse.dropWhile (fun l => l = []) with
  | nil => rw [hd] at h; simp at h
  | cons b r =>
      have hb : b ≠ [] := by simpa using dropWhile_head_false _ _ _ _ hd
      rw [List.reverse_cons]
      cases hr : r.reverse with
      | nil => simpa [joinLines] using hb
      | cons x xs =>
          rw [joinLines_append_singleton _ b (by simp [hr])]
          simp

theorem trimEnd_join_clean (ls : List (List Char)) (h : ∀ l ∈ ls, lineClean l = true) :
    trimEnd (joinLines ls) = joinLines (dropTrailingBlanks ls) := by
  induction ls with
  | nil => rfl
  | cons a t ih =>
      have ih2 := ih (fun l hl => h l (List.mem_cons_of_mem _ hl))
      by_cases hdt : dropTrailingBlanks t = []
      · have hblank : ∀ l ∈ t, l = [] := (dTB_nil_iff t).1 hdt
        have hws : ∀ c ∈ joinLines t, jsWsChar c = true := joinLines_all_blank t hblank
        cases t with
        | nil =>
            show trimEnd (joinLines [a]) = _
            rw [show joinLines [a] = a from rfl, trimEnd_clean a (h a (by simp))]
            unfold dropTrailingBlanks
            by_cases ha : a = []
            · simp [ha, joinLines]
            · rw [show [a].reverse = [a] from rfl, List.dropWhile_cons,
                if_neg (by simpa using ha)]
              simp [joinLines]
        | cons b r =>
            rw [joinLines_cons_ne a (b :: r) (by simp)]
            rw [show a ++ '\n' :: joinLines (b :: r) = a ++ ('\n' :: joinLines (b :: r)) from rfl]
            rw [trimEnd_append_ws a ('\n' :: joinLines (b :: r))
              (by intro c hc
                  rcases List.mem_cons.1 hc with hc | hc
                  · rw [hc]; rfl
                  · exact hws c hc)]
            rw [trimEnd_clean a (h a (by simp))]
            by_cases ha : a = []
            · rw [ha]
              have hall : dropTrailingBlanks (([] : List Char) :: b :: r) = [] :=
                (dTB_nil_iff _).2 (by
                  intro l hl
                  rcases List.mem_cons.1 hl with h2 | h2
                  · exact h2
                  · exact hblank l h2)
              rw [hall]
              rfl
            · rw [dTB_cons a (b :: r) (Or.inl ha), hdt]
              rfl
      · cases t with
        | nil => exact absurd rfl hdt
        | cons b r =>
            rw [joinLines_cons_ne a (b :: r) (by simp)]
            have hjoin_ne : trimEnd (joinLines (b :: r)) ≠ [] := by
              rw [ih2]
              exact join_dTB_ne _ hdt
            have : trimEnd ('\n' :: joinLines (b :: r)) = '\n' :: trimEnd (joinLines (b :: r)) := by
              rw [show ('\n' :: joinLines (b :: r)) = ['\n'] ++ joinLines (b :: r) from rfl]
              rw [trimEnd_append_of_ne _ _ hjoin_ne]
              rfl
            rw [trimEnd_append_of_ne a ('\n' :: joinLines (b :: r))
              (by rw [this]; simp)]
            rw [this, ih2, dTB_cons a (b :: r) (Or.inr hdt), joinLines_cons_ne _ _ hdt]

theorem trimL_join_clean (ls : List (List Char)) (h : ∀ l ∈ ls, lineClean l = true) :
    trimL (joinLines ls) = joinLines (trimBlanks ls) := by
  unfold trimL trimBlanks
  rw [trimStart_join_clean ls h]
  exact trimEnd_join_clean _ (fun l hl => h l ((List.dropWhile_sublist _).mem hl))

theorem trimL_append_ws (y z : List Char) (h : ∀ c ∈ z, jsWsChar c = true) :
    trimL (y ++ z) = trimL y := by
  unfold trimL trimStart
  rw [List.dropWhile_append]
  split
  · rename_i hemp
    simp only [List.isEmpty_iff] at hemp
    rw [hemp, List.dropWhile_eq_nil_iff.2 (fun c hc => by simpa using h c hc)]
  · exact trimEnd_append_ws _ z h

theorem trimL_join_pad (B : List (List Char)) (hne : B ≠ []) :
    trimL (joinLines (B ++ [[]])) = trimL (joinLines B) := by
  rw [joinLines_append_singleton B [] hne]
  exact trimL_append_ws _ ['\n'] (by intro c hc; simp at hc; rw [hc]; rfl)

theorem padded_map_fst (L : List (SecName × List (List Char))) :
    (padded L).map (fun p => p.1) = L.map (fun p => p.1) := by
  induction L with
  | nil => rfl
  | cons p rest ih =>
      cases rest with
      | nil => rfl
      | cons q r =>
          show (p.1, p.2 ++ [[]]).1 :: (padded (q :: r)).map (fun p => p.1) = _
          rw [ih]
          rfl

theorem padded_mem (L : List (SecName × List (List Char))) (pp : SecName × List (List Char))
    (h : pp ∈ L) : (pp.1, pp.2) ∈ padded L ∨ (pp.1, pp.2 ++ [[]]) ∈ padded L := by
  induction L with
  | nil => simp at h
  | cons p rest ih =>
      cases rest with
      | nil =>
          simp only [List.mem_singleton] at h
          left
          simp [padded, h]
      | cons q r =>
          rcases List.mem_cons.1 h with h2 | h2
          · right
            show _ ∈ (p.1, p.2 ++ [[]]) :: padded (q :: r)
            rw [h2]
            simp
          · rcases ih h2 with h3 | h3
            · left
              exact List.mem_cons_of_mem _ h3
            · right
              exact List.mem_cons_of_mem _ h3

theorem foldl_collect (F : SecName → List Char) (l : List SecName)
    (h : ∀ s ∈ l, F s ≠ []) (a : List (List Char)) :
    l.foldl (fun acc s => if F s ≠ [] then acc ++ [F s] else acc) a = a ++ l.map F := by
  induction l generalizing a with
  | nil => simp
  | cons s rest ih =>
      simp only [List.foldl_cons, List.map_cons]
      rw [if_pos (h s (by simp)), ih (fun x hx => h x (List.mem_cons_of_mem _ hx))]
      simp

theorem joinSep_cons_ne (sep p : List Char) (ps : List (List Char)) (h : ps ≠ []) :
    joinSep sep (p :: ps) = p ++ sep ++ joinSep sep ps := by
  cases ps with
  | nil => exact absurd rfl h
  | cons q r => rfl

theorem joinSep_ne_nil (sep : List Char) (p : List Char) (ps : List (List Char)) (h : p ≠ []) :
    joinSep sep (p :: ps) ≠ [] := by
  cases ps with
  | nil => exact h
  | cons q r => simp [joinSep, h]

theorem splitLines_joinSep_cons (p : List Char) (ps : List (List Char)) (h : ps ≠ []) :
    splitLines (joinSep (str "\n\n") (p :: ps)) =
      splitLines p ++ [] :: splitLines (joinSep (str "\n\n") ps) := by
  rw [joinSep_cons_ne _ _ _ h]
  show splitOnChar '\n' ((p ++ ['\n', '\n']) ++ joinSep (str "\n\n") ps) = _
  rw [show (p ++ ['\n', '\n']) ++ joinSep (str "\n\n") ps =
      p ++ '\n' :: ('\n' :: joinSep (str "\n\n") ps) by simp]
  rw [splitOnChar_append_sep]
  show splitLines p ++ splitOnChar '\n' ('\n' :: joinSep (str "\n\n") ps) = _
  simp only [splitOnChar, if_pos rfl]
  rfl

theorem lineBlocks_joinSep (L : List (SecName × List (List Char))) (hne : L ≠ [])
    (hgood : ∀ p ∈ L, ∃ l t, p.2 = l :: t ∧ lineMatch l = some p.1 ∧
      (∀ x ∈ t, lineMatch x = none) ∧ ∀ x ∈ p.2, ('\n' : Char) ∉ x) :
    lineBlocks (splitLines (joinSep (str "\n\n") (L.map (fun p => joinLines p.2)))) =
      ([], padded L) := by
  induction L with
  | nil => exact absurd rfl hne
  | cons p rest ih =>
      obtain ⟨l, t, hp2, hm, htn, hnl⟩ := hgood p (by simp)
      cases rest with
      | nil =>
          show lineBlocks (splitLines (joinLines p.2)) = ([], [p])
          rw [splitLines_joinLines p.2 (by rw [hp2]; simp) hnl]
          rw [hp2, lineBlocks_cons_match l t p.1 hm]
          have ht : lineBlocks t = (t, []) := by
            have := lineBlocks_append_nomatch t [] htn
            simpa [lineBlocks] using this
          rw [ht]
          show ([], [(p.1, l :: t)]) = ([], [p])
          rw [← hp2]
      | cons q r =>
          have hrest := ih (by simp) (fun x hx => hgood x (List.mem_cons_of_mem _ hx))
          have hlines : splitLines (joinSep (str "\n\n")
              ((p :: q :: r).map (fun p => joinLines p.2))) =
              l :: (t ++ [] :: splitLines (joinSep (str "\n\n")
                ((q :: r).map (fun p => joinLines p.2)))) := by
            rw [List.map_cons]
            rw [splitLines_joinSep_cons _ _ (by simp)]
            rw [splitLines_joinLines p.2 (by rw [hp2]; simp) hnl, hp2]
            simp
          rw [hlines]
          have h2 : lineBlocks (t ++ [] :: splitLines (joinSep (str "\n\n")
              ((q :: r).map (fun p => joinLines p.2)))) =
              (t ++ [[]], padded (q :: r)) := by
            rw [List.append_cons]
            rw [lineBlocks_append_nomatch (t ++ [[]]) _ (by
              intro x hx
              rcases List.mem_append.1 hx with hx | hx
              · exact htn x hx
              · simp only [List.mem_singleton] at hx
                rw [hx]
                exact lineMatch_nil)]
            rw [hrest]
            simp
          rw [lineBlocks_cons_match l _ p.1 hm, h2]
          show ([], (p.1, l :: (t ++ [[]])) :: padded (q :: r)) = ([], padded (p :: q :: r))
          rw [show padded (p :: q :: r) = (p.1, p.2 ++ [[]]) :: padded (q :: r) from rfl, hp2]
          rfl

theorem trimBlanks_idem (x : List (List Char)) : trimBlanks (trimBlanks x) = trimBlanks x := by
  unfold trimBlanks
  cases hy : x.dropWhile (fun l => l = []) with
  | nil => rfl
  | cons h t =>
      have hh : h ≠ [] := by simpa using dropWhile_head_false _ _ _ _ hy
      rw [dTB_cons h t (Or.inl hh)]
      rw [List.dropWhile_cons, if_neg (by simpa using hh)]
      rw [dTB_cons h (dropTrailingBlanks t) (Or.inl hh), dTB_idem]

theorem block_content (cvText : List Char)
    (hclean : ∀ l ∈ splitLines cvText, lineClean l = true)
    (p : SecName × List (List Char)) (hp : p ∈ (lineBlocks (splitLines cvText)).2) :
    ∃ l t, p.2 = l :: t ∧ lineMatch l = some p.1 ∧ (∀ x ∈ t, lineMatch x = none) ∧
      trimBlanks p.2 = l :: dropTrailingBlanks t ∧
      trimL (joinLines p.2) = joinLines (l :: dropTrailingBlanks t) ∧
      trimL (joinLines p.2) ≠ [] ∧ (∀ x ∈ p.2, ('\n' : Char) ∉ x) := by
  obtain ⟨l, t, hp2, hm, htn⟩ := lineBlocks_shape (splitLines cvText) p hp
  have hl : l ≠ [] := lineMatch_ne_nil l p.1 hm
  have hcl : ∀ x ∈ p.2, lineClean x = true :=
    fun x hx => hclean x (lineBlocks_mem_block _ p hp x hx)
  have hnl : ∀ x ∈ p.2, ('\n' : Char) ∉ x :=
    fun x hx => splitOnChar_not_mem '\n' cvText x (lineBlocks_mem_block _ p hp x hx)
  have htb : trimBlanks p.2 = l :: dropTrailingBlanks t := by
    rw [hp2]
    exact trimBlanks_cons l t hl
  have hjoin : trimL (joinLines p.2) = joinLines (l :: dropTrailingBlanks t) := by
    rw [trimL_join_clean p.2 hcl, htb]
  refine ⟨l, t, hp2, hm, htn, htb, hjoin, ?_, hnl⟩
  rw [hjoin]
  cases hdt : dropTrailingBlanks t with
  | nil => simpa [joinLines] using hl
  | cons y ys => exact joinLines_ne_nil_of_mid l _ (by simp)

theorem reconstruct_unmodified (cvText : List Char) (hcv : cvText ≠ [])
    (hclean : ∀ l ∈ splitLines cvText, lineClean l = true)
    (hd : ((lineBlocks (splitLines cvText)).2.map (fun p => p.1)).Nodup) :
    reconstructCV (parseCV cvText) (parseCV cvText).sections =
      joinSep (str "\n\n")
        ((if trimL (joinLines (lineBlocks (splitLines cvText)).1) ≠ [] then
            [trimL (joinLines (lineBlocks (splitLines cvText)).1)] else []) ++
         (lineBlocks (splitLines cvText)).2.map (fun q => trimL (joinLines q.2))) := by
  unfold reconstructCV
  dsimp only
  rw [if_neg (by rintro ⟨h1, h2⟩; exact h1 h2)]
  rw [parseCV_header_closed cvText hcv hd, parseCV_order_closed cvText hcv hd]
  congr 1
  rw [List.foldl_ext _ _ (g := fun acc s =>
      if ((getSec (parseCV cvText).sections (some s)).getD []) ≠ [] then
        acc ++ [(getSec (parseCV cvText).sections (some s)).getD []] else acc)
    (by intro acc b hb; dsimp only; rw [ite_self])]
  rw [foldl_collect (fun s => (getSec (parseCV cvText).sections (some s)).getD []) _ ?_ _]
  · congr 1
    rw [List.map_map]
    refine List.map_congr_left ?_
    intro q hq
    show (getSec (parseCV cvText).sections (some q.1)).getD [] = trimL (joinLines q.2)
    rw [parseCV_sections_closed cvText hcv hd,
      getSec_parseEntries_some _ _ q.1 q.2 hd (by exact hq)]
    rfl
  · intro s hs
    obtain ⟨q, hq, hq1⟩ := List.mem_map.1 hs
    obtain ⟨l, t, hp2, hm, htn, htb, hjoin, hne2, hnl⟩ := block_content cvText hclean q hq
    rw [parseCV_sections_closed cvText hcv hd]
    subst hq1
    dsimp only
    rw [getSec_parseEntries_some _ _ q.1 q.2 hd (by exact hq)]
    simpa using hne2

theorem trimL_trimBlanks (ls : List (List Char)) (h : ∀ l ∈ ls, lineClean l = true) :
    trimL (joinLines (trimBlanks ls)) = trimL (joinLines ls) := by
  rw [trimL_join_clean ls h,
    trimL_join_clean (trimBlanks ls) (fun l hl => h l (trimBlanks_mem _ l hl)), trimBlanks_idem]

theorem reparse_blocks (cvText : List Char) (hcv : cvText ≠ [])
    (hclean : ∀ l ∈ splitLines cvText, lineClean l = true)
    (hd : ((lineBlocks (splitLines cvText)).2.map (fun p => p.1)).Nodup)
    (hbs : (lineBlocks (splitLines cvText)).2 ≠ []) :
    reconstructCV (parseCV cvText) (parseCV cvText).sections ≠ [] ∧
    (lineBlocks (splitLines (reconstructCV (parseCV cvText) (parseCV cvText).sections))).2 =
      padded ((lineBlocks (splitLines cvText)).2.map (fun q => (q.1, trimBlanks q.2))) ∧
    (lineBlocks (splitLines (reconstructCV (parseCV cvText) (parseCV cvText).sections))).1 =
      (if trimL (joinLines (lineBlocks (splitLines cvText)).1) ≠ [] then
        trimBlanks (lineBlocks (splitLines cvText)).1 ++ [[]] else []) := by
  have hmapC : (lineBlocks (splitLines cvText)).2.map (fun q => trimL (joinLines q.2)) =
      ((lineBlocks (splitLines cvText)).2.map (fun q => (q.1, trimBlanks q.2))).map
        (fun p => joinLines p.2) := by
    rw [List.map_map]
    refine List.map_congr_left ?_
    intro q hq
    obtain ⟨l, t, hp2, hm, htn, htb, hjoin, hne2, hnl⟩ := block_content cvText hclean q hq
    show trimL (joinLines q.2) = joinLines (trimBlanks q.2)
    rw [hjoin, htb]
  have hgood : ∀ p ∈ (lineBlocks (splitLines cvText)).2.map (fun q => (q.1, trimBlanks q.2)),
      ∃ l t, p.2 = l :: t ∧ lineMatch l = some p.1 ∧
        (∀ x ∈ t, lineMatch x = none) ∧ ∀ x ∈ p.2, ('\n' : Char) ∉ x := by
    intro p hp
    obtain ⟨q, hq, hq2⟩ := List.mem_map.1 hp
    obtain ⟨l, t, hp2, hm, htn, htb, hjoin, hne2, hnl⟩ := block_content cvText hclean q hq
    subst hq2
    refine ⟨l, dropTrailingBlanks t, htb, hm, ?_, ?_⟩
    · intro x hx
      exact htn x (dTB_mem t x hx)
    · intro x hx
      exact hnl x (trimBlanks_mem _ x hx)
  have hLne : (lineBlocks (splitLines cvText)).2.map (fun q => (q.1, trimBlanks q.2)) ≠ [] := by
    simpa using hbs
  have hR3 := lineBlocks_joinSep _ hLne hgood
  have hCne : ∀ q ∈ (lineBlocks (splitLines cvText)).2, trimL (joinLines q.2) ≠ [] := by
    intro q hq
    obtain ⟨l, t, hp2, hm, htn, htb, hjoin, hne2, hnl⟩ := block_content cvText hclean q hq
    exact hne2
  rw [reconstruct_unmodified cvText hcv hclean hd]
  by_cases hH : trimL (joinLines (lineBlocks (splitLines cvText)).1) ≠ []
  · rw [if_pos hH]
    have hbclean : ∀ l ∈ (lineBlocks (splitLines cvText)).1, lineClean l = true :=
      fun l hl => hclean l (lineBlocks_mem_header _ l hl)
    have hHjoin : trimL (joinLines (lineBlocks (splitLines cvText)).1) =
        joinLines (trimBlanks (lineBlocks (splitLines cvText)).1) :=
      trimL_join_clean _ hbclean
    have htbne : trimBlanks (lineBlocks (splitLines cvText)).1 ≠ [] := by
      intro he
      rw [hHjoin, he] at hH
      exact hH rfl
    have hsplitH : splitLines (trimL (joinLines (lineBlocks (splitLines cvText)).1)) =
        trimBlanks (lineBlocks (splitLines cvText)).1 := by
      rw [hHjoin]
      refine splitLines_joinLines _ htbne ?_
      intro l hl
      exact splitOnChar_not_mem '\n' cvText l
        (lineBlocks_mem_header _ l (trimBlanks_mem _ l hl))
    have hfull : lineBlocks (splitLines (joinSep (str "\n\n")
        ([trimL (joinLines (lineBlocks (splitLines cvText)).1)] ++
          (lineBlocks (splitLines cvText)).2.map (fun q => trimL (joinLines q.2))))) =
        (trimBlanks (lineBlocks (splitLines cvText)).1 ++ [[]],
         padded ((lineBlocks (splitLines cvText)).2.map (fun q => (q.1, trimBlanks q.2)))) := by
      rw [List.singleton_append]
      rw [splitLines_joinSep_cons _ _ (by simpa using hbs)]
      rw [hsplitH, hmapC]
      rw [List.append_cons]
      rw [lineBlocks_append_nomatch _ _ (by
        intro x hx
        rcases List.mem_append.1 hx with hx | hx
        · exact lineBlocks_header_nomatch _ x (trimBlanks_mem _ x hx)
        · simp only [List.mem_singleton] at hx
          rw [hx]
          exact lineMatch_nil)]
      rw [hR3]
      simp
    refine ⟨?_, ?_, ?_⟩
    · rw [List.singleton_append]
      exact joinSep_ne_nil _ _ _ hH
    · rw [hfull]
    · rw [hfull, if_pos hH]
  · rw [if_neg hH]
    rw [if_neg hH]
    push_neg at hH
    rw [List.nil_append]
    have hfull : lineBlocks (splitLines (joinSep (str "\n\n")
        ((lineBlocks (splitLines cvText)).2.map (fun q => trimL (joinLines q.2))))) =
        ([], padded ((lineBlocks (splitLines cvText)).2.map (fun q => (q.1, trimBlanks q.2)))) := by
      rw [hmapC]
      exact hR3
    refine ⟨?_, ?_, ?_⟩
    · cases hbs2 : (lineBlocks (splitLines cvText)).2 with
      | nil => exact absurd hbs2 hbs
      | cons q0 r =>
          rw [List.map_cons]
          exact joinSep_ne_nil _ _ _ (hCne q0 (by rw [hbs2]; simp))
    · rw [hfull]
    · rw [hfull]

end TailorUniversal

namespace TailorUniversal

open ATS

theorem joinLines_splitLines (x : List Char) : joinLines (splitLines x) = x := by
  induction x with
  | nil => rfl
  | cons a as ih =>
      show joinLines (splitOnChar '\n' (a :: as)) = a :: as
      simp only [splitOnChar]
      by_cases ha : a = '\n'
      · rw [if_pos ha]
        cases h : splitOnChar '\n' as with
        | nil => exact absurd h (splitOnChar_ne_nil _ _)
        | cons p ps =>
            rw [joinLines_cons_ne _ _ (by simp)]
            rw [← h]
            show '\n' :: joinLines (splitLines as) = a :: as
            rw [ih, ha]
      · rw [if_neg ha]
        cases h : splitOnChar '\n' as with
        | nil => exact absurd h (splitOnChar_ne_nil _ _)
        | cons p ps =>
            cases ps with
            | nil =>
                show a :: p = a :: as
                have := ih
                rw [show splitLines as = splitOnChar '\n' as from rfl, h] at this
                simpa [joinLines] using this
            | cons q qs =>
                rw [joinLines_cons_ne _ _ (by simp)]
                have := ih
                rw [show splitLines as = splitOnChar '\n' as from rfl, h,
                  joinLines_cons_ne _ _ (by simp)] at this
                simp only [List.cons_append]
                rw [this]

theorem find?_append_cases {α : Type} (p : α → Bool) (l1 l2 : List α) :
    (l1 ++ l2).find? p = match l1.find? p with
      | some x => some x
      | none => l2.find? p := by
  induction l1 with
  | nil => rfl
  | cons a t ih =>
      by_cases ha : p a = true
      · rw [List.cons_append, List.find?_cons_of_pos _ ha, List.find?_cons_of_pos _ ha]
      · rw [List.cons_append, List.find?_cons_of_neg _ (by simpa using ha),
          List.find?_cons_of_neg _ (by simpa using ha), ih]

theorem find?_setSec_map (m : List (Option SecName × List Char)) (k0 : Option SecName)
    (v : List Char) (k : Option SecName) :
    (m.map (fun p => if p.1 = k0 then (k0, v) else p)).find? (fun p => p.1 = k) =
      if k = k0 then (m.find? (fun p => p.1 = k0)).map (fun _ => (k0, v))
      else m.find? (fun p => p.1 = k) := by
  induction m with
  | nil => by_cases hk : k = k0 <;> simp [hk]
  | cons e t ih =>
      by_cases he : e.1 = k0
      · rw [List.map_cons, if_pos he]
        by_cases hk : k = k0
        · rw [if_pos hk]
          rw [List.find?_cons_of_pos _ (by simp [hk]), List.find?_cons_of_pos _ (by simp [he])]
          rfl
        · rw [if_neg hk]
          rw [List.find?_cons_of_neg _ (by simp only [decide_eq_true_eq]; exact fun h => hk h.symm),
            List.find?_cons_of_neg _ (by simp only [decide_eq_true_eq, he]; exact fun h => hk h.symm)]
          rw [ih, if_neg hk]
      · rw [List.map_cons, if_neg he]
        by_cases hk : k = k0
        · rw [if_pos hk]
          rw [List.find?_cons_of_neg _ (by simp [hk, he]),
            List.find?_cons_of_neg _ (by simp [he])]
          rw [ih, if_pos hk]
        · rw [if_neg hk]
          by_cases hek : e.1 = k
          · rw [List.find?_cons_of_pos _ (by simp [hek]), List.find?_cons_of_pos _ (by simp [hek])]
          · rw [List.find?_cons_of_neg _ (by simp [hek]), List.find?_cons_of_neg _ (by simp [hek])]
            rw [ih, if_neg hk]

theorem getSec_setSec (m : List (Option SecName × List Char)) (k0 : Option SecName)
    (v : List Char) (k : Option SecName) :
    getSec (setSec m k0 v) k = if k = k0 then some v else getSec m k := by
  unfold setSec
  by_cases hany : m.any (fun p => p.1 = k0) = true
  · rw [if_pos hany]
    show ((m.map (fun p => if p.1 = k0 then (k0, v) else p)).find?
        (fun p => p.1 = k)).map (fun p => p.2) = _
    rw [find?_setSec_map]
    by_cases hk : k = k0
    · rw [if_pos hk, if_pos hk]
      simp only [List.any_eq_true, decide_eq_true_eq] at hany
      obtain ⟨x, hx, hpx⟩ := hany
      cases hf : m.find? (fun p => p.1 = k0) with
      | none =>
          rw [List.find?_eq_none] at hf
          exact absurd (by simpa using hpx) (hf x hx)
      | some e => rfl
    · rw [if_neg hk, if_neg hk]
      rfl
  · rw [if_neg hany]
    show ((m ++ [(k0, v)]).find? (fun p => p.1 = k)).map (fun p => p.2) = _
    rw [find?_append_cases]
    cases hf : m.find? (fun p => p.1 = k) with
    | some e =>
        have hk : ¬ k = k0 := by
          intro hkk
          apply hany
          rw [List.any_eq_true]
          refine ⟨e, List.mem_of_find?_eq_some hf, ?_⟩
          have hp := List.find?_some hf
          show decide (e.1 = k0) = true
          rw [← hkk]
          exact hp
        rw [if_neg hk]
        show some e.2 = getSec m k
        unfold getSec
        rw [hf]
        rfl
    | none =>
        by_cases hk : k = k0
        · rw [if_pos hk]
          show Option.map (fun p => p.2)
            (([(k0, v)] : List (Option SecName × List Char)).find? (fun p => p.1 = k)) = some v
          rw [List.find?_cons_of_pos _ (by rw [hk]; exact decide_eq_true rfl)]
          rfl
        · rw [if_neg hk]
          show Option.map (fun p => p.2)
            (([(k0, v)] : List (Option SecName × List Char)).find? (fun p => p.1 = k)) = getSec m k
          rw [List.find?_cons_of_neg _ (by simp only [decide_eq_true_eq]; exact fun h => hk h.symm)]
          show (none : Option (List Char)) = getSec m k
          unfold getSec
          rw [hf]
          rfl

theorem applyEntries_getSec (es : List (Option SecName × List Char))
    (m : List (Option SecName × List Char)) (k : Option SecName) :
    getSec (applyEntries m es) k =
      match es.reverse.find? (fun e => e.1 = k) with
      | some e => some e.2
      | none => getSec m k := by
  induction es generalizing m with
  | nil => rfl
  | cons e rest ih =>
      show getSec (applyEntries (setSec m e.1 e.2) rest) k = _
      rw [ih]
      rw [List.reverse_cons, find?_append_cases]
      cases hf : rest.reverse.find? (fun e => e.1 = k) with
      | some f => rfl
      | none =>
          show getSec (setSec m e.1 e.2) k = _
          rw [getSec_setSec]
          by_cases hk : k = e.1
          · rw [if_pos hk, List.find?_cons_of_pos _ (by simp [hk])]
          · rw [if_neg hk, List.find?_cons_of_neg _
              (by simp only [decide_eq_true_eq]; exact fun h => hk h.symm)]
            rfl

end TailorUniversal

namespace TailorUniversal

open ATS

theorem find?_blockEntry_rev_none (bs : List (SecName × List (List Char))) :
    ((bs.map blockEntry).reverse.find? (fun p => p.1 = none)) = none := by
  rw [← List.map_reverse]
  exact find?_blockEntry_none bs.reverse

theorem find?_map_blockEntry (bs : List (SecName × List (List Char))) (s : SecName) :
    (bs.map blockEntry).find? (fun e => e.1 = some s) =
      (bs.find? (fun q => q.1 = s)).map blockEntry := by
  have hfun : ((fun e : Option SecName × List Char => decide (e.1 = some s)) ∘ blockEntry) =
      (fun q : SecName × List (List Char) => decide (q.1 = s)) := by
    funext q
    simp [blockEntry, Function.comp]
  rw [List.find?_map, hfun]

theorem parseCV_getSec_last (cvText : List Char) (h : cvText ≠ []) (s : SecName) :
    getSec (parseCV cvText).sections (some s) =
      ((lineBlocks (splitLines cvText)).2.reverse.find? (fun q => q.1 = s)).map
        (fun q => trimL (joinLines q.2)) := by
  rw [parseCV_closed cvText h]
  show getSec (applyEntries [] (parseEntries (lineBlocks (splitLines cvText)).1
      (lineBlocks (splitLines cvText)).2)) (some s) = _
  rw [applyEntries_getSec]
  unfold parseEntries
  rw [List.reverse_append, find?_append_cases]
  rw [← List.map_reverse, find?_map_blockEntry]
  cases hf : (lineBlocks (splitLines cvText)).2.reverse.find? (fun q => q.1 = s) with
  | some q => rfl
  | none =>
      by_cases hhb : (lineBlocks (splitLines cvText)).1 = []
      · rw [if_pos hhb]
        rfl
      · rw [if_neg hhb]
        show getSec [] (some s) = none
        rfl

theorem parseCV_header_all (cvText : List Char) (h : cvText ≠ []) :
    (parseCV cvText).header = trimL (joinLines (lineBlocks (splitLines cvText)).1) := by
  rw [parseCV_closed cvText h]
  show (getSec (applyEntries [] (parseEntries (lineBlocks (splitLines cvText)).1
      (lineBlocks (splitLines cvText)).2)) none).getD [] = _
  rw [applyEntries_getSec]
  unfold parseEntries
  rw [List.reverse_append, find?_append_cases, find?_blockEntry_rev_none]
  by_cases hhb : (lineBlocks (splitLines cvText)).1 = []
  · rw [if_pos hhb, hhb]
    rfl
  · rw [if_neg hhb]
    rfl

theorem mem_orderInsert (o : List SecName) (k : Option SecName) (s : SecName) :
    s ∈ orderInsert o k ↔ s ∈ o ∨ k = some s := by
  cases k with
  | none => simp [orderInsert]
  | some x =>
      simp only [orderInsert]
      by_cases hc : o.contains x
      · rw [if_pos hc]
        constructor
        · exact fun h2 => Or.inl h2
        · rintro (h2 | h2)
          · exact h2
          · simp only [Option.some_inj] at h2
            subst h2
            simpa using hc
      · rw [if_neg hc]
        simp [eq_comm]

theorem applyOrder_mem (ks : List (Option SecName)) (o : List SecName) (s : SecName) :
    s ∈ applyOrder o ks ↔ s ∈ o ∨ some s ∈ ks := by
  induction ks generalizing o with
  | nil => simp [applyOrder]
  | cons k rest ih =>
      show s ∈ applyOrder (orderInsert o k) rest ↔ _
      rw [ih, mem_orderInsert]
      simp only [List.mem_cons]
      constructor
      · rintro ((h2 | h2) | h2)
        · exact Or.inl h2
        · exact Or.inr (Or.inl h2.symm)
        · exact Or.inr (Or.inr h2)
      · rintro (h2 | h2 | h2)
        · exact Or.inl (Or.inl h2)
        · exact Or.inl (Or.inr h2.symm)
        · exact Or.inr h2

theorem parseCV_order_mem (cvText : List Char) (h : cvText ≠ []) (s : SecName) :
    s ∈ (parseCV cvText).sectionOrder ↔
      s ∈ (lineBlocks (splitLines cvText)).2.map (fun p => p.1) := by
  rw [parseCV_closed cvText h]
  show s ∈ applyOrder [] ((lineBlocks (splitLines cvText)).2.map (fun p => some p.1)) ↔ _
  rw [applyOrder_mem]
  simp only [List.mem_nil_iff, false_or, List.mem_map]
  constructor
  · rintro ⟨q, hq, hq1⟩
    exact ⟨q, hq, Option.some_inj.mp hq1⟩
  · rintro ⟨q, hq, hq1⟩
    exact ⟨q, hq, by rw [hq1]⟩

theorem parseCV_order_nodup (cvText : List Char) (h : cvText ≠ []) :
    (parseCV cvText).sectionOrder.Nodup := by
  rw [parseCV_closed cvText h]
  exact applyOrder_nodup _ [] (by simp)

end TailorUniversal

namespace TailorUniversal

open ATS

theorem section_value (cvText : List Char) (hcv : cvText ≠ [])
    (hclean : ∀ l ∈ splitLines cvText, lineClean l = true)
    (s : SecName) (hs : s ∈ (parseCV cvText).sectionOrder) :
    ∃ l t, splitLines ((getSec (parseCV cvText).sections (some s)).getD []) = l :: t ∧
      lineMatch l = some s ∧ (∀ x ∈ t, lineMatch x = none) ∧
      (∀ x ∈ splitLines ((getSec (parseCV cvText).sections (some s)).getD []),
        ('\n' : Char) ∉ x) ∧
      (getSec (parseCV cvText).sections (some s)).getD [] ≠ [] ∧
      trimL ((getSec (parseCV cvText).sections (some s)).getD []) =
        (getSec (parseCV cvText).sections (some s)).getD [] ∧
      getSec (parseCV cvText).sections (some s) =
        some ((getSec (parseCV cvText).sections (some s)).getD []) := by
  rw [parseCV_order_mem cvText hcv s] at hs
  obtain ⟨q0, hq0, hq01⟩ := List.mem_map.1 hs
  cases hf : (lineBlocks (splitLines cvText)).2.reverse.find? (fun q => q.1 = s) with
  | none =>
      rw [List.find?_eq_none] at hf
      exact absurd (by simpa using hq01)
        (by simpa using hf q0 (List.mem_reverse.2 hq0))
  | some q =>
      have hq : q ∈ (lineBlocks (splitLines cvText)).2 :=
        List.mem_reverse.1 (List.mem_of_find?_eq_some hf)
      have hq1 : q.1 = s := by simpa using List.find?_some hf
      have hgs : getSec (parseCV cvText).sections (some s) = some (trimL (joinLines q.2)) := by
        rw [parseCV_getSec_last cvText hcv s, hf]
        rfl
      obtain ⟨l, t, hp2, hm, htn, htb, hjoin, hne2, hnl⟩ := block_content cvText hclean q hq
      have hv : (getSec (parseCV cvText).sections (some s)).getD [] =
          trimL (joinLines q.2) := by
        rw [hgs]
        rfl
      have hvj : (getSec (parseCV cvText).sections (some s)).getD [] =
          joinLines (l :: dropTrailingBlanks t) := by rw [hv, hjoin]
      have htbq : l :: dropTrailingBlanks t = trimBlanks q.2 := htb.symm
      have hnl2 : ∀ x ∈ l :: dropTrailingBlanks t, ('\n' : Char) ∉ x := by
        intro x hx
        rw [htbq] at hx
        exact hnl x (trimBlanks_mem _ x hx)
      have hsv : splitLines ((getSec (parseCV cvText).sections (some s)).getD []) =
          l :: dropTrailingBlanks t := by
        rw [hvj]
        exact splitLines_joinLines _ (by simp) hnl2
      have hqclean : ∀ x ∈ q.2, lineClean x = true :=
        fun x hx => hclean x (lineBlocks_mem_block _ q hq x hx)
      refine ⟨l, dropTrailingBlanks t, hsv, by rw [hm, hq1], ?_, ?_, ?_, ?_, ?_⟩
      · intro x hx
        exact htn x (dTB_mem t x hx)
      · intro x hx
        rw [hsv] at hx
        exact hnl2 x hx
      · rw [hv]
        exact hne2
      · conv_lhs => rw [hvj, htbq]
        rw [trimL_trimBlanks q.2 hqclean, ← hv]
      · rw [hgs]
        rfl

theorem reconstruct_generic (P : Parsed)
    (hne : ∀ s ∈ P.sectionOrder, (getSec P.sections (some s)).getD [] ≠ []) :
    reconstructCV P P.sections =
      joinSep (str "\n\n")
        ((if P.header ≠ [] then [P.header] else []) ++
         P.sectionOrder.map (fun s => (getSec P.sections (some s)).getD [])) := by
  unfold reconstructCV
  dsimp only
  rw [if_neg (by rintro ⟨h1, h2⟩; exact h1 h2)]
  congr 1
  rw [List.foldl_ext _ _ (g := fun acc s =>
      if ((getSec P.sections (some s)).getD []) ≠ [] then
        acc ++ [(getSec P.sections (some s)).getD []] else acc)
    (by intro acc b hb; dsimp only; rw [ite_self])]
  exact foldl_collect _ _ hne _

theorem reparse_blocks2 (cvText : List Char) (hcv : cvText ≠ [])
    (hclean : ∀ l ∈ splitLines cvText, lineClean l = true)
    (hbs : (lineBlocks (splitLines cvText)).2 ≠ []) :
    reconstructCV (parseCV cvText) (parseCV cvText).sections ≠ [] ∧
    (lineBlocks (splitLines (reconstructCV (parseCV cvText) (parseCV cvText).sections))).2 =
      padded ((parseCV cvText).sectionOrder.map (fun s =>
        (s, splitLines ((getSec (parseCV cvText).sections (some s)).getD [])))) ∧
    (lineBlocks (splitLines (reconstructCV (parseCV cvText) (parseCV cvText).sections))).1 =
      (if (parseCV cvText).header ≠ [] then
        trimBlanks (lineBlocks (splitLines cvText)).1 ++ [[]] else []) := by
  have hvne : ∀ s ∈ (parseCV cvText).sectionOrder,
      (getSec (parseCV cvText).sections (some s)).getD [] ≠ [] := by
    intro s hs
    obtain ⟨l, t, hsv, hm, htn, hnl, hne0, htr, hsome⟩ := section_value cvText hcv hclean s hs
    exact hne0
  have horder_ne : (parseCV cvText).sectionOrder ≠ [] := by
    cases hbs2 : (lineBlocks (splitLines cvText)).2 with
    | nil => exact absurd hbs2 hbs
    | cons q0 r =>
        have hmem : q0.1 ∈ (parseCV cvText).sectionOrder := by
          rw [parseCV_order_mem cvText hcv]
          rw [hbs2]
          exact List.mem_map_of_mem (fun p : SecName × List (List Char) => p.1)
            (List.mem_cons_self q0 r)
        intro he
        rw [he] at hmem
        simp at hmem
  have hgood : ∀ p ∈ (parseCV cvText).sectionOrder.map (fun s =>
      (s, splitLines ((getSec (parseCV cvText).sections (some s)).getD []))),
      ∃ l t, p.2 = l :: t ∧ lineMatch l = some p.1 ∧
        (∀ x ∈ t, lineMatch x = none) ∧ ∀ x ∈ p.2, ('\n' : Char) ∉ x := by
    intro p hp
    obtain ⟨s, hs, hps⟩ := List.mem_map.1 hp
    obtain ⟨l, t, hsv, hm, htn, hnl, hne0, htr, hsome⟩ := section_value cvText hcv hclean s hs
    subst hps
    exact ⟨l, t, hsv, hm, htn, hnl⟩
  have hLne : (parseCV cvText).sectionOrder.map (fun s =>
      (s, splitLines ((getSec (parseCV cvText).sections (some s)).getD []))) ≠ [] := by
    simpa using horder_ne
  have hR3 := lineBlocks_joinSep _ hLne hgood
  have hmapJ : ((parseCV cvText).sectionOrder.map (fun s =>
      (s, splitLines ((getSec (parseCV cvText).sections (some s)).getD [])))).map
        (fun p => joinLines p.2) =
      (parseCV cvText).sectionOrder.map (fun s =>
        (getSec (parseCV cvText).sections (some s)).getD []) := by
    rw [List.map_map]
    refine List.map_congr_left ?_
    intro s hs
    exact joinLines_splitLines _
  rw [reconstruct_generic (parseCV cvText) hvne]
  by_cases hH : (parseCV cvText).header ≠ []
  · rw [if_pos hH, if_pos hH]
    have hbclean : ∀ l ∈ (lineBlocks (splitLines cvText)).1, lineClean l = true :=
      fun l hl => hclean l (lineBlocks_mem_header _ l hl)
    have hH2 : trimL (joinLines (lineBlocks (splitLines cvText)).1) ≠ [] := by
      rw [← parseCV_header_all cvText hcv]
      exact hH
    have htbne : trimBlanks (lineBlocks (splitLines cvText)).1 ≠ [] := by
      intro he
      rw [trimL_join_clean _ hbclean, he] at hH2
      exact hH2 rfl
    have hsplitH : splitLines ((parseCV cvText).header) =
        trimBlanks (lineBlocks (splitLines cvText)).1 := by
      rw [parseCV_header_all cvText hcv, trimL_join_clean _ hbclean]
      refine splitLines_joinLines _ htbne ?_
      intro l hl
      exact splitOnChar_not_mem '\n' cvText l
        (lineBlocks_mem_header _ l (trimBlanks_mem _ l hl))
    have hfull : lineBlocks (splitLines (joinSep (str "\n\n")
        ([(parseCV cvText).header] ++ (parseCV cvText).sectionOrder.map (fun s =>
          (getSec (parseCV cvText).sections (some s)).getD [])))) =
        (trimBlanks (lineBlocks (splitLines cvText)).1 ++ [[]],
         padded ((parseCV cvText).sectionOrder.map (fun s =>
           (s, splitLines ((getSec (parseCV cvText).sections (some s)).getD []))))) := by
      rw [List.singleton_append]
      rw [splitLines_joinSep_cons _ _ (by simpa using horder_ne)]
      rw [hsplitH, ← hmapJ]
      rw [List.append_cons]
      rw [lineBlocks_append_nomatch _ _ (by
        intro x hx
        rcases List.mem_append.1 hx with hx | hx
        · exact lineBlocks_header_nomatch _ x (trimBlanks_mem _ x hx)
        · simp only [List.mem_singleton] at hx
          rw [hx]
          exact lineMatch_nil)]
      rw [hR3]
      simp
    refine ⟨?_, ?_, ?_⟩
    · rw [List.singleton_append]
      exact joinSep_ne_nil _ _ _ hH
    · rw [hfull]
    · rw [hfull]
  · rw [if_neg hH, if_neg hH]
    rw [List.nil_append]
    have hfull : lineBlocks (splitLines (joinSep (str "\n\n")
        ((parseCV cvText).sectionOrder.map (fun s =>
          (getSec (parseCV cvText).sections (some s)).getD [])))) =
        ([], padded ((parseCV cvText).sectionOrder.map (fun s =>
          (s, splitLines ((getSec (parseCV cvText).sections (some s)).getD []))))) := by
      rw [← hmapJ]
      exact hR3
    refine ⟨?_, ?_, ?_⟩
    · cases horder : (parseCV cvText).sectionOrder with
      | nil => exact absurd horder horder_ne
      | cons s0 r =>
          rw [List.map_cons]
          exact joinSep_ne_nil _ _ _ (hvne s0 (by rw [horder]; simp))
    · rw [hfull]
    · rw [hfull]

end TailorUniversal

open ATS TailorUniversal in
/-- C4 (amended): for a CV text all of whose lines are free of leading and
trailing whitespace, reconstructing the parsed document with no section
modified and parsing the result again yields the same sectionOrder, the same
header and the same per-section contents.  (The original claim over all
texts is refuted by C4_counterexample: trimming can expose a pattern line,
changing the partition.) -/
theorem C4_parse_reconstruct_idempotent (cvText : List Char)
    (hclean : ∀ l ∈ splitLines cvText, lineClean l = true) :
    (parseCV (reconstructCV (parseCV cvText) (parseCV cvText).sections)).sectionOrder =
      (parseCV cvText).sectionOrder ∧
    (parseCV (reconstructCV (parseCV cvText) (parseCV cvText).sections)).header =
      (parseCV cvText).header ∧
    ∀ s : SecName,
      getSec (parseCV (reconstructCV (parseCV cvText) (parseCV cvText).sections)).sections
        (some s) = getSec (parseCV cvText).sections (some s) := by
  by_cases hcv : cvText = []
  · subst hcv
    exact ⟨rfl, rfl, fun s => rfl⟩
  by_cases hbs : (lineBlocks (splitLines cvText)).2 = []
  · have horder0 : (parseCV cvText).sectionOrder = [] := by
      rw [List.eq_nil_iff_forall_not_mem]
      intro s hsmem
      rw [parseCV_order_mem cvText hcv s, hbs] at hsmem
      simp at hsmem
    have hsecnone : ∀ s : SecName, getSec (parseCV cvText).sections (some s) = none := by
      intro s
      rw [parseCV_getSec_last cvText hcv s, hbs]
      rfl
    have ht2eq0 : reconstructCV (parseCV cvText) (parseCV cvText).sections =
        joinSep (str "\n\n") ((if (parseCV cvText).header ≠ [] then
          [(parseCV cvText).header] else []) ++ []) := by
      rw [reconstruct_generic (parseCV cvText) (by rw [horder0]; intro s hs; simp at hs)]
      rw [horder0]
      rfl
    by_cases hH : (parseCV cvText).header ≠ []
    · have hHall := parseCV_header_all cvText hcv
      have hbclean : ∀ l ∈ (lineBlocks (splitLines cvText)).1, lineClean l = true :=
        fun l hl => hclean l (lineBlocks_mem_header _ l hl)
      have hH2 : trimL (joinLines (lineBlocks (splitLines cvText)).1) ≠ [] := by
        rw [← hHall]
        exact hH
      have htbne : trimBlanks (lineBlocks (splitLines cvText)).1 ≠ [] := by
        intro he
        rw [trimL_join_clean _ hbclean, he] at hH2
        exact hH2 rfl
      have ht2eq : reconstructCV (parseCV cvText) (parseCV cvText).sections =
          (parseCV cvText).header := by
        rw [ht2eq0, if_pos hH]
        rfl
      have hsplitH : splitLines ((parseCV cvText).header) =
          trimBlanks (lineBlocks (splitLines cvText)).1 := by
        rw [hHall, trimL_join_clean _ hbclean]
        refine splitLines_joinLines _ htbne ?_
        intro l hl
        exact splitOnChar_not_mem '\n' cvText l
          (lineBlocks_mem_header _ l (trimBlanks_mem _ l hl))
      have hLB : lineBlocks (splitLines (reconstructCV (parseCV cvText)
          (parseCV cvText).sections)) =
          (trimBlanks (lineBlocks (splitLines cvText)).1, []) := by
        rw [ht2eq, hsplitH]
        have := lineBlocks_append_nomatch (trimBlanks (lineBlocks (splitLines cvText)).1) []
          (fun x hx => lineBlocks_header_nomatch _ x (trimBlanks_mem _ x hx))
        simpa [lineBlocks] using this
      have ht2ne : reconstructCV (parseCV cvText) (parseCV cvText).sections ≠ [] := by
        rw [ht2eq]
        exact hH
      have hd2 : ((lineBlocks (splitLines (reconstructCV (parseCV cvText)
          (parseCV cvText).sections))).2.map (fun p => p.1)).Nodup := by
        rw [hLB]
        exact List.nodup_nil
      refine ⟨?_, ?_, ?_⟩
      · rw [parseCV_order_closed _ ht2ne hd2, hLB, horder0]
        rfl
      · rw [parseCV_header_closed _ ht2ne hd2, hLB]
        show trimL (joinLines (trimBlanks (lineBlocks (splitLines cvText)).1)) = _
        rw [trimL_trimBlanks _ hbclean, ← hHall]
      · intro s
        rw [parseCV_sections_closed _ ht2ne hd2, hLB]
        rw [getSec_parseEntries_absent _ _ s (by simp), hsecnone s]
    · have ht2eq : reconstructCV (parseCV cvText) (parseCV cvText).sections = [] := by
        rw [ht2eq0, if_neg hH]
        rfl
      push_neg at hH
      refine ⟨?_, ?_, ?_⟩
      · rw [ht2eq, horder0]
        rfl
      · rw [ht2eq, hH]
        rfl
      · intro s
        rw [ht2eq, hsecnone s]
        rfl
  · obtain ⟨ht2, hLB2, hLB1⟩ := reparse_blocks2 cvText hcv hclean hbs
    have hfst : (padded ((parseCV cvText).sectionOrder.map (fun s =>
        (s, splitLines ((getSec (parseCV cvText).sections (some s)).getD []))))).map
          (fun p => p.1) = (parseCV cvText).sectionOrder := by
      rw [padded_map_fst, List.map_map]
      show (parseCV cvText).sectionOrder.map (fun s => s) = _
      exact List.map_id _
    have hd2 : ((lineBlocks (splitLines (reconstructCV (parseCV cvText)
        (parseCV cvText).sections))).2.map (fun p => p.1)).Nodup := by
      rw [hLB2, hfst]
      exact parseCV_order_nodup cvText hcv
    refine ⟨?_, ?_, ?_⟩
    · rw [parseCV_order_closed _ ht2 hd2, hLB2, hfst]
    · rw [parseCV_header_closed _ ht2 hd2, hLB1]
      by_cases hH : (parseCV cvText).header ≠ []
      · rw [if_pos hH]
        have hbclean : ∀ l ∈ (lineBlocks (splitLines cvText)).1, lineClean l = true :=
          fun l hl => hclean l (lineBlocks_mem_header _ l hl)
        have hH2 : trimL (joinLines (lineBlocks (splitLines cvText)).1) ≠ [] := by
          rw [← parseCV_header_all cvText hcv]
          exact hH
        have htbne : trimBlanks (lineBlocks (splitLines cvText)).1 ≠ [] := by
          intro he
          rw [trimL_join_clean _ hbclean, he] at hH2
          exact hH2 rfl
        rw [trimL_join_pad _ htbne, trimL_trimBlanks _ hbclean,
          ← parseCV_header_all cvText hcv]
      · rw [if_neg hH]
        push_neg at hH
        rw [hH]
        rfl
    · intro s
      rw [parseCV_sections_closed _ ht2 hd2, hLB2]
      by_cases hs : s ∈ (parseCV cvText).sectionOrder
      · obtain ⟨l, t, hsv, hm, htn, hnl, hne0, htr, hsome⟩ :=
          section_value cvText hcv hclean s hs
        have hdP : ((padded ((parseCV cvText).sectionOrder.map (fun s =>
            (s, splitLines ((getSec (parseCV cvText).sections (some s)).getD []))))).map
              (fun p => p.1)).Nodup := by
          rw [hfst]
          exact parseCV_order_nodup cvText hcv
        have hmemL : (s, splitLines ((getSec (parseCV cvText).sections (some s)).getD [])) ∈
            (parseCV cvText).sectionOrder.map (fun s =>
              (s, splitLines ((getSec (parseCV cvText).sections (some s)).getD []))) :=
          List.mem_map_of_mem _ hs
        rcases padded_mem _ _ hmemL with hmem | hmem
        · rw [getSec_parseEntries_some _ _ s _ hdP hmem]
          rw [joinLines_splitLines, htr]
          exact hsome.symm
        · rw [getSec_parseEntries_some _ _ s _ hdP hmem]
          rw [trimL_join_pad _ (by rw [hsv]; simp)]
          rw [joinLines_splitLines, htr]
          exact hsome.symm
      · have hsbs : s ∉ (lineBlocks (splitLines cvText)).2.map (fun p => p.1) := by
          rw [← parseCV_order_mem cvText hcv]
          exact hs
        have hfnone : (lineBlocks (splitLines cvText)).2.reverse.find?
            (fun q => q.1 = s) = none := by
          rw [List.find?_eq_none]
          intro q hq
          simp only [decide_eq_true_eq]
          intro hq1
          exact hsbs (hq1 ▸ List.mem_map_of_mem (fun p => p.1) (List.mem_reverse.1 hq))
        rw [getSec_parseEntries_absent _ _ s (by rw [hfst]; exact hs),
          parseCV_getSec_last cvText hcv s, hfnone]
        rfl

open ATS TailorUniversal in
/-- C4 counterexample: a header line with leading whitespace is trimmed by
the first parse, and the trimmed line "skills are fun" matches the skills
pattern on re-parse, so parse after reconstruct yields a different
sectionOrder than the first parse. -/
theorem C4_counterexample :
    (parseCV (str "   skills are fun\nExperience\nx")).sectionOrder = [SecName.experience] ∧
    (parseCV (reconstructCV (parseCV (str "   skills are fun\nExperience\nx"))
        (parseCV (str "   skills are fun\nExperience\nx")).sections)).sectionOrder =
      [SecName.skills, SecName.experience] := by
  refine ⟨by decide, by decide⟩

open ATS TailorUniversal in
/-- C4 witness: a clean-lined CV with a header and two sections
round-trips. -/
theorem C4_witness :
    (parseCV (reconstructCV (parseCV (str "John Doe\nSummary\nExperienced dev.\nSkills\npython"))
        (parseCV (str "John Doe\nSummary\nExperienced dev.\nSkills\npython")).sections)).sectionOrder =
      (parseCV (str "John Doe\nSummary\nExperienced dev.\nSkills\npython")).sectionOrder ∧
    (parseCV (reconstructCV (parseCV (str "John Doe\nSummary\nExperienced dev.\nSkills\npython"))
        (parseCV (str "John Doe\nSummary\nExperienced dev.\nSkills\npython")).sections)).header =
      (parseCV (str "John Doe\nSummary\nExperienced dev.\nSkills\npython")).header ∧
    ∀ s : SecName,
      getSec (parseCV (reconstructCV
          (parseCV (str "John Doe\nSummary\nExperienced dev.\nSkills\npython"))
          (parseCV (str "John Doe\nSummary\nExperienced dev.\nSkills\npython")).sections)).sections
        (some s) =
      getSec (parseCV (str "John Doe\nSummary\nExperienced dev.\nSkills\npython")).sections
        (some s) :=
  C4_parse_reconstruct_idempotent (str "John Doe\nSummary\nExperienced dev.\nSkills\npython")
    (by decide)

/-! ### Claim C9: phrase deduplication suppresses constituent words -/

namespace ATS

theorem mem_insertSorted {α : Type} (le : α → α → Bool) (x : α) (l : List α) (z : α) :
    z ∈ insertSorted le x l ↔ z = x ∨ z ∈ l := by
  induction l with
  | nil => simp [insertSorted]
  | cons y ys ih =>
      simp only [insertSorted]
      split
      · simp only [List.mem_cons]
      · simp only [List.mem_cons, ih]
        tauto

theorem mem_stableSortBy {α : Type} (le : α → α → Bool) (l : List α) (z : α) :
    z ∈ stableSortBy le l ↔ z ∈ l := by
  induction l with
  | nil => simp [stableSortBy]
  | cons x xs ih =>
      simp only [stableSortBy, mem_insertSorted, ih, List.mem_cons]

theorem insertSorted_pairwise {α : Type} (le : α → α → Bool) (G : α → Prop)
    (htot : ∀ a b, G a → G b → le a b = true ∨ le b a = true)
    (htrans : ∀ a b c, G a → G b → G c → le a b = true → le b c = true → le a c = true)
    (x : α) (l : List α) (hx : G x) (hl : ∀ y ∈ l, G y)
    (hp : l.Pairwise (fun a b => le a b = true)) :
    (insertSorted le x l).Pairwise (fun a b => le a b = true) := by
  induction l with
  | nil => simp [insertSorted]
  | cons y ys ih =>
      simp only [insertSorted]
      rw [List.pairwise_cons] at hp
      split
      · rename_i hxy
        refine List.Pairwise.cons ?_ (List.Pairwise.cons hp.1 hp.2)
        intro z hz
        rcases List.mem_cons.1 hz with hz | hz
        · rw [hz]; exact hxy
        · exact htrans x y z hx (hl y (by simp)) (hl z (by simp [hz])) hxy (hp.1 z hz)
      · rename_i hxy
        refine List.Pairwise.cons ?_ (ih (fun q hq => hl q (by simp [hq])) hp.2)
        intro z hz
        rcases (mem_insertSorted le x ys z).1 hz with hz | hz
        · rw [hz]
          rcases htot x y hx (hl y (by simp)) with h | h
          · exact absurd h hxy
          · exact h
        · exact hp.1 z hz

theorem stableSortBy_pairwise {α : Type} (le : α → α → Bool) (G : α → Prop)
    (htot : ∀ a b, G a → G b → le a b = true ∨ le b a = true)
    (htrans : ∀ a b c, G a → G b → G c → le a b = true → le b c = true → le a c = true)
    (l : List α) (hl : ∀ y ∈ l, G y) :
    (stableSortBy le l).Pairwise (fun a b => le a b = true) := by
  induction l with
  | nil => simp [stableSortBy]
  | cons x xs ih =>
      simp only [stableSortBy]
      refine insertSorted_pairwise le G htot htrans x _ (hl x (by simp)) ?_
        (ih (fun q hq => hl q (by simp [hq])))
      intro y hy
      exact hl y (by simp [(mem_stableSortBy le xs y).1 hy])

theorem pairwise_mem_rel {α : Type} (S : α → α → Prop) (l : List α) (h : l.Pairwise S)
    (a b : α) (ha : a ∈ l) (hb : b ∈ l) : S a b ∨ S b a ∨ a = b := by
  induction l with
  | nil => simp at ha
  | cons x xs ih =>
      rw [List.pairwise_cons] at h
      rcases List.mem_cons.1 ha with ha2 | ha2 <;> rcases List.mem_cons.1 hb with hb2 | hb2
      · right; right; rw [ha2, hb2]
      · left
        rw [ha2]
        exact h.1 b hb2
      · right; left
        rw [hb2]
        exact h.1 a ha2
      · exact ih h.2 ha2 hb2

theorem fracLe_total (a b : Frac) : fracLe a b = true ∨ fracLe b a = true := by
  unfold fracLe
  rcases le_total (a.num * b.den) (b.num * a.den) with h | h
  · left; simpa using h
  · right; simpa using h

theorem fracLe_trans (a b c : Frac) (hb : 0 < b.den) (ha : 0 < a.den) (hc : 0 < c.den)
    (h1 : fracLe a b = true) (h2 : fracLe b c = true) : fracLe a c = true := by
  unfold fracLe at h1 h2 ⊢
  simp only [decide_eq_true_eq] at h1 h2 ⊢
  nlinarith [mul_le_mul_of_nonneg_right h1 (le_of_lt hc),
    mul_le_mul_of_nonneg_right h2 (le_of_lt ha)]

end ATS

namespace KeywordExtractor

open ATS

theorem calculateIDF_den_pos (t : List Char) : 0 < (calculateIDF t).den := by
  unfold calculateIDF
  dsimp only
  repeat' split
  all_goals simp [fracMul]

theorem nubAux_subset (l seen : List (List Char)) (x : List Char)
    (h : x ∈ nubAux l seen) : x ∈ l := by
  induction l generalizing seen with
  | nil => simpa [nubAux] using h
  | cons a t ih =>
      simp only [nubAux] at h
      split at h
      · exact List.mem_cons_of_mem _ (ih _ h)
      · rcases List.mem_cons.1 h with h2 | h2
        · simp [h2]
        · exact List.mem_cons_of_mem _ (ih _ h2)

theorem wsSplitAux_no_ws (l acc : List Char) (hacc : ∀ c ∈ acc, jsWsChar c = false) :
    ∀ P ∈ wsSplitAux l acc, ∀ c ∈ P, jsWsChar c = false := by
  induction l generalizing acc with
  | nil =>
      intro P hP
      simp only [wsSplitAux] at hP
      split at hP
      · simp at hP
      · simp only [List.mem_singleton] at hP
        subst hP
        intro c hc
        exact hacc c (List.mem_reverse.1 hc)
  | cons a t ih =>
      intro P hP
      simp only [wsSplitAux] at hP
      by_cases hws : jsWsChar a
      · rw [if_pos hws] at hP
        split at hP
        · exact ih [] (by simp) P hP
        · rcases List.mem_cons.1 hP with h2 | h2
          · subst h2
            intro c hc
            exact hacc c (List.mem_reverse.1 hc)
          · exact ih [] (by simp) P h2
      · rw [if_neg hws] at hP
        refine ih (a :: acc) ?_ P hP
        intro c hc
        rcases List.mem_cons.1 hc with h2 | h2
        · rw [h2]; simpa using hws
        · exact hacc c h2

theorem tokens_no_ws (text : List Char) :
    ∀ P ∈ tokenize text, ∀ c ∈ P, jsWsChar c = false := by
  intro P hP
  exact wsSplitAux_no_ws text [] (by simp) P (List.mem_of_mem_filter hP)

theorem dedup_sublist (R : List ScoredItem) (seen : List (List Char)) :
    (dedupScores R seen).Sublist R := by
  induction R generalizing seen with
  | nil => simp [dedupScores]
  | cons item rest ih =>
      simp only [dedupScores]
      split
      · exact (ih seen).cons item
      · exact (ih _).cons₂ item

theorem dedup_not_seen (R : List ScoredItem) (seen : List (List Char)) (x : ScoredItem)
    (hx : x ∈ dedupScores R seen) : seen.contains (normalizeTerm x.term) = false := by
  induction R generalizing seen with
  | nil => simp [dedupScores] at hx
  | cons item rest ih =>
      simp only [dedupScores] at hx
      split at hx
      · exact ih seen hx
      · rcases List.mem_cons.1 hx with h2 | h2
        · subst h2
          rename_i hns
          simpa using hns
        · have h3 := ih _ h2
          rename_i hns
          simp only [List.contains_eq_any_beq] at h3 ⊢
          simp only [List.any_eq_false] at h3 ⊢
          intro s hs
          refine h3 s ?_
          by_cases hph : item.isPhrase = true
          · rw [if_pos hph]
            exact List.mem_append_left _ (List.mem_cons_of_mem _ hs)
          · rw [if_neg hph]
            exact List.mem_cons_of_mem _ hs

theorem dedup_pairwise_suppress (R : List ScoredItem) (seen : List (List Char)) :
    (dedupScores R seen).Pairwise (fun a b =>
      a.isPhrase = true → normalizeTerm b.term ∉ splitWords a.term) := by
  induction R generalizing seen with
  | nil => simp [dedupScores]
  | cons item rest ih =>
      simp only [dedupScores]
      split
      · exact ih seen
      · refine List.Pairwise.cons ?_ (ih _)
        intro b hb hph hmem
        have h3 := dedup_not_seen rest _ b hb
        rw [if_pos hph] at h3
        simp only [List.contains_eq_any_beq, List.any_eq_false] at h3
        have h4 := h3 (normalizeTerm b.term)
          (List.mem_cons_of_mem _ (List.mem_append_right _ hmem))
        simp at h4

end KeywordExtractor

namespace ATS

theorem isPre_self_append (x y : List Char) : isPre x (x ++ y) = true := by
  induction x with
  | nil => rfl
  | cons c cs ih => simp [isPre, ih]

theorem isPre_refl (x : List Char) : isPre x x = true := by
  have := isPre_self_append x []
  simpa using this

theorem isPre_of_append_left (x y z : List Char) (h : isPre (x ++ y) z = true) :
    isPre x z = true := by
  induction x generalizing z with
  | nil => rfl
  | cons c cs ih =>
      cases z with
      | nil => simp [isPre] at h
      | cons d ds =>
          simp only [List.cons_append, isPre, Bool.and_eq_true] at h ⊢
          exact ⟨h.1, ih ds h.2⟩

theorem isPre_exists (p l : List Char) (h : isPre p l = true) : ∃ r, l = p ++ r := by
  induction p generalizing l with
  | nil => exact ⟨l, rfl⟩
  | cons c cs ih =>
      cases l with
      | nil => simp [isPre] at h
      | cons d ds =>
          simp only [isPre, Bool.and_eq_true, decide_eq_true_eq] at h
          obtain ⟨r, hr⟩ := ih ds h.2
          exact ⟨r, by rw [← h.1, hr]; rfl⟩

theorem containsL_exists (l sub : List Char) (h : containsL l sub = true) :
    ∃ A B, l = A ++ (sub ++ B) := by
  unfold containsL at h
  simp only [List.any_eq_true, List.mem_range] at h
  obtain ⟨i, hi, hpre⟩ := h
  obtain ⟨r, hr⟩ := isPre_exists _ _ hpre
  exact ⟨l.take i, r, by rw [← hr]; simp⟩

theorem endsWith_append_self (pre d : List Char) : endsWithL d (pre ++ d) = true := by
  unfold endsWithL
  rw [List.reverse_append]
  exact isPre_self_append _ _

theorem containsL_cons (c : Char) (cs pat : List Char) (h : containsL (c :: cs) pat = true)
    (hpre : isPre pat (c :: cs) = false) : containsL cs pat = true := by
  unfold containsL at h ⊢
  simp only [List.any_eq_true, List.mem_range] at h ⊢
  obtain ⟨i, hi, hp⟩ := h
  cases i with
  | zero => rw [List.drop_zero] at hp; rw [hp] at hpre; cases hpre
  | succ j =>
      refine ⟨j, by simpa [Nat.succ_lt_succ_iff] using hi, ?_⟩
      simpa using hp

theorem countOccF_pos (pat : List Char) (hp : pat ≠ []) :
    ∀ (text : List Char) (fuel : Nat), text.length ≤ fuel →
      containsL text pat = true → 1 ≤ countOccF pat fuel text := by
  intro text
  induction text with
  | nil =>
      intro fuel _ hc
      exfalso
      unfold containsL at hc
      simp only [List.any_eq_true, List.mem_range] at hc
      obtain ⟨i, -, hpre⟩ := hc
      rw [List.drop_nil] at hpre
      rw [isPre_nil pat hp] at hpre
      cases hpre
  | cons c cs ih =>
      intro fuel hlen hc
      cases fuel with
      | zero => simp at hlen
      | succ f =>
          simp only [countOccF]
          by_cases hpre : isPre pat (c :: cs) = true
          · rw [if_pos (by simp [hpre, hp])]
            omega
          · rw [if_neg (by simp [hpre])]
            refine ih f (by simpa using hlen) ?_
            exact containsL_cons c cs pat hc (by simpa using hpre)

theorem countOcc_pos (text pat : List Char) (hp : pat ≠ [])
    (hc : containsL text pat = true) : 1 ≤ countOcc text pat :=
  countOccF_pos pat hp text text.length le_rfl hc

theorem wsSplitAux_acc_mem (B acc : List Char) (hacc : acc ≠ []) :
    ∃ P ∈ wsSplitAux B acc, isPre acc.reverse P = true := by
  induction B generalizing acc with
  | nil =>
      simp only [wsSplitAux]
      rw [if_neg hacc]
      exact ⟨acc.reverse, by simp, isPre_refl _⟩
  | cons c cs ih =>
      simp only [wsSplitAux]
      by_cases hws : jsWsChar c
      · rw [if_pos hws, if_neg hacc]
        exact ⟨acc.reverse, by simp, isPre_refl _⟩
      · rw [if_neg hws]
        obtain ⟨P, hP, hpre⟩ := ih (c :: acc) (by simp)
        refine ⟨P, hP, ?_⟩
        rw [List.reverse_cons] at hpre
        exact isPre_of_append_left _ _ _ hpre

theorem wsSplitAux_word_prefix (m : List Char) (hmw : ∀ c ∈ m, jsWsChar c = false) :
    ∀ (B acc : List Char), acc ≠ [] ∨ m ≠ [] →
      ∃ P ∈ wsSplitAux (m ++ B) acc, isPre (acc.reverse ++ m) P = true := by
  induction m with
  | nil =>
      intro B acc hne
      rcases hne with hne | hne
      · obtain ⟨P, hP, hpre⟩ := wsSplitAux_acc_mem B acc hne
        exact ⟨P, hP, by simpa using hpre⟩
      · exact absurd rfl hne
  | cons c m' ih =>
      intro B acc _
      simp only [List.cons_append, wsSplitAux]
      rw [if_neg (by simp [hmw c (by simp)])]
      obtain ⟨P, hP, hpre⟩ := ih (fun x hx => hmw x (List.mem_cons_of_mem _ hx)) B (c :: acc)
        (Or.inl (by simp))
      refine ⟨P, hP, ?_⟩
      rw [List.reverse_cons, List.append_assoc] at hpre
      simpa using hpre

theorem wsSplitAux_word_suffix (d : List Char) (hdw : ∀ c ∈ d, jsWsChar c = false) :
    ∀ (B acc : List Char), acc ≠ [] ∨ d ≠ [] →
      ∃ P ∈ wsSplitAux (d ++ ' ' :: B) acc, P = acc.reverse ++ d := by
  induction d with
  | nil =>
      intro B acc hne
      rcases hne with hne | hne
      · simp only [List.nil_append, wsSplitAux]
        rw [if_pos (by rfl), if_neg hne]
        exact ⟨acc.reverse, by simp, by simp⟩
      · exact absurd rfl hne
  | cons c d' ih =>
      intro B acc _
      simp only [List.cons_append, wsSplitAux]
      rw [if_neg (by simp [hdw c (by simp)])]
      obtain ⟨P, hP, hPeq⟩ := ih (fun x hx => hdw x (List.mem_cons_of_mem _ hx)) B (c :: acc)
        (Or.inl (by simp))
      refine ⟨P, hP, ?_⟩
      rw [hPeq, List.reverse_cons, List.append_assoc]
      simp

theorem wsSplit_mem_prefix (A m B : List Char) (hm : m ≠ [])
    (hmw : ∀ c ∈ m, jsWsChar c = false) :
    ∃ P ∈ wsSplit (A ++ ' ' :: (m ++ B)), isPre m P = true := by
  suffices h : ∀ acc, ∃ P ∈ wsSplitAux (A ++ ' ' :: (m ++ B)) acc, isPre m P = true from h []
  induction A with
  | nil =>
      intro acc
      simp only [List.nil_append, wsSplitAux]
      rw [if_pos (by rfl)]
      obtain ⟨P, hP, hpre⟩ := wsSplitAux_word_prefix m hmw B [] (Or.inr hm)
      split
      · exact ⟨P, hP, by simpa using hpre⟩
      · exact ⟨P, List.mem_cons_of_mem _ hP, by simpa using hpre⟩
  | cons a A' ih =>
      intro acc
      simp only [List.cons_append, wsSplitAux]
      by_cases hws : jsWsChar a
      · rw [if_pos hws]
        split
        · exact ih []
        · obtain ⟨P, hP, hpre⟩ := ih []
          exact ⟨P, List.mem_cons_of_mem _ hP, hpre⟩
      · rw [if_neg hws]
        exact ih (a :: acc)

theorem wsSplit_mem_suffix (A d B : List Char) (hd : d ≠ [])
    (hdw : ∀ c ∈ d, jsWsChar c = false) :
    ∃ P ∈ wsSplit (A ++ (d ++ ' ' :: B)), ∃ pre, P = pre ++ d := by
  suffices h : ∀ acc, ∃ P ∈ wsSplitAux (A ++ (d ++ ' ' :: B)) acc, ∃ pre, P = pre ++ d from h []
  induction A with
  | nil =>
      intro acc
      obtain ⟨P, hP, hPeq⟩ := wsSplitAux_word_suffix d hdw B acc (Or.inr hd)
      exact ⟨P, by simpa using hP, acc.reverse, hPeq⟩
  | cons a A' ih =>
      intro acc
      simp only [List.cons_append, wsSplitAux]
      by_cases hws : jsWsChar a
      · rw [if_pos hws]
        split
        · exact ih []
        · obtain ⟨P, hP, hpre⟩ := ih []
          exact ⟨P, List.mem_cons_of_mem _ hP, hpre⟩
      · rw [if_neg hws]
        exact ih (a :: acc)

end ATS

namespace KeywordExtractor

open ATS

theorem constituent_check : ∀ p ∈ COMMON_PHRASES, ∀ w ∈ splitWords p,
    (' ' ∉ w) ∧ normalizeTerm w = w ∧
    (0 < (calculateIDF w).num ∧ 0 < (calculateIDF w).den ∧
      ((calculateIDF w).num < 3 * (calculateIDF w).den ∨
        w = str "visualization" ∨ w = str "stakeholder" ∨ w = str "modeling")) := by decide

theorem phrase_has_space : ∀ q ∈ COMMON_PHRASES, (' ' : Char) ∈ q := by decide

theorem idf_visualization : calculateIDF (str "visualization") = ⟨6, 2⟩ := by decide

theorem idf_stakeholder : calculateIDF (str "stakeholder") = ⟨6, 2⟩ := by decide

theorem stop_data_suffix : ∀ s ∈ STOP_WORDS, endsWithL (str "data") s = false := by decide

theorem stop_management_prefix : ∀ s ∈ STOP_WORDS, isPre (str "management") s = false := by
  decide

theorem visualization_phrase : ∀ p ∈ COMMON_PHRASES,
    str "visualization" ∈ splitWords p → p = str "data visualization" := by decide

theorem stakeholder_phrase : ∀ p ∈ COMMON_PHRASES,
    str "stakeholder" ∈ splitWords p → p = str "stakeholder management" := by decide

theorem idf_modeling : calculateIDF (str "modeling") = ⟨6, 2⟩ := by decide

theorem stop_financial_suffix : ∀ s ∈ STOP_WORDS, endsWithL (str "financial") s = false := by
  decide

theorem modeling_phrase : ∀ p ∈ COMMON_PHRASES,
    str "modeling" ∈ splitWords p → p = str "financial modeling" := by decide

end KeywordExtractor

namespace KeywordExtractor

open ATS

theorem cleanText_lower (jd : List Char) : lowerL (cleanText jd) = cleanText jd := by
  unfold cleanText
  split
  · rfl
  · exact lowerL_idem _

theorem space_mem_of_multi (t : List Char) (h : 2 ≤ (splitWords t).length) :
    (' ' : Char) ∈ t := by
  by_contra hsp
  rw [show splitWords t = splitOnChar ' ' t from rfl, splitOnChar_eq_self ' ' t hsp] at h
  simp at h

theorem isNumericToken_digits (w : List Char) (h : isNumericToken w = true) :
    ∀ c ∈ w, 48 ≤ c.toNat ∧ c.toNat ≤ 57 := by
  unfold isNumericToken at h
  simp only [Bool.and_eq_true, List.all_eq_true] at h
  intro c hc
  have := h.2 c hc
  simp only [Bool.and_eq_true, decide_eq_true_eq] at this
  exact this

/-- The shape of a kept word item of the ranking. -/
theorem wordItems_shape (cleaned : List Char) (x : ScoredItem) (hx : x ∈ wordItems cleaned) :
    ∃ t, t ∈ nubKeepFirst (tokenize cleaned) ∧ x.term = t ∧
      x.score = fracMul ⟨((tokenize cleaned).count t : ℤ), ((tokenize cleaned).length : ℤ)⟩
        (calculateIDF t) ∧ x.isPhrase = false := by
  unfold wordItems at hx
  dsimp only at hx
  obtain ⟨t, ht, hteq⟩ := List.mem_map.1 hx
  subst hteq
  exact ⟨t, ht, rfl, rfl, rfl⟩

/-- The shape of a kept phrase item of the ranking. -/
theorem phraseItems_shape (cleaned : List Char) (x : ScoredItem) (hx : x ∈ phraseItems cleaned) :
    x.term ∈ COMMON_PHRASES ∧ containsL (lowerL cleaned) x.term = true ∧
      x.score = ⟨(countOcc (lowerL cleaned) x.term : ℤ) * 3, 1⟩ ∧ x.isPhrase = true := by
  unfold phraseItems at hx
  obtain ⟨pf, hpf, hpfeq⟩ := List.mem_map.1 hx
  unfold extractPhrases at hpf
  obtain ⟨a, ha, haeq⟩ := List.mem_filterMap.1 hpf
  by_cases hc : containsL (lowerL cleaned) a = true
  · rw [if_pos hc] at haeq
    cases haeq
    subst hpfeq
    exact ⟨ha, hc, rfl, rfl⟩
  · rw [if_neg hc] at haeq
    cases haeq

theorem rankedItems_pairwise (cleaned : List Char) :
    (rankedItems cleaned).Pairwise (fun a b => fracLe b.score a.score = true) := by
  unfold rankedItems
  refine stableSortBy_pairwise _ (fun x => 0 < x.score.den) ?_ ?_ _ ?_
  · intro a b _ _
    exact fracLe_total b.score a.score
  · intro a b c ha hb hc h1 h2
    exact fracLe_trans c.score b.score a.score hb hc ha h2 h1
  · intro y hy
    rcases List.mem_append.1 hy with hy | hy
    · obtain ⟨t, ht, -, hscore, -⟩ := wordItems_shape cleaned y hy
      rw [hscore]
      show 0 < ((tokenize cleaned).length : ℤ) * (calculateIDF t).den
      have htok : t ∈ tokenize cleaned := nubAux_subset _ [] t ht
      have hlen : 0 < (tokenize cleaned).length := List.length_pos.2 (by
        intro he
        rw [he] at htok
        simp at htok)
      exact mul_pos (by exact_mod_cast hlen) (calculateIDF_den_pos t)
    · obtain ⟨-, -, hscore, -⟩ := phraseItems_shape cleaned y hy
      rw [hscore]
      show (0 : ℤ) < 1
      omega

end KeywordExtractor

namespace KeywordExtractor

open ATS

/-- If the cleaned text contains word d directly followed by a space, some
whitespace-split piece of it ends in d; when no stop word ends in d, d has a
non-digit and length at least 2, that piece is a token, so not every token
can equal a word w that does not end in d. -/
theorem not_all_tokens_suffix (cleaned w d A B : List Char)
    (hsplit : cleaned = A ++ (d ++ ' ' :: B)) (hd : d ≠ [])
    (hdw : ∀ c ∈ d, jsWsChar c = false) (hd2 : 2 ≤ d.length)
    (hstop : ∀ s ∈ STOP_WORDS, endsWithL d s = false)
    (hdig : ∃ c ∈ d, ¬(48 ≤ c.toNat ∧ c.toNat ≤ 57))
    (hwend : endsWithL d w = false)
    (hall : ∀ b ∈ tokenize cleaned, b = w) : False := by
  have hx := wsSplit_mem_suffix A d B hd hdw
  rw [← hsplit] at hx
  obtain ⟨P, hP, pre, hPeq⟩ := hx
  by_cases hkeep : keepToken P = true
  · have hPtok : P ∈ tokenize cleaned := List.mem_filter.2 ⟨hP, hkeep⟩
    have hPw : P = w := hall P hPtok
    have : endsWithL d w = true := by
      rw [← hPw, hPeq]
      exact endsWith_append_self pre d
    rw [hwend] at this
    cases this
  · have hlen : 2 ≤ P.length := by
      rw [hPeq, List.length_append]
      omega
    by_cases hst : STOP_WORDS.contains P = true
    · have hPmem : P ∈ STOP_WORDS := by simpa using hst
      have := hstop P hPmem
      rw [hPeq, endsWith_append_self pre d] at this
      cases this
    · by_cases hnum : isNumericToken P = true
      · obtain ⟨c, hcd, hcdig⟩ := hdig
        exact hcdig (isNumericToken_digits P hnum c
          (by rw [hPeq]; exact List.mem_append_right _ hcd))
      · refine hkeep ?_
        unfold keepToken
        simp only [Bool.and_eq_true, decide_eq_true_eq, Bool.not_eq_true']
        refine ⟨⟨hlen, by simpa using hst⟩, by simpa using hnum⟩

/-- Prefix variant: the cleaned text contains a space directly followed by
word m. -/
theorem not_all_tokens_prefix (cleaned w m A B : List Char)
    (hsplit : cleaned = A ++ ' ' :: (m ++ B)) (hm : m ≠ [])
    (hmw : ∀ c ∈ m, jsWsChar c = false) (hm2 : 2 ≤ m.length)
    (hstop : ∀ s ∈ STOP_WORDS, isPre m s = false)
    (hdighead : ∀ c r, m = c :: r → ¬(48 ≤ c.toNat ∧ c.toNat ≤ 57))
    (hwpre : isPre m w = false)
    (hall : ∀ b ∈ tokenize cleaned, b = w) : False := by
  have hx := wsSplit_mem_prefix A m B hm hmw
  rw [← hsplit] at hx
  obtain ⟨P, hP, hPpre⟩ := hx
  by_cases hkeep : keepToken P = true
  · have hPtok : P ∈ tokenize cleaned := List.mem_filter.2 ⟨hP, hkeep⟩
    have hPw : P = w := hall P hPtok
    rw [hPw, hwpre] at hPpre
    cases hPpre
  · obtain ⟨r, hr⟩ := isPre_exists m P hPpre
    have hlen : 2 ≤ P.length := by
      rw [hr, List.length_append]
      omega
    by_cases hst : STOP_WORDS.contains P = true
    · have hPmem : P ∈ STOP_WORDS := by simpa using hst
      have := hstop P hPmem
      rw [hr, isPre_self_append] at this
      cases this
    · by_cases hnum : isNumericToken P = true
      · cases m with
        | nil => exact hm rfl
        | cons c m' =>
            refine hdighead c m' rfl ?_
            exact isNumericToken_digits P hnum c (by rw [hr]; simp)
      · refine hkeep ?_
        unfold keepToken
        simp only [Bool.and_eq_true, decide_eq_true_eq, Bool.not_eq_true']
        refine ⟨⟨hlen, by simpa using hst⟩, by simpa using hnum⟩

end KeywordExtractor

namespace KeywordExtractor

open ATS

/-- The three constituents whose IDF reaches the phrase boost exactly: for
each, the accompanying phrase word forces a further token, so the term
frequency cannot be 1. -/
theorem special_word_contra (cleaned w p : List Char)
    (hw3 : w = str "visualization" ∨ w = str "stakeholder" ∨ w = str "modeling")
    (hpCP : p ∈ COMMON_PHRASES) (hwp : w ∈ splitWords p)
    (hcont : containsL cleaned p = true)
    (hall : ∀ b ∈ tokenize cleaned, b = w) : False := by
  rcases hw3 with hw3 | hw3 | hw3
  · subst hw3
    have hpe := visualization_phrase p hpCP hwp
    subst hpe
    obtain ⟨A, B, hAB⟩ := containsL_exists _ _ hcont
    refine not_all_tokens_suffix cleaned (str "visualization") (str "data") A
      (str "visualization" ++ B) ?_ (by decide) (by decide) (by decide)
      stop_data_suffix ⟨'d', by decide, by decide⟩ (by decide) hall
    rw [hAB]
    rfl
  · subst hw3
    have hpe := stakeholder_phrase p hpCP hwp
    subst hpe
    obtain ⟨A, B, hAB⟩ := containsL_exists _ _ hcont
    refine not_all_tokens_prefix cleaned (str "stakeholder") (str "management")
      (A ++ str "stakeholder") (B) ?_ (by decide) (by decide) (by decide)
      stop_management_prefix ?_ (by decide) hall
    · rw [hAB]
      simp [List.append_assoc]
      rfl
    · intro c r hcr
      have : c = 'm' := by
        have := congrArg (fun l => l.headD ' ') hcr
        simpa using this.symm
      rw [this]
      decide
  · subst hw3
    have hpe := modeling_phrase p hpCP hwp
    subst hpe
    obtain ⟨A, B, hAB⟩ := containsL_exists _ _ hcont
    refine not_all_tokens_suffix cleaned (str "modeling") (str "financial") A
      (str "modeling" ++ B) ?_ (by decide) (by decide) (by decide)
      stop_financial_suffix ⟨'f', by decide, by decide⟩ (by decide) hall
    rw [hAB]
    rfl

end KeywordExtractor

open ATS KeywordExtractor in
/-- C9: in extractKeywords, a multi-word phrase kept in the returned keyword
list suppresses its constituent single words: no constituent of a kept
phrase also appears standalone in the list.  Phrases rank with score at
least 3 (occurrence count times the 3.0 boost); a constituent word's
TF-IDF score is strictly below 3 — its IDF is below 3 except for the three
constituents visualization, stakeholder and modeling, whose IDF is exactly
3 but whose term frequency cannot reach 1 because the phrase's other word
forces a further token — so the stable descending sort places the phrase
first, and the deduplication loop marks every constituent as seen when the
phrase is kept. -/
theorem C9_phrase_suppresses_words (jd : List Char) (m : ℤ) (p : List Char)
    (hp : p ∈ (extractKeywords jd m).all)
    (hmulti : 2 ≤ (splitWords p).length) :
    ∀ w ∈ splitWords p, w ∉ (extractKeywords jd m).all := by
  intro w hw hwin
  by_cases hjd : jd = []
  · rw [hjd] at hp
    refine absurd hp ?_
    rw [show extractKeywords [] m = ⟨[], [], [], [], 0, []⟩ from rfl]
    simp
  unfold extractKeywords at hp hwin
  rw [if_neg hjd] at hp hwin
  dsimp only at hp hwin
  obtain ⟨itemp, hitempS, hitempT⟩ := List.mem_map.1 hp
  obtain ⟨itemw, hitemwS, hitemwT⟩ := List.mem_map.1 hwin
  have hpU : itemp ∈ uniqueItems (cleanText jd) := (jsSlice_sublist _ 0 m).subset hitempS
  have hwU : itemw ∈ uniqueItems (cleanText jd) := (jsSlice_sublist _ 0 m).subset hitemwS
  unfold uniqueItems at hpU hwU
  have hpR : itemp ∈ rankedItems (cleanText jd) := (dedup_sublist _ _).subset hpU
  have hwR : itemw ∈ rankedItems (cleanText jd) := (dedup_sublist _ _).subset hwU
  unfold rankedItems at hpR hwR
  have hpB := (mem_stableSortBy _ _ _).1 hpR
  have hwB := (mem_stableSortBy _ _ _).1 hwR
  have hspace : (' ' : Char) ∈ p := space_mem_of_multi p hmulti
  have hpPhrase : itemp ∈ phraseItems (cleanText jd) := by
    rcases List.mem_append.1 hpB with hcase | hcase
    · exfalso
      obtain ⟨t, ht, hterm, -, -⟩ := wordItems_shape _ itemp hcase
      have hws := tokens_no_ws (cleanText jd) t (nubAux_subset _ [] t ht) ' '
        (by rw [← hterm, hitempT]; exact hspace)
      exact absurd hws (by decide)
    · exact hcase
  obtain ⟨hpCP, hpCont, hpScore, hpIsP⟩ := phraseItems_shape _ itemp hpPhrase
  rw [hitempT] at hpCP hpCont hpScore
  have hwNoSpace : (' ' : Char) ∉ w := splitOnChar_not_mem ' ' p w hw
  have hwWord : itemw ∈ wordItems (cleanText jd) := by
    rcases List.mem_append.1 hwB with hcase | hcase
    · exact hcase
    · exfalso
      obtain ⟨hCP2, -, -, -⟩ := phraseItems_shape _ itemw hcase
      exact hwNoSpace (by rw [← hitemwT]; exact phrase_has_space _ hCP2)
  obtain ⟨t, htnub, htterm, hwScore, -⟩ := wordItems_shape _ itemw hwWord
  have htw : t = w := by rw [← htterm, hitemwT]
  subst htw
  have hwtok : t ∈ tokenize (cleanText jd) := nubAux_subset _ [] t htnub
  have hchk := constituent_check p hpCP t hw
  have hpairU : (uniqueItems (cleanText jd)).Pairwise
      (fun a b => fracLe b.score a.score = true) :=
    List.Pairwise.sublist (dedup_sublist _ _) (rankedItems_pairwise (cleanText jd))
  have hsupp := dedup_pairwise_suppress (rankedItems (cleanText jd)) []
  have hcomb := hpairU.and hsupp
  rcases pairwise_mem_rel _ _ hcomb itemp itemw hpU hwU with ⟨h1, h2⟩ | ⟨h1, h2⟩ | heq
  · refine h2 hpIsP ?_
    rw [hitemwT, hitempT, hchk.2.1]
    exact hw
  · have hcnt1 : 1 ≤ countOcc (lowerL (cleanText jd)) p := by
      refine countOcc_pos _ _ ?_ hpCont
      intro he
      rw [he] at hspace
      simp at hspace
    rw [hpScore, hwScore] at h1
    unfold fracLe fracMul at h1
    simp only [decide_eq_true_eq] at h1
    obtain ⟨-, -, hnum, hden, hdisj⟩ := hchk
    have hcle : ((tokenize (cleanText jd)).count t : ℤ) ≤
        ((tokenize (cleanText jd)).length : ℤ) := by
      exact_mod_cast List.count_le_length t (tokenize (cleanText jd))
    have hlen0 : 0 < ((tokenize (cleanText jd)).length : ℤ) := by
      have : 0 < (tokenize (cleanText jd)).length := List.length_pos.2 (by
        intro he
        rw [he] at hwtok
        simp at hwtok)
      exact_mod_cast this
    have hcnt1z : (1 : ℤ) ≤ (countOcc (lowerL (cleanText jd)) p : ℤ) := by exact_mod_cast hcnt1
    rcases hdisj with hlt | hsp3
    · nlinarith [mul_le_mul_of_nonneg_right hcle (le_of_lt hnum),
        mul_lt_mul_of_pos_left hlt hlen0,
        mul_le_mul_of_nonneg_right hcnt1z
          (mul_nonneg (le_of_lt hlen0) (le_of_lt hden))]
    · have hidf : calculateIDF t = ⟨6, 2⟩ := by
        rcases hsp3 with h | h | h <;> rw [h]
        · exact idf_visualization
        · exact idf_stakeholder
        · exact idf_modeling
      rw [hidf] at h1
      dsimp only at h1
      have hlec : ((tokenize (cleanText jd)).length : ℤ) ≤
          ((tokenize (cleanText jd)).count t : ℤ) := by nlinarith
      have hceq : (tokenize (cleanText jd)).count t = (tokenize (cleanText jd)).length :=
        le_antisymm (List.count_le_length t _) (by exact_mod_cast hlec)
      have hall : ∀ b ∈ tokenize (cleanText jd), b = t := by
        intro b hb
        exact (List.count_eq_length.1 hceq b hb).symm
      refine special_word_contra (cleanText jd) t p hsp3 hpCP hw ?_ hall
      rw [cleanText_lower] at hpCont
      exact hpCont
  · have hpt : p = t := by rw [← hitempT, heq, hitemwT]
    rw [hpt] at hspace
    exact hwNoSpace hspace

open ATS KeywordExtractor in
/-- C9 witness: "machine learning" is kept for the job description
"machine learning models" and suppresses the standalone "machine". -/
theorem C9_witness :
    str "machine learning" ∈ (extractKeywords (str "machine learning models") 35).all ∧
    2 ≤ (splitWords (str "machine learning")).length ∧
    str "machine" ∉ (extractKeywords (str "machine learning models") 35).all :=
  ⟨by decide, by decide,
    C9_phrase_suppresses_words (str "machine learning models") 35 (str "machine learning")
      (by decide) (by decide) (str "machine") (by decide)⟩
